import Mathlib

/-!
# dropboxfuse: the path index (`htbl.c`) and the overlay controller (`dropboxFuse.c`)

A shallow embedding of the C sources, with the recursive `mkdir` of `utils.c`, the path
encoding of `dropboxOAuth.c` and the option parsing of `dropbox.c`.

* A C string is the list of its bytes before the terminating NUL.
* A pointer is `Option Nat`: `none` is `NULL`, `some a` is the address `a`.
* The `entryNode` objects live in an explicit heap, `htbl.cells`: address `a` is the index
  `a` of the list, `malloc` appends a cell (addresses are never handed out twice) and `free`
  turns the cell into `none`.  Going through a pointer to a freed cell is undefined behaviour
  in C; the embedding reports it as `Fault.useAfterFree`.
* Loops that follow `next` pointers take their fuel from the size of the heap: a chain
  that is longer than the heap visits some cell twice and therefore never ends in C.
* Blocks of bytes (`malloc`, `realloc`) are lists of bytes with bounds-checked writes; the
  allocator grants a block up to a size `limit` that is a parameter of the functions.
* A variadic argument list is the list of its arguments, each with the type it was passed
  with.
-/

namespace DropboxFuse

/-- The ways in which the C code leaves defined behaviour. -/
inductive Fault where
  /-- a read or write through a pointer to a node that was released with `free` -/
  | useAfterFree
  /-- a read or write through a pointer that points into no object -/
  | wildPointer
  /-- a read or write through `NULL` -/
  | nullDeref
  /-- `x % 0` -/
  | divByZero
  /-- signed integer overflow -/
  | intOverflow
  /-- a loop that never ends -/
  | diverges
deriving DecidableEq, Repr

instance instDecidableEqExcept {ε α : Type} [DecidableEq ε] [DecidableEq α] :
    DecidableEq (Except ε α)
  | .ok a, .ok b =>
    if h : a = b then isTrue (by rw [h]) else isFalse (by intro e; cases e; exact h rfl)
  | .error a, .error b =>
    if h : a = b then isTrue (by rw [h]) else isFalse (by intro e; cases e; exact h rfl)
  | .ok _, .error _ => isFalse (by intro e; cases e)
  | .error _, .ok _ => isFalse (by intro e; cases e)

/-- A C string: its bytes (1..255) before the terminating NUL. -/
abbrev CString := List Nat

/-! ## htbl.c -/

/-- The seed of the hash, `#define HASH_NUMBER 5381`. -/
def HASH_NUMBER : Nat := 5381

/-- The value of `key[i]` once converted to `unsigned int` for the addition in `hashKey`.
`key` is a `char*` and plain `char` is signed on the x86-64 Linux ABI the program is built
for, so a byte above 127 is a negative `int` and converts to `2^32 - 256 + byte`. -/
def charToUnsigned (c : Nat) : Nat :=
  if c % 256 < 128 then c % 256 else 2 ^ 32 - 256 + c % 256

/-- Source: `hashKey`, `hash = ((hash << 5) + hash) + key[i]` in `unsigned int`
arithmetic, from `HASH_NUMBER`. -/
def hashKey (key : CString) : Nat :=
  key.foldl
    (fun hash c => (((hash * 2 ^ 5) % 2 ^ 32 + hash) % 2 ^ 32 + charToUnsigned c) % 2 ^ 32)
    HASH_NUMBER

/-- Source: `struct entryNode`; `next` and `previous` are heap addresses. -/
structure entryNode (α : Type) where
  key : CString
  data : Option α
  next : Option Nat
  previous : Option Nat
deriving DecidableEq, Repr

/-- Source: `struct htbl` together with the heap that holds its nodes: `cells[a]` is the
node at address `a`, or `none` once it was freed; `matrix` is the bucket array. -/
structure htbl (α : Type) where
  cells : List (Option (entryNode α))
  matrix : List (Option Nat)
  size : Nat
deriving DecidableEq, Repr

/-- Read of the node at address `a` (`node->...`). -/
def deref {α : Type} (cells : List (Option (entryNode α))) (a : Nat) :
    Except Fault (entryNode α) :=
  match cells[a]? with
  | some (some n) => .ok n
  | some none => .error .useAfterFree
  | none => .error .wildPointer

/-- The loop of `getNodeForKey`:
`while(node && strcmp(key, node->pair.key) != 0) node = node->next;`. -/
def findNode {α : Type} (cells : List (Option (entryNode α))) (key : CString) :
    Nat → Option Nat → Except Fault (Option Nat)
  | _, none => .ok none
  | 0, some _ => .error .diverges
  | fuel + 1, some a =>
    match deref cells a with
    | .error f => .error f
    | .ok n => if n.key = key then .ok (some a) else findNode cells key fuel n.next

/-- Source: `getNodeForKey`; gives the node found (or `NULL`) and the bucket `*index`. -/
def getNodeForKey {α : Type} (tbl : htbl α) (key : CString) :
    Except Fault (Option Nat × Nat) :=
  if tbl.size = 0 then .error .divByZero
  else
    match tbl.matrix[hashKey key % tbl.size]? with
    | none => .error .wildPointer
    | some head =>
      match findNode tbl.cells key tbl.cells.length head with
      | .error f => .error f
      | .ok node => .ok (node, hashKey key % tbl.size)

/-- The node that `newNode` gets from `malloc` once its `next` and `previous` are written;
`pair.key` and `pair.data` are not initialised yet. -/
def mallocNode {α : Type} (head : Option Nat) : entryNode α :=
  { key := [], data := none, next := head, previous := none }

/-- Source: `newNode`; the new node is put in front of the chain of bucket `index`.
Its `key` and `data` are written by the caller. -/
def newNode {α : Type} (tbl : htbl α) (index : Nat) : Except Fault (Nat × htbl α) :=
  match tbl.matrix[index]? with
  | none => .error .wildPointer
  | some head =>
    let cells1 := tbl.cells ++ [some (mallocNode head)]
    match head with
    | none =>
      .ok (tbl.cells.length,
        { tbl with cells := cells1, matrix := tbl.matrix.set index (some tbl.cells.length) })
    | some h =>
      match deref cells1 h with
      | .error f => .error f
      | .ok hn =>
        .ok (tbl.cells.length,
          { tbl with
            cells := cells1.set h (some { hn with previous := some tbl.cells.length })
            matrix := tbl.matrix.set index (some tbl.cells.length) })

/-- Source: `htblCreate`. -/
def htblCreate (α : Type) (size : Nat) : htbl α :=
  { cells := [], matrix := List.replicate size none, size := size }

/-- Source: `htblGet`. -/
def htblGet {α : Type} (tbl : htbl α) (key : CString) : Except Fault (Option α) :=
  match getNodeForKey tbl key with
  | .error f => .error f
  | .ok (none, _) => .ok none
  | .ok (some a, _) =>
    match deref tbl.cells a with
    | .error f => .error f
    | .ok n => .ok n.data

/-- Source: `htblSet`; gives the previous data and the table afterwards. -/
def htblSet {α : Type} (tbl : htbl α) (key : CString) (data : Option α) :
    Except Fault (Option α × htbl α) :=
  match getNodeForKey tbl key with
  | .error f => .error f
  | .ok (some a, _) =>
    match deref tbl.cells a with
    | .error f => .error f
    | .ok n => .ok (n.data, { tbl with cells := tbl.cells.set a (some { n with data := data }) })
  | .ok (none, tblIndex) =>
    match newNode tbl tblIndex with
    | .error f => .error f
    | .ok (a, tbl1) =>
      match deref tbl1.cells a with
      | .error f => .error f
      | .ok n =>
        .ok (none,
          { tbl1 with cells := tbl1.cells.set a (some { n with key := key, data := data }) })

/-- The write `node->previous->next = node->next` of `htblRemove`. -/
def setNext {α : Type} (cells : List (Option (entryNode α))) (p : Nat) (nx : Option Nat) :
    Except Fault (List (Option (entryNode α))) :=
  match deref cells p with
  | .error f => .error f
  | .ok pn => .ok (cells.set p (some { pn with next := nx }))

/-- The write `node->next->previous = node->previous` of `htblRemove`. -/
def setPrevious {α : Type} (cells : List (Option (entryNode α))) (q : Nat) (pv : Option Nat) :
    Except Fault (List (Option (entryNode α))) :=
  match deref cells q with
  | .error f => .error f
  | .ok qn => .ok (cells.set q (some { qn with previous := pv }))

/-- Source: `htblRemove`; gives the removed data and the table afterwards.  The bucket
head `matrix[index]` is written only when the node has neither a predecessor nor a
successor. -/
def htblRemove {α : Type} (tbl : htbl α) (key : CString) :
    Except Fault (Option α × htbl α) :=
  match getNodeForKey tbl key with
  | .error f => .error f
  | .ok (none, _) => .ok (none, tbl)
  | .ok (some a, index) =>
    match deref tbl.cells a with
    | .error f => .error f
    | .ok node =>
      match node.previous, node.next with
      | none, none =>
        .ok (node.data,
          { tbl with matrix := tbl.matrix.set index none, cells := tbl.cells.set a none })
      | previous, next =>
        let step1 : Except Fault (List (Option (entryNode α))) :=
          match previous with
          | none => .ok tbl.cells
          | some p => setNext tbl.cells p next
        match step1 with
        | .error f => .error f
        | .ok cells1 =>
          let step2 : Except Fault (List (Option (entryNode α))) :=
            match next with
            | none => .ok cells1
            | some q => setPrevious cells1 q previous
          match step2 with
          | .error f => .error f
          | .ok cells2 => .ok (node.data, { tbl with cells := cells2.set a none })

/-- Source: `htblExists`. -/
def htblExists {α : Type} (tbl : htbl α) (key : CString) : Except Fault Bool :=
  match getNodeForKey tbl key with
  | .error f => .error f
  | .ok (node, _) => .ok node.isSome

/-- The inner loop of `htblCount`, `for (n = matrix[i]; n != NULL; n = n->next) count++;`
with `count` an `unsigned int`. -/
def countChain {α : Type} (cells : List (Option (entryNode α))) :
    Nat → Option Nat → Nat → Except Fault Nat
  | _, none, count => .ok count
  | 0, some _, _ => .error .diverges
  | fuel + 1, some a, count =>
    match deref cells a with
    | .error f => .error f
    | .ok n => countChain cells fuel n.next ((count + 1) % 2 ^ 32)

/-- The outer loop of `htblCount` over the buckets `is`. -/
def countBuckets {α : Type} (tbl : htbl α) : List Nat → Nat → Except Fault Nat
  | [], count => .ok count
  | i :: is, count =>
    match tbl.matrix[i]? with
    | none => .error .wildPointer
    | some head =>
      match countChain tbl.cells tbl.cells.length head count with
      | .error f => .error f
      | .ok count1 => countBuckets tbl is count1

/-- Source: `htblCount`.  The loop variable is an `int` compared with the `unsigned`
size, so it overflows when the table has more than `INT_MAX` buckets. -/
def htblCount {α : Type} (tbl : htbl α) : Except Fault Nat :=
  if 2 ^ 31 ≤ tbl.size then .error .intOverflow
  else countBuckets tbl (List.range tbl.size) 0


/-- The heap `cells2` keeps every live node of `cells1`, with the same key and `next`, and
with the same data except possibly at address `ex`. -/
def Ext {α : Type} (cells1 cells2 : List (Option (entryNode α))) (ex : Option Nat) : Prop :=
  ∀ a n, cells1[a]? = some (some n) →
    ∃ n2, cells2[a]? = some (some n2) ∧ n2.key = n.key ∧ n2.next = n.next ∧
      (some a ≠ ex → n2.data = n.data)


/-! ## dropbox.h, errno.h, sys/stat.h -/

/-- Source: `DRBERR_OK = 0` of `dropbox.h`. -/
def DRBERR_OK : Int := 0

def ENOENT : Int := 2
def EBADF : Int := 9
def EEXIST : Int := 17
def EISDIR : Int := 21

/-- The file type bits of `st_mode`, octal 0040000 and 0100000. -/
def S_IFDIR : Nat := 16384
def S_IFREG : Nat := 32768

/-- Source: `drbMetadata` of `dropbox.h`, with the fields that `dropboxFuse.c` reads.  Every
field is a pointer in C and is `NULL` (`none`) when the server's answer lacks it. -/
structure drbMetadata where
  bytes : Option Nat
  isDir : Option Bool
  path : Option CString
  revision : Option Nat
  isDeleted : Option Bool
  contents : Option (List drbMetadata)

/-- The fields of `struct stat` that `dropbox_getattr` writes. -/
structure stat where
  st_mode : Nat
  st_nlink : Nat
  st_size : Nat
deriving DecidableEq, Repr

/-! ## The local file system under the cache root

A finite map from path to inode; the first binding of a path is the one that counts.  A path
names its inode only when the directories above it are there: every prefix of the path that
ends before a `'/'`, the leading one apart, has to be bound to a directory.  Paths are taken
as the handlers build them, without `.`, `..`, doubled or trailing `'/'`. -/

inductive Inode where
  | file (content : List Nat)
  | dir (st_size : Nat) (st_nlink : Nat)
deriving DecidableEq, Repr

abbrev FileSystem := List (CString × Inode)

def fsFind : FileSystem → CString → Option Inode
  | [], _ => none
  | (q, i) :: fs, p => if q = p then some i else fsFind fs p

def fsRemove : FileSystem → CString → FileSystem
  | [], _ => []
  | (q, i) :: fs, p => if q = p then fsRemove fs p else (q, i) :: fsRemove fs p

def fsStore (fs : FileSystem) (p : CString) (i : Inode) : FileSystem :=
  (p, i) :: fsRemove fs p

/-- Whether the inode is a directory. -/
def isDirectory : Option Inode → Bool
  | some (.dir _ _) => true
  | _ => false

/-- Whether the prefix of `p` of length `k` is a directory, when `p` has a `'/'` at the index
`k` and `k` is not 0. -/
def parentIsDir (fs : FileSystem) (p : CString) (k : Nat) : Bool :=
  k = 0 || p[k]? != some 47 || isDirectory (fsFind fs (p.take k))

/-- Whether every directory above `p` is there: the walk that path resolution makes through
the components of `p` before the last one. -/
def parentsAreDirs (fs : FileSystem) (p : CString) : Bool :=
  (List.range p.length).all (parentIsDir fs p)

/-- What the path `p` names, if anything; the empty path names nothing, and neither does a
path below a missing directory or below a regular file. -/
def fsLookup (fs : FileSystem) (p : CString) : Option Inode :=
  if p = [] then none else if parentsAreDirs fs p then fsFind fs p else none

def ENOTDIR : Int := 20

/-- The `errno` of a call on a path that names nothing: `ENOTDIR` when the first component
that stops the walk is a regular file, `ENOENT` otherwise. -/
def lookupErrno (fs : FileSystem) (p : CString) : Int :=
  match (List.range p.length).find? (fun k => !parentIsDir fs p k) with
  | some k => if (fsFind fs (p.take k)).isSome then ENOTDIR else ENOENT
  | none => ENOENT

/-- The test `access(path, F_OK) == 0`. -/
def access (fs : FileSystem) (p : CString) : Bool :=
  (fsLookup fs p).isSome

/-- The call `unlink(path)`: removes a regular file, fails on anything else. -/
def unlink (fs : FileSystem) (p : CString) : FileSystem :=
  match fsLookup fs p with
  | some (.file _) => fsRemove fs p
  | _ => fs

/-- The call `mkdir(path, mode)`: fails when the path exists already or is empty, and when a
directory above it is not there. -/
def mkdir (fs : FileSystem) (p : CString) : FileSystem :=
  if p = [] ∨ (fsLookup fs p).isSome ∨ parentsAreDirs fs p = false then fs
  else (p, .dir 4096 2) :: fs

/-- The call `open(path, O_RDONLY)`: the inode the descriptor refers to, `none` for `-1`. -/
def openRead (fs : FileSystem) (p : CString) : Option Inode :=
  fsLookup fs p

/-- The call `fopen(path, "w+")`: creates the file or truncates it; `none` is `NULL`, which
the call gives for the empty path, for a path below a missing directory or below a regular
file, and for a directory. -/
def fopenTruncate (fs : FileSystem) (p : CString) : Option FileSystem :=
  if p = [] ∨ parentsAreDirs fs p = false then none
  else
    match fsLookup fs p with
    | some (.dir _ _) => none
    | _ => some (fsStore fs p (.file []))

/-- The conversion of an `ssize_t` byte count to the `int` that the handlers return. -/
def ssizeToInt (n : Nat) : Int := ((n + 2 ^ 31) % 2 ^ 32 : Nat) - 2 ^ 31

/-- The call `pread(fd, buf, size, offset)`: the result (`-1` on failure), the bytes put in
`buf`, and `errno` when the call fails. -/
def pread (fd : Option Inode) (size offset : Nat) : Int × List Nat × Option Int :=
  match fd with
  | none => (-1, [], some EBADF)
  | some (.dir _ _) => (-1, [], some EISDIR)
  | some (.file content) =>
    (ssizeToInt ((content.drop offset).take size).length, (content.drop offset).take size, none)

/-- The call `lstat(path, stbuf)` on a path that exists. -/
def lstat (i : Inode) : stat :=
  match i with
  | .file content => { st_mode := S_IFREG, st_nlink := 1, st_size := content.length }
  | .dir size nlink => { st_mode := S_IFDIR, st_nlink := nlink, st_size := size }

/-! ## utils.c -/

/-- The loop `do { size--; } while(size >= 0 && path[size] != '/');` of `rmkdir`.  `size`
is a `size_t`, so `size >= 0` always holds: when no `'/'` is left below `size` the index
wraps around and the loop reads outside the buffer (`none`). -/
def scanSlash (path : CString) : Nat → Option Nat
  | 0 => none
  | size + 1 => if path[size]? = some 47 then some size else scanSlash path size

/-- Source: `rmkdir`.  The buffer holds `path` with a NUL written at index `size`, so the
string that `access` and `mkdir` see is `path.take size`. -/
def rmkdir (path : CString) : Nat → FileSystem → Nat → Nat → Except Fault FileSystem
  | 0, _, _, _ => .error .diverges
  | fuel + 1, fs, size, ignore =>
    if access fs (path.take size) then .ok fs
    else
      match scanSlash path size with
      | none => .error .wildPointer
      | some size1 =>
        match rmkdir path fuel fs size1 (ignore - 1) with
        | .error f => .error f
        | .ok fs1 => if ignore = 0 then .ok (mkdir fs1 (path.take size)) else .ok fs1

/-- Source: `mkdirDeep`. -/
def mkdirDeep (fs : FileSystem) (path : CString) : Except Fault FileSystem :=
  rmkdir path (path.length + 1) fs path.length 0

/-- Source: `mkdirFile`. -/
def mkdirFile (fs : FileSystem) (path : CString) : Except Fault FileSystem :=
  rmkdir path (path.length + 1) fs path.length 1

/-! ## dropboxFuse.c -/

/-- The globals `cacheRoot` and `filesTable` of `dropboxFuse.c`, and the local file system. -/
structure FuseState where
  cacheRoot : CString
  filesTable : htbl drbMetadata
  fs : FileSystem

/-- The calls made to the Dropbox client library. -/
inductive Request where
  | getMetadata (path : CString)
  | getFile (path : CString)
  | move (fromPath : CString) (toPath : CString)
  | delete (path : CString)
  | createFolder (path : CString)
  | putFile (path : CString) (content : List Nat)
deriving DecidableEq, Repr

/-- What a call that gives metadata (`drbGetMetadata`, `drbMove`) leaves: the error code
returned and the pointer stored in `*meta`. -/
structure MetadataResponse where
  err : Int
  meta : Option drbMetadata

/-- What `drbGetFile` leaves: the error code returned, the bytes it handed to `fwrite` and
the value of `errno` if the transfer wrote one. -/
structure GetFileResponse where
  err : Int
  body : List Nat
  errno : Option Int

/-- Source: `drbOAuthRequest` of `dropboxOAuth.c`, its result, which `drbGetMetadata`,
`drbGetFile`, `drbMove` and the other calls of `dropbox.c` return as it is.  `httpCode` is
the value of the local of that name at `return httpCode == 200 ? DRBERR_OK : httpCode;`: it
starts as 0 and `curl_easy_getinfo(curl, CURLINFO_RESPONSE_CODE, &httpCode)` stores the
status of the answer in it, which is 0 when the transfer got no answer (connection refused,
no route, timeout).  The value that `curl_easy_perform` returns is dropped. -/
def drbOAuthRequest (httpCode : Int) : Int :=
  if httpCode = 200 then DRBERR_OK else httpCode

/-- Source: `drbOAuthPostFile` of `dropboxOAuth.c`, its result once the request is made, which
`drbPutFile` returns as it is: the same `return httpCode == 200 ? DRBERR_OK : httpCode;`
after the same `curl_easy_getinfo`. -/
def drbOAuthPostFile (httpCode : Int) : Int :=
  if httpCode = 200 then DRBERR_OK else httpCode

/-- The POSIX `basename` of `libgen.h`: the name it returns and what its argument buffer holds
afterwards (trailing slashes are overwritten with a NUL). -/
def basename (path : CString) : CString × CString :=
  if path = [] then ([46], path)
  else
    let stripped := (path.reverse.dropWhile (fun c => c = 47)).reverse
    if stripped = [] then ([47], path)
    else ((stripped.reverse.takeWhile (fun c => c ≠ 47)).reverse, stripped)

/-- The mode that `dropbox_getattr` writes,
`755 | (meta->isDir && *meta->isDir ? S_IFDIR : S_IFREG)`. -/
def getattrMode (m : drbMetadata) : Nat :=
  755 ||| (if m.isDir = some true then S_IFDIR else S_IFREG)

/-- Source: `dropbox_getattr`.  Gives the result, `*stbuf`, the state afterwards and the
requests made. -/
def dropbox_getattr (s : FuseState) (path : CString) (stbuf : stat)
    (remote : MetadataResponse) : Except Fault (Int × stat × FuseState × List Request) :=
  match htblGet s.filesTable path with
  | .error f => .error f
  | .ok found =>
    let lookup : Except Fault (Int × Option drbMetadata × htbl drbMetadata × List Request) :=
      match found with
      | some m => .ok (DRBERR_OK, some m, s.filesTable, [])
      | none =>
        if remote.err = DRBERR_OK then
          match remote.meta with
          | none => .error .nullDeref
          | some m =>
            if m.isDeleted = none ∨ m.isDeleted = some false then
              match htblSet s.filesTable path (some m) with
              | .error f => .error f
              | .ok (_, tbl1) => .ok (DRBERR_OK, some m, tbl1, [.getMetadata path])
            else .ok (-ENOENT, some m, s.filesTable, [.getMetadata path])
        else .ok (-ENOENT, none, s.filesTable, [.getMetadata path])
    match lookup with
    | .error f => .error f
    | .ok (res, meta, tbl1, reqs) =>
      if res = DRBERR_OK then
        match meta with
        | none => .error .nullDeref
        | some m =>
          match (if access s.fs (s.cacheRoot ++ path) then fsLookup s.fs (s.cacheRoot ++ path)
                 else none) with
          | some inode =>
            .ok (0, { lstat inode with st_mode := getattrMode m },
              { s with filesTable := tbl1 }, reqs)
          | none =>
            .ok (res,
              { st_mode := getattrMode m, st_nlink := 1,
                st_size := match m.bytes with
                  | some b => b
                  | none => 0 },
              { s with filesTable := tbl1 }, reqs)
      else .ok (res, stbuf, { s with filesTable := tbl1 }, reqs)

/-- The test `!*cur->isDir && oldContent && *oldContent->revision != *curContent->revision`
of `dropbox_readdir`, evaluated from left to right. -/
def olderVersionCached (cur : drbMetadata) (oldContent : Option drbMetadata) :
    Except Fault Bool :=
  match cur.isDir with
  | none => .error .nullDeref
  | some true => .ok false
  | some false =>
    match oldContent with
    | none => .ok false
    | some old =>
      match old.revision, cur.revision with
      | some r1, some r2 => .ok (decide (r1 ≠ r2))
      | _, _ => .error .nullDeref

/-- The body of the loop of `dropbox_readdir` over `meta->contents->array`.  The table holds
the pointer `curContent`, so the write that `basename` makes into `curContent->path` shows in
the entry of the table: the entry is set again to the metadata with the path as `basename`
left it. -/
def readdirLoop (cacheRoot : CString) :
    List drbMetadata → htbl drbMetadata → FileSystem → List CString →
    Except Fault (htbl drbMetadata × FileSystem × List CString)
  | [], tbl, fs, names => .ok (tbl, fs, names)
  | curContent :: rest, tbl, fs, names =>
    match curContent.path with
    | none => .error .nullDeref
    | some path =>
      match htblSet tbl path (some curContent) with
      | .error f => .error f
      | .ok (oldContent, tbl1) =>
        match olderVersionCached curContent oldContent with
        | .error f => .error f
        | .ok older =>
          let fs1 :=
            if older && access fs (cacheRoot ++ path) then unlink fs (cacheRoot ++ path) else fs
          match htblSet tbl1 path (some { curContent with path := some (basename path).2 }) with
          | .error f => .error f
          | .ok (_, tbl2) => readdirLoop cacheRoot rest tbl2 fs1 (names ++ [(basename path).1])

/-- Source: `dropbox_readdir`.  Gives the result, the names handed to `filler`, the state
afterwards and the requests made. -/
def dropbox_readdir (s : FuseState) (path : CString) (remote : MetadataResponse) :
    Except Fault (Int × List CString × FuseState × List Request) :=
  if remote.err = DRBERR_OK then
    match remote.meta with
    | none => .error .nullDeref
    | some m =>
      match m.contents with
      | none => .ok (DRBERR_OK, [[46], [46, 46]], s, [.getMetadata path])
      | some contents =>
        match readdirLoop s.cacheRoot contents s.filesTable s.fs [[46], [46, 46]] with
        | .error f => .error f
        | .ok (tbl1, fs1, names) =>
          .ok (DRBERR_OK, names, { s with filesTable := tbl1, fs := fs1 }, [.getMetadata path])
  else .ok (-ENOENT, [], s, [.getMetadata path])

/-- Source: `dropbox_rename`. -/
def dropbox_rename (s : FuseState) (fromPath toPath : CString) (remote : MetadataResponse) :
    Except Fault (Int × FuseState × List Request) :=
  if remote.err = DRBERR_OK then
    match htblRemove s.filesTable fromPath with
    | .error f => .error f
    | .ok (_, tbl1) =>
      match htblSet tbl1 toPath remote.meta with
      | .error f => .error f
      | .ok (_, tbl2) =>
        .ok (DRBERR_OK, { s with filesTable := tbl2 }, [.move fromPath toPath])
  else .ok (-ENOENT, s, [.move fromPath toPath])

/-- Source: `dropbox_open`. -/
def dropbox_open (s : FuseState) (path : CString) : Except Fault Int :=
  match htblExists s.filesTable path with
  | .error f => .error f
  | .ok found => .ok (if found then 0 else -ENOENT)

/-- Source: `dropbox_read`.  Gives the result, the bytes put in `buf`, the state afterwards
and the requests made. -/
def dropbox_read (s : FuseState) (path : CString) (size offset : Nat)
    (remote : GetFileResponse) : Except Fault (Int × List Nat × FuseState × List Request) :=
  let cachePath := s.cacheRoot ++ path
  let fd := openRead s.fs cachePath
  let download : Except Fault (Int × FileSystem × List Request) :=
    match fd with
    | some _ => .ok (DRBERR_OK, s.fs, [])
    | none =>
      match mkdirFile s.fs cachePath with
      | .error f => .error f
      | .ok fs1 =>
        match fopenTruncate fs1 cachePath with
        | none => .error .nullDeref
        | some fs2 =>
          let fs3 := fsStore fs2 cachePath (.file remote.body)
          if remote.err ≠ DRBERR_OK then
            .ok (remote.errno.getD ENOENT, unlink fs3 cachePath, [.getFile path])
          else .ok (remote.err, fs3, [.getFile path])
  match download with
  | .error f => .error f
  | .ok (res, fs1, reqs) =>
    if res = DRBERR_OK then
      match pread fd size offset with
      | (n, buf, errno) =>
        .ok (if n = -1 then -(errno.getD 0) else n, buf, { s with fs := fs1 }, reqs)
    else .ok (res, [], { s with fs := fs1 }, reqs)


/-! ## dropboxFuse.c: the handlers that change the remote side -/

def EPERM : Int := 1

/-- The file types that `dropbox_mknod` tells apart in `mode`: `S_ISREG(mode)`,
`S_ISFIFO(mode)`, and the device nodes that are left for `mknod` (sockets and a zero file type
are left out). -/
inductive NodeType where
  | regular
  | fifo
  | device
deriving DecidableEq, Repr

/-- The call `open(path, O_CREAT | O_EXCL | O_WRONLY, mode)` followed by `close`: the file
system with the new empty file, or `errno` when the path is empty, exists, or lies below a
missing directory or a regular file. -/
def createExclusive (fs : FileSystem) (p : CString) : Except Int FileSystem :=
  if p = [] then .error ENOENT
  else if parentsAreDirs fs p = false then .error (lookupErrno fs p)
  else
    match fsLookup fs p with
    | some _ => .error EEXIST
    | none => .ok (fsStore fs p (.file []))

/-- The node that `dropbox_mknod` makes at the cache path.  A regular file is made empty; a
FIFO is made with `mkfifo` and does not show in the file system of the embedding, since the
upload that follows never returns; `mknod` of a device node fails with `EPERM`, the process
being taken to run without the privilege it needs. -/
def makeNode (fs : FileSystem) (p : CString) (type : NodeType) : Except Int FileSystem :=
  match type with
  | .regular => createExclusive fs p
  | .fifo =>
    if p = [] then .error ENOENT
    else if parentsAreDirs fs p = false then .error (lookupErrno fs p)
    else if access fs p then .error EEXIST else .ok fs
  | .device =>
    if p = [] then .error ENOENT
    else if parentsAreDirs fs p = false then .error (lookupErrno fs p)
    else if access fs p then .error EEXIST else .error EPERM

/-- What a regular file holds after `pwrite(fd, buf, size, offset)` with the `size` bytes
`data`.  A write of no byte leaves the file as it is; otherwise a gap between the end of the
file and `offset` reads as zero bytes. -/
def pwriteContent (content data : List Nat) (offset : Nat) : List Nat :=
  if data = [] then content
  else
    content.take offset ++ List.replicate (offset - content.length) 0 ++ data ++
      content.drop (offset + data.length)

/-- The call `pwrite(fd, buf, size, offset)` on a regular file: the result and the content
of the file afterwards. -/
def pwrite (content data : List Nat) (offset : Nat) : Int × List Nat :=
  (ssizeToInt data.length, pwriteContent content data offset)

/-- Source: `dropbox_mkdir`.  Gives the result, the state afterwards and the requests made. -/
def dropbox_mkdir (s : FuseState) (path : CString) (remote : MetadataResponse) :
    Except Fault (Int × FuseState × List Request) :=
  if remote.err = DRBERR_OK then
    match htblSet s.filesTable path remote.meta with
    | .error f => .error f
    | .ok (_, tbl1) => .ok (DRBERR_OK, { s with filesTable := tbl1 }, [.createFolder path])
  else .ok (-EEXIST, s, [.createFolder path])

/-- Source: `dropbox_unlink`; `remote` is the value that `drbDelete` returns. -/
def dropbox_unlink (s : FuseState) (path : CString) (remote : Int) :
    Except Fault (Int × FuseState × List Request) :=
  if remote = DRBERR_OK then
    match htblRemove s.filesTable path with
    | .error f => .error f
    | .ok (_, tbl1) =>
      .ok (DRBERR_OK,
        { s with
          filesTable := tbl1
          fs := if access s.fs (s.cacheRoot ++ path) then unlink s.fs (s.cacheRoot ++ path)
                else s.fs },
        [.delete path])
  else .ok (-ENOENT, s, [.delete path])

/-- Source: `dropbox_rmdir`; `remote` is the value that `drbDelete` returns.  The handler
ends with `return -res;`. -/
def dropbox_rmdir (s : FuseState) (path : CString) (remote : Int) :
    Except Fault (Int × FuseState × List Request) :=
  if remote = DRBERR_OK then
    match htblRemove s.filesTable path with
    | .error f => .error f
    | .ok (_, tbl1) => .ok (-DRBERR_OK, { s with filesTable := tbl1 }, [.delete path])
  else .ok (-(-ENOENT), s, [.delete path])

/-- The bytes that `drbPutFile` reads with `fread` from `fopen(cachePath, "r+")`.  The stream
is `NULL` when the path names nothing or a directory, and `fread` and `fclose` go through
it. -/
def readForUpload (fs : FileSystem) (p : CString) : Except Fault (List Nat) :=
  match fsLookup fs p with
  | some (.file content) => .ok content
  | _ => .error .nullDeref

/-- Source: `dropbox_mknod`, `type` being the file type in `mode`.  Gives the result, the
state afterwards and the requests made.  The upload of a FIFO never ends: `fread` waits for
a writer that does not come. -/
def dropbox_mknod (s : FuseState) (path : CString) (type : NodeType)
    (remote : MetadataResponse) : Except Fault (Int × FuseState × List Request) :=
  let cachePath := s.cacheRoot ++ path
  match mkdirFile s.fs cachePath with
  | .error f => .error f
  | .ok fs1 =>
    match makeNode fs1 cachePath type with
    | .error errno => .ok (-errno, { s with fs := fs1 }, [])
    | .ok fs2 =>
      if type = .fifo then .error .diverges
      else
        match readForUpload fs2 cachePath with
        | .error f => .error f
        | .ok content =>
          if remote.err = DRBERR_OK then
            match htblSet s.filesTable path remote.meta with
            | .error f => .error f
            | .ok (_, tbl1) =>
              .ok (remote.err, { s with filesTable := tbl1, fs := fs2 },
                [.putFile path content])
          else .ok (ENOENT, { s with fs := unlink fs2 cachePath }, [.putFile path content])

/-- Source: `dropbox_write` with the `size` bytes `data` of `buf`.  Gives the result, the
state afterwards and the requests made.  When `pwrite` gives `-1` the result is `-errno`,
with an `errno` that no call of the handler has set (taken as 0). -/
def dropbox_write (s : FuseState) (path : CString) (data : List Nat) (offset : Nat)
    (remote : MetadataResponse) : Except Fault (Int × FuseState × List Request) :=
  let cachePath := s.cacheRoot ++ path
  match fsLookup s.fs cachePath with
  | none => .ok (-(lookupErrno s.fs cachePath), s, [])
  | some (.dir _ _) => .ok (-EISDIR, s, [])
  | some (.file content) =>
    match pwrite content data offset with
    | (res, written) =>
      let fs1 := fsStore s.fs cachePath (.file written)
      if res = -1 then .ok (-0, { s with fs := fs1 }, [])
      else
        match readForUpload fs1 cachePath with
        | .error f => .error f
        | .ok uploaded =>
          if remote.err = DRBERR_OK then
            match htblSet s.filesTable path remote.meta with
            | .error f => .error f
            | .ok (_, tbl1) =>
              .ok (res, { s with filesTable := tbl1, fs := fs1 }, [.putFile path uploaded])
          else .ok (res, { s with fs := fs1 }, [.putFile path uploaded])


/-! ## htbl.c: the visitor loop -/

/-- The inner loop of `htblForEach`,
`while (n != NULL && action(n->pair.key, n->pair.data, arg)) n = n->next;`.  The visitor
`action` is given the state behind `arg` and gives its answer together with the state it
leaves; it does not touch the table.  The list collects the keys the visitor was called
with, in the order of the calls.  The fuel is the size of the heap, as in `findNode`: a walk
that outlasts it goes around a cycle. -/
def forEachChain {α σ : Type} (cells : List (Option (entryNode α)))
    (action : CString → Option α → σ → Bool × σ) :
    Nat → Option Nat → σ → List CString → Except Fault (σ × List CString)
  | _, none, arg, calls => .ok (arg, calls)
  | 0, some _, _, _ => .error .diverges
  | fuel + 1, some a, arg, calls =>
    match deref cells a with
    | .error f => .error f
    | .ok n =>
      match action n.key n.data arg with
      | (true, arg1) => forEachChain cells action fuel n.next arg1 (calls ++ [n.key])
      | (false, arg1) => .ok (arg1, calls ++ [n.key])

/-- The outer loop of `htblForEach` over the buckets `is`: whatever ended the walk of one
chain, the loop goes on with the next bucket. -/
def forEachBuckets {α σ : Type} (tbl : htbl α) (action : CString → Option α → σ → Bool × σ) :
    List Nat → σ → List CString → Except Fault (σ × List CString)
  | [], arg, calls => .ok (arg, calls)
  | i :: is, arg, calls =>
    match tbl.matrix[i]? with
    | none => .error .wildPointer
    | some head =>
      match forEachChain tbl.cells action tbl.cells.length head arg calls with
      | .error f => .error f
      | .ok (arg1, calls1) => forEachBuckets tbl action is arg1 calls1

/-- Source: `htblForEach`.  Gives the state behind `arg` after the last call of the visitor
and the keys the visitor was called with.  The loop variable is an `int`, as in
`htblCount`. -/
def htblForEach {α σ : Type} (tbl : htbl α) (action : CString → Option α → σ → Bool × σ)
    (arg : σ) : Except Fault (σ × List CString) :=
  if 2 ^ 31 ≤ tbl.size then .error .intOverflow
  else forEachBuckets tbl action (List.range tbl.size) arg []

/-! ## dropboxUtils.c, dropboxOAuth.c

Heap blocks of bytes.  The allocator is a parameter of the model: `limit` is the size of the
largest block it grants, a request for more gives `NULL`. -/

/-- A block of bytes on the heap; a byte that was never written is `none`. -/
abbrev Buffer := List (Option Nat)

/-- The call `malloc(size)`; `none` is `NULL`. -/
def malloc (limit size : Nat) : Option Buffer :=
  if size ≤ limit then some (List.replicate size none) else none

/-- Source: `drbRealloc`: `realloc(ptr, size)`, and the old block is freed when that fails.
The new block keeps the bytes of the old one up to the smaller of the two sizes. -/
def drbRealloc (limit : Nat) (ptr : Buffer) (size : Nat) : Option Buffer :=
  if size ≤ limit then some (ptr.take size ++ List.replicate (size - ptr.length) none)
  else none

/-- A write of the bytes `bs` at `&buf[i]`; `none` when it does not fit in the block. -/
def writeBytes (buf : Buffer) (i : Nat) (bs : List Nat) : Option Buffer :=
  if i + bs.length ≤ buf.length then
    some (buf.take i ++ bs.map some ++ buf.drop (i + bs.length))
  else none

/-- The C string that starts at the beginning of the block: the bytes before the first NUL.
Reading a byte that was never written, or past the end of the block, is a fault. -/
def stringAt : Buffer → Except Fault CString
  | [] => .error .wildPointer
  | none :: _ => .error .wildPointer
  | some c :: rest =>
    if c = 0 then .ok []
    else
      match stringAt rest with
      | .error f => .error f
      | .ok s => .ok (c :: s)

/-- The labels of the first `case` group in the `switch` of `drbEncodePath`: the digits, the
letters and the five characters `_ ~ . - /`. -/
def keptByte (c : Nat) : Bool :=
  (48 ≤ c && c ≤ 57) || (97 ≤ c && c ≤ 122) || (65 ≤ c && c ≤ 90) ||
    c = 95 || c = 126 || c = 46 || c = 45 || c = 47

/-- One digit of the `%02X` conversion: `0`..`9`, `A`..`F`. -/
def hexDigit (d : Nat) : Nat := if d < 10 then 48 + d else 55 + d

/-- The four bytes that `snprintf(&encPath[i], 4, "%%%02X", in)` writes for a byte `in`
below 256: `%`, two digits and the NUL. -/
def percentEscape (c : Nat) : List Nat := [37, hexDigit (c / 16), hexDigit (c % 16), 0]

/-- The local variables of `drbEncodePath` that the loop changes. -/
structure EncodeState where
  encPath : Option Buffer
  alloc : Nat
  newLength : Nat
  i : Nat

/-- The loop `while(length-- && encPath)` of `drbEncodePath` over the bytes that are left
in `path`; the arithmetic is the one of `size_t`, modulo `2^64`. -/
def encodeLoop (limit : Nat) : List Nat → EncodeState → Except Fault EncodeState
  | [], st => .ok st
  | c :: rest, st =>
    match st.encPath with
    | none => .ok st
    | some buf =>
      if keptByte (c % 256) then
        match writeBytes buf st.i [c % 256] with
        | none => .error .wildPointer
        | some buf1 =>
          encodeLoop limit rest { st with encPath := some buf1, i := (st.i + 1) % 2 ^ 64 }
      else
        let newLength := (st.newLength + 2) % 2 ^ 64
        let grown : Option Buffer × Nat :=
          if newLength > st.alloc then
            (drbRealloc limit buf ((st.alloc * 2) % 2 ^ 64), (st.alloc * 2) % 2 ^ 64)
          else (some buf, st.alloc)
        match grown.1 with
        | none =>
          encodeLoop limit rest
            { encPath := none, alloc := grown.2, newLength := newLength, i := st.i }
        | some buf1 =>
          match writeBytes buf1 st.i (percentEscape (c % 256)) with
          | none => .error .wildPointer
          | some buf2 =>
            encodeLoop limit rest
              { encPath := some buf2, alloc := grown.2, newLength := newLength,
                i := (st.i + 3) % 2 ^ 64 }

/-- The state of `drbEncodePath` before its loop, for a path of `length` bytes:
`newLength = alloc = length + 1; encPath = malloc(alloc); i = 0`. -/
def encodeStart (limit length : Nat) : EncodeState :=
  { encPath := malloc limit ((length + 1) % 2 ^ 64), alloc := (length + 1) % 2 ^ 64,
    newLength := (length + 1) % 2 ^ 64, i := 0 }

/-- Source: `drbEncodePath`; `path = none` is a `NULL` argument, the result `none` is a
`NULL` result. -/
def drbEncodePath (limit : Nat) (path : Option CString) : Except Fault (Option Buffer) :=
  match encodeLoop limit (path.getD []) (encodeStart limit (path.getD []).length) with
  | .error f => .error f
  | .ok st =>
    match st.encPath with
    | none => .ok none
    | some buf =>
      match drbRealloc limit buf st.newLength with
      | none => .ok none
      | some buf1 =>
        match writeBytes buf1 st.i [0] with
        | none => .error .wildPointer
        | some buf2 => .ok (some buf2)

/-! ## dropbox.h, dropbox.c: the options of the API functions -/

def DRBVAL_IGNORE_BOOL : Int := -1
def DRBVAL_IGNORE_INT : Int := -1

def DRBOPT_END : Int := 0
def DRBOPT_CURSOR : Int := 2 ^ 0
def DRBOPT_FILE_LIMIT : Int := 2 ^ 1
def DRBOPT_FORMAT : Int := 2 ^ 2
def DRBOPT_FROM_COPY_REF : Int := 2 ^ 3
def DRBOPT_FROM_PATH : Int := 2 ^ 4
def DRBOPT_HASH : Int := 2 ^ 5
def DRBOPT_INCL_DELETED : Int := 2 ^ 6
def DRBOPT_LIST : Int := 2 ^ 7
def DRBOPT_LOCALE : Int := 2 ^ 8
def DRBOPT_OVERWRITE : Int := 2 ^ 9
def DRBOPT_PATH : Int := 2 ^ 10
def DRBOPT_PARENT_REV : Int := 2 ^ 11
def DRBOPT_QUERY : Int := 2 ^ 12
def DRBOPT_REV : Int := 2 ^ 13
def DRBOPT_REV_LIMIT : Int := 2 ^ 14
def DRBOPT_ROOT : Int := 2 ^ 15
def DRBOPT_SHORT_URL : Int := 2 ^ 16
def DRBOPT_SIZE : Int := 2 ^ 17
def DRBOPT_TO_PATH : Int := 2 ^ 18
def DRBOPT_IO_DATA : Int := 2 ^ 19
def DRBOPT_IO_FUNC : Int := 2 ^ 20

def DRBERR_MISSING_OPT : Int := 1
def DRBERR_UNKNOWN_OPT : Int := 2
def DRBERR_DUPLICATED_OPT : Int := 3
def DRBERR_INVALID_VAL : Int := 4
def DRBERR_MALLOC : Int := 5
def DRBERR_UNKOWN : Int := 6

/-- The bits of an `int`, as the operators `&` and `^` see them. -/
def intBits (v : Int) : Nat := (v % 2 ^ 32).toNat

/-- Source: `#define DRBOPT_VOID 0`. -/
def DRBOPT_VOID : Nat := 0

/-- Source: the sets `DRBSA_...` of the options that a function needs itself. -/
def DRBSA_ACC_INFO : Nat := DRBOPT_VOID
def DRBSA_GET_FILES : Nat :=
  intBits DRBOPT_ROOT ||| intBits DRBOPT_PATH ||| intBits DRBOPT_IO_DATA |||
    intBits DRBOPT_IO_FUNC
def DRBSA_PUT_FILES : Nat :=
  intBits DRBOPT_ROOT ||| intBits DRBOPT_PATH ||| intBits DRBOPT_IO_DATA |||
    intBits DRBOPT_IO_FUNC
def DRBSA_METADATA : Nat := intBits DRBOPT_ROOT ||| intBits DRBOPT_PATH
def DRBSA_DELTA : Nat := DRBOPT_VOID
def DRBSA_REVISIONS : Nat := intBits DRBOPT_ROOT ||| intBits DRBOPT_PATH
def DRBSA_RESTORE : Nat := intBits DRBOPT_ROOT ||| intBits DRBOPT_PATH
def DRBSA_SEARCH : Nat := intBits DRBOPT_ROOT ||| intBits DRBOPT_PATH
def DRBSA_THUMBNAILS : Nat :=
  intBits DRBOPT_ROOT ||| intBits DRBOPT_PATH ||| intBits DRBOPT_IO_DATA |||
    intBits DRBOPT_IO_FUNC
def DRBSA_SHARES : Nat := intBits DRBOPT_ROOT ||| intBits DRBOPT_PATH
def DRBSA_MEDIA : Nat := intBits DRBOPT_ROOT ||| intBits DRBOPT_PATH
def DRBSA_COPY : Nat := DRBOPT_VOID
def DRBSA_COPY_REF : Nat := intBits DRBOPT_ROOT ||| intBits DRBOPT_PATH
def DRBSA_CREATE_FOLDER : Nat := DRBOPT_VOID
def DRBSA_DELETE : Nat := DRBOPT_VOID
def DRBSA_MOVE : Nat := DRBOPT_VOID

/-- Source: `drbOptType`, the type of the argument that an option expects. -/
inductive drbOptType where
  | DRBTYPE_BOOL
  | DRBTYPE_STR
  | DRBTYPE_INT
  | DRBTYPE_PATH
deriving DecidableEq, Repr

/-- One argument of a variadic call, with the type it was passed with. -/
inductive VaArg where
  /-- an `int` (an option code, a boolean, an integer) -/
  | int (v : Int)
  /-- a `char*`; `none` is `NULL` -/
  | str (s : Option CString)
  /-- a `void*` or a function pointer; `none` is `NULL` -/
  | ptr (p : Option Nat)
deriving DecidableEq, Repr

/-- The bytes of a string literal of the source. -/
def literal (s : String) : CString := s.toList.map Char.toNat

/-- The digits of the `%d` conversion of a number below `10 ^ fuel`, as bytes. -/
def decimalDigits : Nat → Nat → CString
  | 0, _ => []
  | fuel + 1, n =>
    if n < 10 then [48 + n] else decimalDigits fuel (n / 10) ++ [48 + n % 10]

/-- The call `strdup(s)`; `none` is `NULL`. -/
def strdup (limit : Nat) (s : CString) : Option CString :=
  if s.length + 1 ≤ limit then some s else none

/-- Source: `drbGetOptArg`.  Gives the error code, the string stored in `*value` if one was
stored, `*ignored`, and what is left of the argument list.  Reading an argument that is not
there, or with a type it was not passed with, is a fault.  The `default` label of the
`switch` is not reached, `type` being one of the four enumerators. -/
def drbGetOptArg (limit : Nat) (ap : List VaArg) (type : drbOptType) :
    Except Fault (Int × Option CString × Bool × List VaArg) :=
  match type, ap with
  | .DRBTYPE_BOOL, .int v :: rest =>
    let boolValue : Int := if v ≠ 0 then 1 else 0
    if boolValue ≠ DRBVAL_IGNORE_BOOL then
      match strdup limit (if boolValue ≠ 0 then literal "true" else literal "false") with
      | none => .ok (DRBERR_MALLOC, none, false, rest)
      | some value => .ok (DRBERR_OK, some value, false, rest)
    else .ok (DRBERR_OK, none, true, rest)
  | .DRBTYPE_INT, .int intValue :: rest =>
    if intValue ≠ DRBVAL_IGNORE_INT then
      if intValue ≥ 0 then
        match strdup limit (decimalDigits 10 intValue.toNat) with
        | none => .ok (DRBERR_MALLOC, none, false, rest)
        | some value => .ok (DRBERR_OK, some value, false, rest)
      else .ok (DRBERR_INVALID_VAL, none, false, rest)
    else .ok (DRBERR_OK, none, true, rest)
  | .DRBTYPE_STR, .str strValue :: rest =>
    match strValue with
    | some s =>
      match strdup limit s with
      | none => .ok (DRBERR_MALLOC, none, false, rest)
      | some value => .ok (DRBERR_OK, some value, false, rest)
    | none => .ok (DRBERR_OK, none, true, rest)
  | .DRBTYPE_PATH, .str strValue :: rest =>
    match strValue with
    | some s =>
      match drbEncodePath limit (some s) with
      | .error f => .error f
      | .ok none => .ok (DRBERR_MALLOC, none, false, rest)
      | .ok (some buf) =>
        match stringAt buf with
        | .error f => .error f
        | .ok value => .ok (DRBERR_OK, some value, false, rest)
    | none => .ok (DRBERR_OK, none, true, rest)
  | _, _ => .error .wildPointer

/-- The array `sArgs` that the API functions hand to `drbGetOpt` as `shArg`: the root, the
path, the I/O data and the I/O function. -/
structure ShArg where
  root : Option CString
  path : Option CString
  data : Option Nat
  func : Option Nat
deriving DecidableEq, Repr

/-- The type of the special handler `sh` of `drbGetOpt`: from the option, the argument list
and `shArg` to the error code, `*ignored`, `shArg` and the rest of the argument list. -/
abbrev SpecialHandler := Int → List VaArg → ShArg → Except Fault (Int × Bool × ShArg × List VaArg)

/-- Source: `defaultHandler`. -/
def defaultHandler (limit : Nat) : SpecialHandler := fun opt ap shArg =>
  if opt = DRBOPT_ROOT then
    match drbGetOptArg limit ap .DRBTYPE_STR with
    | .error f => .error f
    | .ok (err, value, ignored, rest) =>
      .ok (err, ignored, { shArg with root := if value.isSome then value else shArg.root }, rest)
  else if opt = DRBOPT_PATH then
    match drbGetOptArg limit ap .DRBTYPE_PATH with
    | .error f => .error f
    | .ok (err, value, ignored, rest) =>
      .ok (err, ignored, { shArg with path := if value.isSome then value else shArg.path }, rest)
  else if opt = DRBOPT_IO_DATA then
    match ap with
    | .ptr p :: rest => .ok (DRBERR_OK, false, { shArg with data := p }, rest)
    | _ => .error .wildPointer
  else if opt = DRBOPT_IO_FUNC then
    match ap with
    | .ptr p :: rest => .ok (DRBERR_OK, p.isNone, { shArg with func := p }, rest)
    | _ => .error .wildPointer
  else .ok (DRBERR_UNKOWN, true, shArg, ap)

/-- The labels of the `switch (opt)` of `drbGetOpt`, in the order of the source: the option,
its name and the type of its value. -/
def optionTable : List (Int × CString × drbOptType) :=
  [(DRBOPT_CURSOR, literal "cursor", .DRBTYPE_STR),
   (DRBOPT_FILE_LIMIT, literal "file_limit", .DRBTYPE_INT),
   (DRBOPT_FORMAT, literal "format", .DRBTYPE_STR),
   (DRBOPT_FROM_COPY_REF, literal "from_copy_ref", .DRBTYPE_STR),
   (DRBOPT_FROM_PATH, literal "from_path", .DRBTYPE_PATH),
   (DRBOPT_HASH, literal "hash", .DRBTYPE_STR),
   (DRBOPT_INCL_DELETED, literal "include_deleted", .DRBTYPE_BOOL),
   (DRBOPT_LIST, literal "list", .DRBTYPE_BOOL),
   (DRBOPT_LOCALE, literal "locale", .DRBTYPE_STR),
   (DRBOPT_OVERWRITE, literal "overwrite", .DRBTYPE_BOOL),
   (DRBOPT_PATH, literal "path", .DRBTYPE_PATH),
   (DRBOPT_PARENT_REV, literal "parent_rev", .DRBTYPE_STR),
   (DRBOPT_QUERY, literal "query", .DRBTYPE_STR),
   (DRBOPT_REV, literal "rev", .DRBTYPE_STR),
   (DRBOPT_REV_LIMIT, literal "rev_limit", .DRBTYPE_INT),
   (DRBOPT_ROOT, literal "root", .DRBTYPE_STR),
   (DRBOPT_SHORT_URL, literal "short_url", .DRBTYPE_BOOL),
   (DRBOPT_SIZE, literal "size", .DRBTYPE_STR),
   (DRBOPT_TO_PATH, literal "to_path", .DRBTYPE_PATH)]

/-- The `switch (opt)` of `drbGetOpt`: the name and the type of a normal option, `none` for
the `default` label. -/
def optionName (opt : Int) : Option (CString × drbOptType) :=
  match optionTable.find? (fun label => decide (label.1 = opt)) with
  | some label => some label.2
  | none => none

/-- The local variables of `drbGetOpt` that its loop changes, with `*args` and `shArg`;
`parsedOpts` and `special` are the bits of the two `int`s. -/
structure OptState where
  err : Int
  parsedOpts : Nat
  special : Nat
  args : Option CString
  shArg : ShArg
deriving DecidableEq, Repr

/-- The call `asprintf(&tmp, "%s&%s=%s", *args, name, value)` of `drbGetOpt`; `none` when the
allocation fails. -/
def appendArg (limit : Nat) (args name value : CString) : Option CString :=
  if (args ++ [38] ++ name ++ [61] ++ value).length + 1 ≤ limit then
    some (args ++ [38] ++ name ++ [61] ++ value)
  else none

/-- The loop `while (((opt = va_arg(*ap, int)) != DRBOPT_END) && !err)` of `drbGetOpt`.  When
`err` is set the loop ends whatever was read into `opt`, so the model does not look at the
argument then.  The fuel is the length of the argument list: every pass that leaves `err`
unset takes an argument from it. -/
def drbGetOptLoop (limit : Nat) (sh : Option SpecialHandler) :
    Nat → List VaArg → OptState → Except Fault OptState
  | 0, _, _ => .error .diverges
  | fuel + 1, ap, st =>
    if st.err ≠ 0 then .ok st
    else
      match ap with
      | .int opt :: ap1 =>
        if opt = DRBOPT_END then .ok st
        else if intBits opt &&& st.parsedOpts = 0 then
          let parsedOpts := st.parsedOpts ^^^ intBits opt
          if intBits opt &&& st.special ≠ 0 then
            match sh with
            | none => .error .nullDeref
            | some handler =>
              match handler opt ap1 st.shArg with
              | .error f => .error f
              | .ok (err, ignored, shArg, ap2) =>
                drbGetOptLoop limit sh fuel ap2
                  { st with
                    err := err, parsedOpts := parsedOpts, shArg := shArg
                    special :=
                      if err = DRBERR_OK ∧ ignored = false then st.special ^^^ intBits opt
                      else st.special }
          else
            match optionName opt with
            | none =>
              drbGetOptLoop limit sh fuel ap1
                { st with err := DRBERR_UNKNOWN_OPT, parsedOpts := parsedOpts }
            | some (name, type) =>
              match drbGetOptArg limit ap1 type with
              | .error f => .error f
              | .ok (err, value, ignored, ap2) =>
                if err = 0 ∧ ignored = false then
                  match st.args, value with
                  | some args, some v =>
                    match appendArg limit args name v with
                    | some tmp =>
                      drbGetOptLoop limit sh fuel ap2
                        { st with err := err, parsedOpts := parsedOpts, args := some tmp }
                    | none =>
                      drbGetOptLoop limit sh fuel ap2
                        { st with err := DRBERR_MALLOC, parsedOpts := parsedOpts }
                  | _, _ => .error .nullDeref
                else
                  drbGetOptLoop limit sh fuel ap2
                    { st with err := err, parsedOpts := parsedOpts }
        else drbGetOptLoop limit sh fuel ap1 { st with err := DRBERR_DUPLICATED_OPT }
      | _ => .error .wildPointer

/-- Source: `drbGetOpt`.  Gives the error code, `*args` and `shArg`. -/
def drbGetOpt (limit : Nat) (ap : List VaArg) (special : Nat) (sh : Option SpecialHandler)
    (shArg : ShArg) : Except Fault (Int × Option CString × ShArg) :=
  let start : OptState :=
    match malloc limit 1 with
    | none => { err := DRBERR_MALLOC, parsedOpts := 0, special := special, args := none,
                shArg := shArg }
    | some _ => { err := DRBERR_OK, parsedOpts := 0, special := special, args := some [],
                  shArg := shArg }
  match drbGetOptLoop limit sh (ap.length + 1) ap start with
  | .error f => .error f
  | .ok st =>
    .ok (if st.err = 0 ∧ st.special ≠ 0 then DRBERR_MISSING_OPT else st.err, st.args, st.shArg)

/-- The API functions of `dropbox.c` that parse options. -/
inductive ApiFunction where
  | drbGetAccountInfo | drbGetMetadata | drbGetFile | drbGetRevisions | drbSearch
  | drbGetThumbnail | drbCopy | drbCreateFolder | drbDelete | drbMove | drbGetDelta
  | drbRestore | drbShare | drbGetMedia | drbGetCopyRef | drbPutFile
deriving DecidableEq, Repr

/-- The argument `special` of the call of `drbGetOpt` in each API function. -/
def ApiFunction.special : ApiFunction → Nat
  | .drbGetAccountInfo => DRBSA_ACC_INFO
  | .drbGetMetadata => DRBSA_METADATA
  | .drbGetFile => DRBSA_GET_FILES
  | .drbGetRevisions => DRBSA_REVISIONS
  | .drbSearch => DRBSA_SEARCH
  | .drbGetThumbnail => DRBSA_THUMBNAILS
  | .drbCopy => DRBSA_COPY
  | .drbCreateFolder => DRBSA_CREATE_FOLDER
  | .drbDelete => DRBSA_DELETE
  | .drbMove => DRBSA_MOVE
  | .drbGetDelta => DRBSA_DELTA
  | .drbRestore => DRBSA_RESTORE
  | .drbShare => DRBSA_SHARES
  | .drbGetMedia => DRBSA_MEDIA
  | .drbGetCopyRef => DRBSA_COPY_REF
  | .drbPutFile => DRBSA_PUT_FILES

/-- Whether the API function hands `defaultHandler` to `drbGetOpt` (the others hand
`NULL`). -/
def ApiFunction.handled : ApiFunction → Bool
  | .drbGetAccountInfo | .drbCopy | .drbCreateFolder | .drbDelete | .drbMove
  | .drbGetDelta => false
  | _ => true

/-- The `sArgs` array after `memset(sArgs, 0, ...)`. -/
def emptyShArg : ShArg := { root := none, path := none, data := none, func := none }

/-- The call of `drbGetOpt` that the API function `f` makes on its variadic arguments. -/
def parseOptions (limit : Nat) (f : ApiFunction) (ap : List VaArg) :
    Except Fault (Int × Option CString × ShArg) :=
  drbGetOpt limit ap f.special (if f.handled then some (defaultHandler limit) else none)
    emptyShArg

/-! ## Predicates and scenarios used in the statements -/

/-- Inserts the pairs of `kvs` one after the other with `htblSet`, from left to right. -/
def htblSetAll {α : Type} : htbl α → List (CString × Option α) → Except Fault (htbl α)
  | tbl, [] => .ok tbl
  | tbl, (key, data) :: kvs =>
    match htblSet tbl key data with
    | .error f => .error f
    | .ok (_, tbl1) => htblSetAll tbl1 kvs

/-- The predicate `Chain cells p as`: following `next` from the pointer `p` visits exactly the
live nodes at the addresses `as`, in this order, and then reaches `NULL`. -/
def Chain {α : Type} (cells : List (Option (entryNode α))) : Option Nat → List Nat → Prop
  | p, [] => p = none
  | p, a :: as => p = some a ∧ ∃ n, cells[a]? = some (some n) ∧ Chain cells n.next as

/-- The shape of a table with `n` buckets that holds nodes for keys of `keys` only: bucket `i`
is the chain `ch i`, and the chains have `keys.length` nodes altogether. -/
structure Built {α : Type} (tbl : htbl α) (n : Nat) (keys : List CString)
    (ch : Nat → List Nat) : Prop where
  pos : 0 < n
  size_eq : tbl.size = n
  length_eq : tbl.matrix.length = n
  chain : ∀ i, i < n → ∃ head, tbl.matrix[i]? = some head ∧ Chain tbl.cells head (ch i)
  keys_mem : ∀ i, i < n → ∀ a, a ∈ ch i →
    ∃ nd, tbl.cells[a]? = some (some nd) ∧ nd.key ∈ keys
  short : ∀ i, i < n → (ch i).length ≤ tbl.cells.length
  total : ((List.range n).map (fun i => (ch i).length)).sum = keys.length

/-- The children that a metadata answer lists: `meta->contents->array`. -/
def children (remote : MetadataResponse) : List drbMetadata :=
  match remote.meta with
  | none => []
  | some m =>
    match m.contents with
    | none => []
    | some contents => contents


/-! ## Example inputs -/

/-- Metadata of a file, as the server gives it in a listing. -/
def fileMeta (path : CString) (revision : Nat) (bytes : Nat) : drbMetadata :=
  { bytes := some bytes, isDir := some false, path := some path, revision := some revision,
    isDeleted := none, contents := none }

/-- Metadata of a folder with its listing. -/
def dirMeta (path : CString) (revision : Nat) (contents : List drbMetadata) : drbMetadata :=
  { bytes := some 0, isDir := some true, path := some path, revision := some revision,
    isDeleted := none, contents := some contents }

/-- The table of `TABLE_SIZE` buckets that holds `data` for `key` and nothing else. -/
def tableOfOne (key : CString) (data : drbMetadata) : htbl drbMetadata :=
  { cells := [some { key := key, data := some data, next := none, previous := none }]
    matrix := (List.replicate 100 none).set (hashKey key % 100) (some 0)
    size := 100 }

/-- The path `/`. -/
def pathRoot : CString := [47]
/-- The path `/a.txt`; its bucket among 100 is 71. -/
def pathA : CString := [47, 97, 46, 116, 120, 116]
/-- The path `/b.txt`; its bucket among 100 is 92. -/
def pathB : CString := [47, 98, 46, 116, 120, 116]
/-- The path `/cf.txt`; its bucket among 100 is 71, as for `/a.txt`. -/
def pathCF : CString := [47, 99, 102, 46, 116, 120, 116]
/-- The cache root `/c`. -/
def rootC : CString := [47, 99]
/-- The bytes of `hello`. -/
def hello : List Nat := [104, 101, 108, 108, 111]

/-- A mounted file system right after `main`: an empty table, an empty cache directory. -/
def freshState : FuseState :=
  { cacheRoot := rootC, filesTable := htblCreate drbMetadata 100, fs := [(rootC, .dir 4096 2)] }

/-- The listing of `/` with the two files `/cf.txt` and `/a.txt`. -/
def listingTwo : MetadataResponse :=
  { err := 0, meta := some (dirMeta pathRoot 1 [fileMeta pathCF 1 5, fileMeta pathA 1 5]) }

/-- The table after the listing `listingTwo` was read into the empty table: `/a.txt` is the head
of the chain of bucket 71 and `/cf.txt` comes after it. -/
def tableTwo : htbl drbMetadata :=
  { cells :=
      [some { key := pathCF, data := some (fileMeta pathCF 1 5), next := none, previous := some 1 },
       some { key := pathA, data := some (fileMeta pathA 1 5), next := some 0, previous := none }]
    matrix := (List.replicate 100 none).set 71 (some 1)
    size := 100 }

/-- The state after `listingTwo` was read in `freshState`. -/
def stateTwo : FuseState :=
  { cacheRoot := rootC, filesTable := tableTwo, fs := [(rootC, .dir 4096 2)] }

/-- A state in which `/a.txt` is known with revision 1 and its content is in the cache. -/
def cachedState : FuseState :=
  { cacheRoot := rootC
    filesTable := tableOfOne pathA (fileMeta pathA 1 5)
    fs := [(rootC ++ pathA, .file hello), (rootC, .dir 4096 2)] }

/-- The listing of `/` in which `/a.txt` has revision 2. -/
def listingNewer : MetadataResponse :=
  { err := 0, meta := some (dirMeta pathRoot 2 [fileMeta pathA 2 7]) }

/-- The state after `listingNewer` was read in `cachedState`. -/
def refreshedState : FuseState :=
  { cacheRoot := rootC
    filesTable := tableOfOne pathA (fileMeta pathA 2 7)
    fs := [(rootC, .dir 4096 2)] }

/-- A state in which `/` is known with revision 0, from an earlier `getattr`. -/
def rootKnownState : FuseState :=
  { cacheRoot := rootC
    filesTable := tableOfOne pathRoot (dirMeta pathRoot 0 [])
    fs := [(rootC, .dir 4096 2)] }

/-- The listing of `/` with revision 1 and no children. -/
def listingEmpty : MetadataResponse :=
  { err := 0, meta := some (dirMeta pathRoot 1 []) }

/-- A download of `hello` that succeeds. -/
def downloadHello : GetFileResponse := { err := 0, body := hello, errno := none }

/-- The state after `/a.txt` was downloaded in `freshState`. -/
def downloadedState : FuseState :=
  { cacheRoot := rootC
    filesTable := htblCreate drbMetadata 100
    fs := [(rootC ++ pathA, .file hello), (rootC, .dir 4096 2)] }

/-- The answer of a move to `/b.txt` that succeeds. -/
def movedToB : MetadataResponse := { err := 0, meta := some (fileMeta pathB 2 5) }

/-- The state after `/a.txt` was renamed to `/b.txt` in `stateTwo`: bucket 71 still points to
the freed node of `/a.txt`. -/
def renamedState : FuseState :=
  { cacheRoot := rootC
    filesTable :=
      { cells :=
          [some { key := pathCF, data := some (fileMeta pathCF 1 5), next := none,
                  previous := none },
           none,
           some { key := pathB, data := some (fileMeta pathB 2 5), next := none,
                  previous := none }]
        matrix := ((List.replicate 100 none).set 71 (some 1)).set 92 (some 2)
        size := 100 }
    fs := [(rootC, .dir 4096 2)] }

/-- The paths `/a` and `/e`; both fall in bucket 1 of 4. -/
def keyA : CString := [47, 97]
def keyE : CString := [47, 101]

/-- The table of 4 buckets after `set("/a", 1)` and `set("/e", 2)`. -/
def tableAE : htbl Nat :=
  { cells :=
      [some { key := keyA, data := some 1, next := none, previous := some 1 },
       some { key := keyE, data := some 2, next := some 0, previous := none }]
    matrix := [none, some 1, none, none]
    size := 4 }

/-- The table `tableAE` after `remove("/e")`: bucket 1 still points to the freed node. -/
def tableAEremoved : htbl Nat :=
  { cells := [some { key := keyA, data := some 1, next := none, previous := none }, none]
    matrix := [none, some 1, none, none]
    size := 4 }

/-- Twenty paths `/a` .. `/t` with the values 1 .. 20. -/
def twentyPaths : List (CString × Option Nat) :=
  (List.range 20).map (fun i => ([47, 97 + i], some (i + 1)))


/-- The path `/d`. -/
def pathD : CString := [47, 100]
/-- The path `/d/f`. -/
def pathDF : CString := [47, 100, 47, 102]

/-- An answer of the server with the HTTP status 404 (not found). -/
def answer404 : MetadataResponse := { err := 404, meta := none }
/-- An answer of the server with the HTTP status 500. -/
def answer500 : MetadataResponse := { err := 500, meta := none }
/-- A download that the server refuses with the HTTP status 404. -/
def download404 : GetFileResponse := { err := 404, body := [], errno := none }
/-- A download whose connection is refused: no answer comes, so `httpCode` is 0 and
`drbGetFile` returns `drbOAuthRequest 0`; no byte was handed to `fwrite`, and `connect` left
`ECONNREFUSED` (111) in `errno`. -/
def downloadRefused : GetFileResponse :=
  { err := drbOAuthRequest 0, body := [], errno := some 111 }

/-- An upload whose connection is refused: `drbPutFile` returns `drbOAuthPostFile 0`, and
since `answer` is `NULL` it does not assign `*meta`, which keeps the `NULL` that
`dropbox_write` put in it. -/
def uploadRefused : MetadataResponse := { err := drbOAuthPostFile 0, meta := none }

/-- A move or a listing whose connection is refused: the call returns `drbOAuthRequest 0` and,
as that is 0, stores in `*meta` what `drbParseMetadata` makes of the `NULL` answer, here
`m`. -/
def requestRefused (m : Option drbMetadata) : MetadataResponse :=
  { err := drbOAuthRequest 0, meta := m }

/-- The state after the download of `/a.txt` was refused in `freshState`: the cache file that
`fopen` made is there, empty. -/
def emptyFileState : FuseState :=
  { cacheRoot := rootC
    filesTable := htblCreate drbMetadata 100
    fs := [(rootC ++ pathA, .file []), (rootC, .dir 4096 2)] }

/-- The path `/e`. -/
def pathE : CString := [47, 101]

/-- A state in which the folder `/d` is known and its file `/d/f` is in the cache, under the
cache directory `/c/d`. -/
def folderCachedState : FuseState :=
  { cacheRoot := rootC
    filesTable := tableOfOne pathD (dirMeta pathD 1 [])
    fs := [(rootC ++ pathDF, .file hello), (rootC ++ pathD, .dir 4096 2), (rootC, .dir 4096 2)] }

/-- The state `cachedState` after the two bytes `!!` were written at offset 5 of `/a.txt` and
the upload failed: the table says 5 bytes, the cache file has 7. -/
def aheadState : FuseState :=
  { cacheRoot := rootC
    filesTable := tableOfOne pathA (fileMeta pathA 1 5)
    fs := [(rootC ++ pathA, .file (hello ++ [33, 33])), (rootC, .dir 4096 2)] }

/-- A `struct stat` filled with zeros. -/
def zeroStat : stat := { st_mode := 0, st_nlink := 0, st_size := 0 }

/-- The `struct stat` that `dropbox_getattr` gives when it goes on with the metadata `m`: the
one of `lstat` when something exists at the cache path, with the mode replaced, and else
zeros with the mode, one link and the size of the metadata. -/
def getattrStat (fs : FileSystem) (cachePath : CString) (m : drbMetadata) : stat :=
  match fsLookup fs cachePath with
  | some inode => { lstat inode with st_mode := getattrMode m }
  | none =>
    { st_mode := getattrMode m, st_nlink := 1,
      st_size := match m.bytes with
        | some b => b
        | none => 0 }


/-! ## Predicates and example inputs for the hash, the visitor, `mkdirDeep` and `getattr` -/

/-- The hash as the specification words it: `h0 = 5381`, `h(i+1) = h(i) * 33 + byte(i)` with
the bytes taken as values 0..255, modulo `2^32`. -/
def djb2 (key : CString) : Nat :=
  key.foldl (fun h byte => (h * 33 + byte) % 2 ^ 32) 5381

/-- The value of a byte read through a `char*` where `char` is signed: -128..127. -/
def signedChar (byte : Nat) : Int := if byte < 128 then byte else (byte : Int) - 256

/-- The fold of `djb2` with the bytes taken as `signed char` values, modulo `2^32`. -/
def djb2Signed (key : CString) : Nat :=
  key.foldl (fun h byte => (((h : Int) * 33 + signedChar byte) % 2 ^ 32).toNat) 5381

/-- The path `/é` in UTF-8: the two bytes of `é` are above 127. -/
def pathAccent : CString := [47, 195, 169]

/-- The table of 100 buckets after `set("/a.txt", 1)` and `set("/b.txt", 2)`: one node in
bucket 71, one in bucket 92. -/
def tableAB : htbl Nat :=
  { cells :=
      [some { key := pathA, data := some 1, next := none, previous := none },
       some { key := pathB, data := some 2, next := none, previous := none }]
    matrix := ((List.replicate 100 none).set 71 (some 0)).set 92 (some 1)
    size := 100 }

/-- A visitor that counts its calls and never asks to stop. -/
def neverStop : CString → Option Nat → Nat → Bool × Nat :=
  fun _ _ count => (true, count + 1)

/-- A visitor that counts its calls and asks to stop at every call. -/
def stopAtOnce : CString → Option Nat → Nat → Bool × Nat :=
  fun _ _ count => (false, count + 1)

/-- A file system in which the root directory exists and nothing else. -/
def rootOnly : FileSystem := [([47], .dir 4096 2)]

/-- The path `/a/b`. -/
def pathAB : CString := [47, 97, 47, 98]

/-- The answer of the server that describes the file `/a.txt`, revision 1, 5 bytes. -/
def answerA : MetadataResponse := { err := 0, meta := some (fileMeta pathA 1 5) }

/-- The state after `getattr("/a.txt")` in `freshState` with the answer `answerA`. -/
def indexedState : FuseState :=
  { cacheRoot := rootC
    filesTable := tableOfOne pathA (fileMeta pathA 1 5)
    fs := [(rootC, .dir 4096 2)] }

/-- The state after `rename("/a.txt", "/b.txt")` in `cachedState`: the table holds `/b.txt`
only, the cache still holds the file of `/a.txt`. -/
def renamedAwayState : FuseState :=
  { cacheRoot := rootC
    filesTable :=
      { cells :=
          [none,
           some { key := pathB, data := some (fileMeta pathB 2 5), next := none,
                  previous := none }]
        matrix := (((List.replicate 100 none).set 71 (some 0)).set 71 none).set 92 (some 1)
        size := 100 }
    fs := [(rootC ++ pathA, .file hello), (rootC, .dir 4096 2)] }

/-- The file type mask `S_IFMT` of `st_mode`, octal 0170000. -/
def S_IFMT : Nat := 0o170000

/-! ## The path encoding as the specification words it -/

/-- An ASCII letter, `A`..`Z` or `a`..`z`. -/
def isAsciiLetter (b : Nat) : Bool := (65 ≤ b && b ≤ 90) || (97 ≤ b && b ≤ 122)

/-- A digit, `0`..`9`. -/
def isAsciiDigit (b : Nat) : Bool := 48 ≤ b && b ≤ 57

/-- The bytes that the specification escapes: all but the ASCII letters, the digits and
`_`, `~`, `.`, `-`, `/`. -/
def isEscaped (b : Nat) : Bool :=
  !(isAsciiLetter b || isAsciiDigit b || b = 95 || b = 126 || b = 46 || b = 45 || b = 47)

/-- The uppercase hexadecimal digit of a value below 16. -/
def upperHexDigit (d : Nat) : Nat := (literal "0123456789ABCDEF").getD d 0

/-- The encoding of one byte: the byte itself, or `%` and its two hexadecimal digits. -/
def specEncodeByte (b : Nat) : CString :=
  if isEscaped b then [37, upperHexDigit (b / 16), upperHexDigit (b % 16)] else [b]

/-- The encoding of a path as the specification words it: the concatenation of the
encodings of its bytes, in order. -/
def specEncodePath : CString → CString
  | [] => []
  | b :: s => specEncodeByte b ++ specEncodePath s

/-- The path `/a b/é` in UTF-8. -/
def pathSpace : CString := [47, 97, 32, 98, 47, 195, 169]

/-! ## Option lists -/

/-- The variadic arguments of a call that passes the options `opts`, each with its code and
its value, and ends the list with `DRBOPT_END`. -/
def vaList : List (Int × VaArg) → List VaArg
  | [] => [.int DRBOPT_END]
  | o :: opts => .int o.1 :: o.2 :: vaList opts

/-- The option codes of `dropbox.h`. -/
def optionCodes : List Int :=
  [DRBOPT_CURSOR, DRBOPT_FILE_LIMIT, DRBOPT_FORMAT, DRBOPT_FROM_COPY_REF, DRBOPT_FROM_PATH,
   DRBOPT_HASH, DRBOPT_INCL_DELETED, DRBOPT_LIST, DRBOPT_LOCALE, DRBOPT_OVERWRITE,
   DRBOPT_PATH, DRBOPT_PARENT_REV, DRBOPT_QUERY, DRBOPT_REV, DRBOPT_REV_LIMIT, DRBOPT_ROOT,
   DRBOPT_SHORT_URL, DRBOPT_SIZE, DRBOPT_TO_PATH, DRBOPT_IO_DATA, DRBOPT_IO_FUNC]

/-- A value that has the type an option of type `type` expects and is valid for it: any
`int` for a boolean, an `int` from -1 on for an integer, a string of bytes or `NULL` for a
string and for a path. -/
def validValue : drbOptType → VaArg → Bool
  | .DRBTYPE_BOOL, .int _ => true
  | .DRBTYPE_INT, .int v => decide (-1 ≤ v ∧ v < 2 ^ 31)
  | .DRBTYPE_STR, .str s => (s.getD []).all (fun b => decide (b < 256))
  | .DRBTYPE_PATH, .str s => (s.getD []).all (fun b => decide (b < 256))
  | _, _ => false

/-- An option that the parsing for a function with the special set `special` knows, with a
valid value: a member of the special set that `defaultHandler` handles (root, path, I/O data,
I/O function), or else an option that has a name in `drbGetOpt`. -/
def validOption (special : Nat) (o : Int × VaArg) : Bool :=
  if intBits o.1 &&& special ≠ 0 then
    (o.1 = DRBOPT_ROOT && validValue .DRBTYPE_STR o.2) ||
    (o.1 = DRBOPT_PATH && validValue .DRBTYPE_PATH o.2) ||
    ((o.1 = DRBOPT_IO_DATA || o.1 = DRBOPT_IO_FUNC) &&
      match o.2 with
      | .ptr _ => true
      | _ => false)
  else
    match optionName o.1 with
    | some (_, type) => validValue type o.2
    | none => false

/-- The value by which a special option is passed over: `DRBVAL_IGNORE_STR` (`NULL`) for the
root and the path, `NULL` for the I/O function.  The I/O data has none: `NULL` is a value. -/
def ignoreValue (opt : Int) (value : VaArg) : Bool :=
  ((opt = DRBOPT_ROOT || opt = DRBOPT_PATH) && value = .str none) ||
    (opt = DRBOPT_IO_FUNC && value = .ptr none)

/-- The option `opt` is in the list with a value other than its ignore value. -/
def supplied (opts : List (Int × VaArg)) (opt : Int) : Bool :=
  opts.any (fun o => o.1 = opt && !ignoreValue opt o.2)

/-- Every member of the special set is supplied. -/
def allRequiredSupplied (special : Nat) (opts : List (Int × VaArg)) : Bool :=
  [DRBOPT_ROOT, DRBOPT_PATH, DRBOPT_IO_DATA, DRBOPT_IO_FUNC].all
    (fun opt => intBits opt &&& special = 0 || supplied opts opt)

/-- The length of a string argument. -/
def valueLength : VaArg → Nat
  | .str (some s) => s.length
  | _ => 0

/-- A number of bytes that is enough for every block that the parsing of `opts` asks for. -/
def bytesNeeded : List (Int × VaArg) → Nat
  | [] => 2
  | o :: opts => 32 + 6 * valueLength o.2 + bytesNeeded opts

/-- The string that the value of an option of the given type is sent as; `none` for
`DRBVAL_IGNORE_INT` and for `DRBVAL_IGNORE_STR`.  A boolean is sent whatever its value. -/
def valueString : drbOptType → VaArg → Option CString
  | .DRBTYPE_BOOL, .int v => some (if v = 0 then literal "false" else literal "true")
  | .DRBTYPE_INT, .int v =>
    if v = DRBVAL_IGNORE_INT then none else some (decimalDigits 10 v.toNat)
  | .DRBTYPE_STR, .str s => s
  | .DRBTYPE_PATH, .str s => s.map specEncodePath
  | _, _ => none

/-- What an option adds to the argument string in a call with the special set `special`:
`&name=value` for a normal option whose value is sent, nothing otherwise. -/
def argumentOf (special : Nat) (o : Int × VaArg) : CString :=
  if intBits o.1 &&& special ≠ 0 then []
  else
    match optionName o.1 with
    | none => []
    | some (name, type) =>
      match valueString type o.2 with
      | none => []
      | some s => [38] ++ name ++ [61] ++ s

/-- The concatenation, in order, of what the options add to the argument string. -/
def argumentString (special : Nat) : List (Int × VaArg) → CString
  | [] => []
  | o :: opts => argumentOf special o ++ argumentString special opts

/-- The special set in which the root, the path, the I/O data and the I/O function are
members according to the four booleans. -/
def specialSet (root path data func : Bool) : Nat :=
  (if root then intBits DRBOPT_ROOT else 0) ||| (if path then intBits DRBOPT_PATH else 0) |||
    (if data then intBits DRBOPT_IO_DATA else 0) ||| (if func then intBits DRBOPT_IO_FUNC else 0)

/-- The options of a call `drbDelete(cli, &meta, DRBOPT_ROOT, "dropbox", DRBOPT_LIST,
DRBVAL_IGNORE_BOOL, DRBOPT_FILE_LIMIT, DRBVAL_IGNORE_INT, DRBOPT_PATH, "/a b",
DRBOPT_END)`. -/
def deleteOptions : List (Int × VaArg) :=
  [(DRBOPT_ROOT, .str (some (literal "dropbox"))), (DRBOPT_LIST, .int DRBVAL_IGNORE_BOOL),
   (DRBOPT_FILE_LIMIT, .int DRBVAL_IGNORE_INT), (DRBOPT_PATH, .str (some (literal "/a b")))]
/-! ## Lemmas on `htbl.c` that hold on every heap -/

theorem deref_eq_ok {α : Type} {cells : List (Option (entryNode α))} {a : Nat}
    {n : entryNode α} : deref cells a = .ok n ↔ cells[a]? = some (some n) := by
  unfold deref
  cases h : cells[a]? with
  | none => simp
  | some o => cases o <;> simp

theorem Ext.refl {α : Type} (cells : List (Option (entryNode α))) (ex : Option Nat) :
    Ext cells cells ex := fun _ n h => ⟨n, h, rfl, rfl, fun _ => rfl⟩

theorem Ext.trans {α : Type} {c1 c2 c3 : List (Option (entryNode α))} {ex : Option Nat}
    (h12 : Ext c1 c2 ex) (h23 : Ext c2 c3 ex) : Ext c1 c3 ex := by
  intro a n h
  obtain ⟨n2, h2, hk, hn, hd⟩ := h12 a n h
  obtain ⟨n3, h3, hk3, hn3, hd3⟩ := h23 a n2 h2
  exact ⟨n3, h3, hk3.trans hk, hn3.trans hn, fun hne => (hd3 hne).trans (hd hne)⟩

theorem Ext.append {α : Type} (cells : List (Option (entryNode α)))
    (extra : List (Option (entryNode α))) (ex : Option Nat) : Ext cells (cells ++ extra) ex := by
  intro a n h
  refine ⟨n, ?_, rfl, rfl, fun _ => rfl⟩
  have hlt : a < cells.length := by
    by_contra hge
    rw [List.getElem?_eq_none (by omega)] at h
    cases h
  rw [List.getElem?_append_left hlt]
  exact h

theorem Ext.set {α : Type} (cells : List (Option (entryNode α))) (b : Nat) (n nb : entryNode α)
    (ex : Option Nat) (hb : cells[b]? = some (some n)) (hk : nb.key = n.key)
    (hn : nb.next = n.next) (hd : some b ≠ ex → nb.data = n.data) :
    Ext cells (cells.set b (some nb)) ex := by
  intro a m h
  by_cases hab : b = a
  · subst hab
    rw [hb] at h
    cases h
    refine ⟨nb, ?_, hk, hn, hd⟩
    have hlt : b < cells.length := by
      by_contra hge
      rw [List.getElem?_eq_none (by omega)] at hb
      cases hb
    simp [List.getElem?_set, hlt]
  · refine ⟨m, ?_, rfl, rfl, fun _ => rfl⟩
    rw [List.getElem?_set_ne hab]
    exact h

theorem findNode_ext {α : Type} {c1 c2 : List (Option (entryNode α))} {ex : Option Nat}
    (hext : Ext c1 c2 ex) (key : CString) :
    ∀ (fuel fuel2 : Nat) (p r : Option Nat), fuel ≤ fuel2 →
      findNode c1 key fuel p = .ok r → findNode c2 key fuel2 p = .ok r := by
  intro fuel
  induction fuel with
  | zero =>
    intro fuel2 p r _ h
    cases p with
    | none => simpa [findNode] using h
    | some a => simp [findNode] at h
  | succ f ih =>
    intro fuel2 p r hle h
    cases p with
    | none => simpa [findNode] using h
    | some a =>
      obtain ⟨g, rfl⟩ : ∃ g, fuel2 = g + 1 := ⟨fuel2 - 1, by omega⟩
      simp only [findNode] at h ⊢
      cases hd : deref c1 a with
      | error e => simp [hd] at h
      | ok n =>
        rw [hd] at h
        obtain ⟨n2, h2, hk, hn, _⟩ := hext a n (deref_eq_ok.mp hd)
        rw [deref_eq_ok.mpr h2]
        simp only [hk, hn] at h ⊢
        by_cases hkey : n.key = key
        · simpa [hkey] using h
        · simp only [hkey, if_false] at h ⊢
          exact ih g n.next r (by omega) h

theorem findNode_some {α : Type} {cells : List (Option (entryNode α))} {key : CString} :
    ∀ (fuel : Nat) (p : Option Nat) (a : Nat), findNode cells key fuel p = .ok (some a) →
      ∃ n, cells[a]? = some (some n) ∧ n.key = key := by
  intro fuel
  induction fuel with
  | zero =>
    intro p a h
    cases p <;> simp [findNode] at h
  | succ f ih =>
    intro p a h
    cases p with
    | none => simp [findNode] at h
    | some b =>
      simp only [findNode] at h
      cases hd : deref cells b with
      | error e => simp [hd] at h
      | ok n =>
        rw [hd] at h
        simp only at h
        split at h
        · rename_i hk
          simp at h
          subst h
          exact ⟨n, deref_eq_ok.mp hd, hk⟩
        · exact ih _ _ h

theorem Ext.set_fresh {α : Type} {c1 c2 : List (Option (entryNode α))} {ex : Option Nat}
    (h : Ext c1 c2 ex) (b : Nat) (x : Option (entryNode α)) (hb : c1.length ≤ b) :
    Ext c1 (c2.set b x) ex := by
  intro a n ha
  have hlt : a < c1.length := by
    by_contra hge
    rw [List.getElem?_eq_none (by omega)] at ha
    cases ha
  obtain ⟨n2, h2, rest⟩ := h a n ha
  refine ⟨n2, ?_, rest⟩
  rw [List.getElem?_set_ne (by omega)]
  exact h2

theorem findNode_deref_head {α : Type} {cells : List (Option (entryNode α))} {key : CString}
    {fuel h : Nat} {r : Option Nat} (hf : findNode cells key fuel (some h) = .ok r) :
    ∃ n, cells[h]? = some (some n) := by
  cases fuel with
  | zero => simp [findNode] at hf
  | succ f =>
    simp only [findNode] at hf
    cases hd : deref cells h with
    | error e => simp [hd] at hf
    | ok n => exact ⟨n, deref_eq_ok.mp hd⟩

theorem lt_length_of_getElem? {β : Type} {l : List β} {a : Nat} {x : β}
    (h : l[a]? = some x) : a < l.length := by
  by_contra hge
  rw [List.getElem?_eq_none (by omega)] at h
  cases h

/-- What a successful `htblSet` did: either it found the node of the key and replaced its
data, or the key had no node and a new node was put in front of the chain of its bucket. -/
theorem htblSet_ok {α : Type} {tbl tbl2 : htbl α} {key : CString} {data old : Option α}
    (h : htblSet tbl key data = .ok (old, tbl2)) :
    tbl.size ≠ 0 ∧ tbl2.size = tbl.size ∧
    ∃ head, tbl.matrix[hashKey key % tbl.size]? = some head ∧
      ((∃ a n, findNode tbl.cells key tbl.cells.length head = .ok (some a) ∧
          tbl.cells[a]? = some (some n) ∧ n.key = key ∧ old = n.data ∧
          tbl2.matrix = tbl.matrix ∧
          tbl2.cells = tbl.cells.set a (some { n with data := data })) ∨
       (findNode tbl.cells key tbl.cells.length head = .ok none ∧ old = none ∧
          tbl2.matrix = tbl.matrix.set (hashKey key % tbl.size) (some tbl.cells.length) ∧
          tbl2.cells.length = tbl.cells.length + 1 ∧ Ext tbl.cells tbl2.cells none ∧
          tbl2.cells[tbl.cells.length]? =
            some (some { key := key, data := data, next := head, previous := none }))) := by
  unfold htblSet getNodeForKey at h
  by_cases hs : tbl.size = 0
  · simp [hs] at h
  refine ⟨hs, ?_⟩
  simp only [hs, if_false] at h
  cases hm : tbl.matrix[hashKey key % tbl.size]? with
  | none => simp [hm] at h
  | some head =>
    simp only [hm] at h
    cases hf : findNode tbl.cells key tbl.cells.length head with
    | error e => simp [hf] at h
    | ok r =>
      simp only [hf] at h
      cases r with
      | some a =>
        simp only at h
        obtain ⟨n, hn, hk⟩ := findNode_some _ _ _ hf
        rw [deref_eq_ok.mpr hn] at h
        simp only [Except.ok.injEq, Prod.mk.injEq] at h
        obtain ⟨h1, h2⟩ := h
        subst h2
        exact ⟨rfl, head, rfl, Or.inl ⟨a, n, hf, hn, hk, h1.symm, rfl, rfl⟩⟩
      | none =>
        simp only at h
        unfold newNode at h
        simp only [hm] at h
        cases head with
        | none =>
          simp only at h
          have hL : deref (tbl.cells ++ [some (mallocNode (α := α) none)]) tbl.cells.length =
              .ok (mallocNode none) := by
            rw [deref_eq_ok]; simp
          rw [hL] at h
          simp only [Except.ok.injEq, Prod.mk.injEq] at h
          obtain ⟨h1, h2⟩ := h
          subst h2
          refine ⟨rfl, none, rfl,
            Or.inr ⟨hf, h1.symm, rfl, by simp, ?_, by simp [mallocNode]⟩⟩
          exact (Ext.append _ _ _).set_fresh _ _ (le_refl _)
        | some hd =>
          simp only at h
          obtain ⟨hn, hhn⟩ := findNode_deref_head hf
          have hlt := lt_length_of_getElem? hhn
          have h1 : deref (tbl.cells ++ [some (mallocNode (α := α) (some hd))]) hd = .ok hn := by
            rw [deref_eq_ok, List.getElem?_append_left hlt]; exact hhn
          rw [h1] at h
          simp only at h
          have hL : deref ((tbl.cells ++ [some (mallocNode (α := α) (some hd))]).set hd
              (some { hn with previous := some tbl.cells.length })) tbl.cells.length =
              .ok (mallocNode (some hd)) := by
            rw [deref_eq_ok, List.getElem?_set_ne (by omega)]; simp
          rw [hL] at h
          simp only [Except.ok.injEq, Prod.mk.injEq] at h
          obtain ⟨h2, h3⟩ := h
          subst h3
          refine ⟨rfl, some hd, rfl,
            Or.inr ⟨hf, h2.symm, rfl, by simp, ?_, by simp [mallocNode]⟩⟩
          refine Ext.set_fresh ?_ _ _ (le_refl _)
          refine (Ext.append tbl.cells [some (mallocNode (some hd))] none).trans ?_
          exact Ext.set _ hd hn _ none (by rw [List.getElem?_append_left hlt]; exact hhn)
            rfl rfl (fun _ => rfl)

theorem getNodeForKey_eq_ok {α : Type} {tbl : htbl α} {key : CString} {node : Option Nat}
    {index : Nat} :
    getNodeForKey tbl key = .ok (node, index) ↔
      tbl.size ≠ 0 ∧ index = hashKey key % tbl.size ∧
      ∃ head, tbl.matrix[hashKey key % tbl.size]? = some head ∧
        findNode tbl.cells key tbl.cells.length head = .ok node := by
  unfold getNodeForKey
  by_cases hs : tbl.size = 0
  · simp [hs]
  simp only [hs, if_false]
  cases hm : tbl.matrix[hashKey key % tbl.size]? with
  | none => simp
  | some head =>
    cases hf : findNode tbl.cells key tbl.cells.length head with
    | error e => simp [hf]
    | ok r =>
      simp only [hf, Except.ok.injEq, Prod.mk.injEq, ne_eq, not_false_eq_true, true_and,
        Option.some.injEq, exists_eq_left']
      constructor
      · rintro ⟨h1, h2⟩
        exact ⟨hs, h2.symm, h1⟩
      · rintro ⟨_, h1, h2⟩
        exact ⟨h2, h1.symm⟩

theorem htblGet_of_node {α : Type} {tbl : htbl α} {key : CString} {a index : Nat}
    {n : entryNode α} (hg : getNodeForKey tbl key = .ok (some a, index))
    (hn : tbl.cells[a]? = some (some n)) : htblGet tbl key = .ok n.data := by
  unfold htblGet
  rw [hg]
  simp only
  rw [deref_eq_ok.mpr hn]

theorem htblGet_of_none {α : Type} {tbl : htbl α} {key : CString} {index : Nat}
    (hg : getNodeForKey tbl key = .ok (none, index)) : htblGet tbl key = .ok none := by
  unfold htblGet
  rw [hg]

/-- A successful `htblGet` found a node that holds the data, or found none and gives `NULL`. -/
theorem htblGet_ok {α : Type} {tbl : htbl α} {key : CString} {r : Option α}
    (h : htblGet tbl key = .ok r) :
    ∃ index, (getNodeForKey tbl key = .ok (none, index) ∧ r = none) ∨
      ∃ a n, getNodeForKey tbl key = .ok (some a, index) ∧ tbl.cells[a]? = some (some n) ∧
        n.key = key ∧ r = n.data := by
  unfold htblGet at h
  cases hg : getNodeForKey tbl key with
  | error e => simp [hg] at h
  | ok p =>
    obtain ⟨node, index⟩ := p
    rw [hg] at h
    cases node with
    | none =>
      simp only [Except.ok.injEq] at h
      exact ⟨index, Or.inl ⟨rfl, h.symm⟩⟩
    | some a =>
      simp only at h
      obtain ⟨_, _, head, _, hf⟩ := getNodeForKey_eq_ok.mp hg
      obtain ⟨n, hn, hk⟩ := findNode_some _ _ _ hf
      rw [deref_eq_ok.mpr hn] at h
      simp only [Except.ok.injEq] at h
      exact ⟨index, Or.inr ⟨a, n, rfl, hn, hk, h.symm⟩⟩

/-- The call `htblSet` gives back what `htblGet` gave before it. -/
theorem htblSet_old {α : Type} {tbl tbl2 : htbl α} {key : CString} {data old : Option α}
    (h : htblSet tbl key data = .ok (old, tbl2)) : htblGet tbl key = .ok old := by
  obtain ⟨hs, _, head, hm, hcase⟩ := htblSet_ok h
  rcases hcase with ⟨a, n, hf, hn, _, ho, _, _⟩ | ⟨hf, ho, _⟩
  · rw [ho]
    exact htblGet_of_node (getNodeForKey_eq_ok.mpr ⟨hs, rfl, head, hm, hf⟩) hn
  · rw [ho]
    exact htblGet_of_none (getNodeForKey_eq_ok.mpr ⟨hs, rfl, head, hm, hf⟩)

/-- After a successful `htblSet` the key is found, with the data that was set. -/
theorem htblSet_get {α : Type} {tbl tbl2 : htbl α} {key : CString} {data old : Option α}
    (h : htblSet tbl key data = .ok (old, tbl2)) :
    htblGet tbl2 key = .ok data ∧ htblExists tbl2 key = .ok true := by
  obtain ⟨hs, hs2, head, hm, hcase⟩ := htblSet_ok h
  have hs2n : tbl2.size ≠ 0 := by rw [hs2]; exact hs
  rcases hcase with ⟨a, n, hf, hn, _, _, hmat, hcells⟩ | ⟨hf, _, hmat, hlen, hext, hnew⟩
  · have hlt := lt_length_of_getElem? hn
    have hext : Ext tbl.cells tbl2.cells (some a) := by
      rw [hcells]
      exact Ext.set _ a n _ _ hn rfl rfl (fun hne => absurd rfl hne)
    have hf2 : findNode tbl2.cells key tbl2.cells.length head = .ok (some a) :=
      findNode_ext hext key _ _ _ _ (by rw [hcells]; simp) hf
    have hg : getNodeForKey tbl2 key = .ok (some a, hashKey key % tbl2.size) :=
      getNodeForKey_eq_ok.mpr ⟨hs2n, rfl, head, by rw [hs2, hmat]; exact hm, hf2⟩
    have hn2 : tbl2.cells[a]? = some (some { n with data := data }) := by
      rw [hcells]; simp [List.getElem?_set, hlt]
    refine ⟨htblGet_of_node hg hn2, ?_⟩
    unfold htblExists
    rw [hg]
    rfl
  · have hidx : hashKey key % tbl.size < tbl.matrix.length := lt_length_of_getElem? hm
    have hg : getNodeForKey tbl2 key = .ok (some tbl.cells.length, hashKey key % tbl2.size) := by
      refine getNodeForKey_eq_ok.mpr ⟨hs2n, rfl, some tbl.cells.length, ?_, ?_⟩
      · rw [hs2, hmat]; simp [List.getElem?_set, hidx]
      · rw [hlen]
        simp only [findNode]
        rw [deref_eq_ok.mpr hnew]
        simp
    refine ⟨htblGet_of_node hg hnew, ?_⟩
    unfold htblExists
    rw [hg]
    rfl

/-- A successful `htblSet` on one key leaves what `htblGet` finds for every other key. -/
theorem htblSet_frame {α : Type} {tbl tbl2 : htbl α} {key key2 : CString}
    {data old r : Option α} (h : htblSet tbl key data = .ok (old, tbl2)) (hne : key2 ≠ key)
    (hget : htblGet tbl key2 = .ok r) : htblGet tbl2 key2 = .ok r := by
  obtain ⟨hs, hs2, head, hm, hcase⟩ := htblSet_ok h
  have hs2n : tbl2.size ≠ 0 := by rw [hs2]; exact hs
  obtain ⟨index, hres⟩ := htblGet_ok hget
  -- the bucket of `key2` and the node found there, before the call
  have hbefore : ∃ node head2, tbl.matrix[hashKey key2 % tbl.size]? = some head2 ∧
      findNode tbl.cells key2 tbl.cells.length head2 = .ok node ∧
      ((node = none ∧ r = none) ∨
        ∃ a n, node = some a ∧ tbl.cells[a]? = some (some n) ∧ n.key = key2 ∧
          r = n.data) := by
    rcases hres with ⟨hg, hr⟩ | ⟨a, n, hg, hn, hk, hr⟩
    · obtain ⟨_, _, head2, hm2, hf2⟩ := getNodeForKey_eq_ok.mp hg
      exact ⟨none, head2, hm2, hf2, Or.inl ⟨rfl, hr⟩⟩
    · obtain ⟨_, _, head2, hm2, hf2⟩ := getNodeForKey_eq_ok.mp hg
      exact ⟨some a, head2, hm2, hf2, Or.inr ⟨a, n, rfl, hn, hk, hr⟩⟩
  obtain ⟨node, head2, hm2, hf2, hnode⟩ := hbefore
  -- the heap afterwards extends the heap before, the data changes at the node of `key` only
  have hafter : ∃ ex head3, tbl2.matrix[hashKey key2 % tbl2.size]? = some head3 ∧
      Ext tbl.cells tbl2.cells ex ∧
      findNode tbl2.cells key2 tbl2.cells.length head3 = .ok node ∧
      (∀ a n, ex = some a → tbl.cells[a]? = some (some n) → n.key = key) := by
    rcases hcase with ⟨a, n, hf, hn, hk, _, hmat, hcells⟩ | ⟨hf, _, hmat, hlen, hext, hnew⟩
    · have hext : Ext tbl.cells tbl2.cells (some a) := by
        rw [hcells]
        exact Ext.set _ a n _ _ hn rfl rfl (fun hne => absurd rfl hne)
      refine ⟨some a, head2, by rw [hs2, hmat]; exact hm2, hext, ?_, ?_⟩
      · exact findNode_ext hext key2 _ _ _ _ (by rw [hcells]; simp) hf2
      · intro b m hb hm
        cases hb
        rw [hn] at hm
        cases hm
        exact hk
    · have hf3 : findNode tbl2.cells key2 tbl.cells.length head2 = .ok node :=
        findNode_ext hext key2 _ _ _ _ (le_refl _) hf2
      by_cases hidx : hashKey key2 % tbl.size = hashKey key % tbl.size
      · have hlt : hashKey key % tbl.size < tbl.matrix.length := lt_length_of_getElem? hm
        have hh : head2 = head := by
          rw [hidx, hm] at hm2
          exact (Option.some.inj hm2).symm
        refine ⟨none, some tbl.cells.length, ?_, hext, ?_, ?_⟩
        · rw [hs2, hmat, hidx]; simp [List.getElem?_set, hlt]
        · rw [hlen]
          simp only [findNode]
          rw [deref_eq_ok.mpr hnew]
          simp only [Ne.symm hne, if_false]
          rw [← hh]
          exact hf3
        · intro b m hb
          cases hb
      · refine ⟨none, head2, ?_, hext, ?_, ?_⟩
        · rw [hs2, hmat, List.getElem?_set_ne (Ne.symm hidx)]; exact hm2
        · exact findNode_ext hext key2 _ _ _ _ (by rw [hlen]; omega) hf2
        · intro b m hb
          cases hb
  obtain ⟨ex, head3, hm3, hext, hf3, hex⟩ := hafter
  have hg3 : getNodeForKey tbl2 key2 = .ok (node, hashKey key2 % tbl2.size) :=
    getNodeForKey_eq_ok.mpr ⟨hs2n, rfl, head3, hm3, hf3⟩
  rcases hnode with ⟨rfl, rfl⟩ | ⟨a, n, rfl, hn, hk, rfl⟩
  · exact htblGet_of_none hg3
  · obtain ⟨n2, hn2, _, _, hdat⟩ := hext a n hn
    have hne2 : some a ≠ ex := by
      intro he
      exact hne (hk.symm.trans (hex a n he.symm hn))
    rw [← hdat hne2]
    exact htblGet_of_node hg3 hn2


/-! ## Tables built from `htblCreate` with `htblSet` -/

theorem Chain.ext {α : Type} {c1 c2 : List (Option (entryNode α))} {ex : Option Nat}
    (hext : Ext c1 c2 ex) :
    ∀ (as : List Nat) (p : Option Nat), Chain c1 p as → Chain c2 p as := by
  intro as
  induction as with
  | nil => intro p h; exact h
  | cons a as ih =>
    intro p h
    obtain ⟨hp, n, hn, hc⟩ := h
    obtain ⟨n2, hn2, _, hnext, _⟩ := hext a n hn
    exact ⟨hp, n2, hn2, hnext ▸ ih _ hc⟩

/-- On a chain the loop of `getNodeForKey` ends, on a node of the chain or on `NULL`. -/
theorem Chain.findNode {α : Type} {cells : List (Option (entryNode α))} (key : CString) :
    ∀ (as : List Nat) (p : Option Nat) (fuel : Nat), Chain cells p as → as.length ≤ fuel →
      ∃ r, findNode cells key fuel p = .ok r ∧ ∀ a, r = some a → a ∈ as := by
  intro as
  induction as with
  | nil =>
    intro p fuel h _
    cases h
    refine ⟨none, ?_, by simp⟩
    cases fuel <;> rfl
  | cons a as ih =>
    intro p fuel h hlen
    obtain ⟨hp, n, hn, hc⟩ := h
    subst hp
    obtain ⟨f, rfl⟩ : ∃ f, fuel = f + 1 := ⟨fuel - 1, by simp at hlen; omega⟩
    simp only [DropboxFuse.findNode]
    rw [deref_eq_ok.mpr hn]
    by_cases hk : n.key = key
    · exact ⟨some a, by simp [hk], by simp⟩
    · obtain ⟨r, hr, hmem⟩ := ih n.next f hc (by simp at hlen; omega)
      refine ⟨r, by simp [hk, hr], ?_⟩
      intro b hb
      exact List.mem_cons_of_mem _ (hmem b hb)

/-- On a chain the inner loop of `htblCount` adds the length of the chain. -/
theorem Chain.countChain {α : Type} {cells : List (Option (entryNode α))} :
    ∀ (as : List Nat) (p : Option Nat) (fuel count : Nat), Chain cells p as →
      as.length ≤ fuel →
      countChain cells fuel p (count % 2 ^ 32) = .ok ((count + as.length) % 2 ^ 32) := by
  intro as
  induction as with
  | nil =>
    intro p fuel count h _
    cases h
    cases fuel <;> simp [DropboxFuse.countChain]
  | cons a as ih =>
    intro p fuel count h hlen
    obtain ⟨hp, n, hn, hc⟩ := h
    subst hp
    obtain ⟨f, rfl⟩ : ∃ f, fuel = f + 1 := ⟨fuel - 1, by simp at hlen; omega⟩
    simp only [DropboxFuse.countChain]
    rw [deref_eq_ok.mpr hn]
    simp only
    have h1 : (count % 2 ^ 32 + 1) % 2 ^ 32 = (count + 1) % 2 ^ 32 := by omega
    rw [h1, ih n.next f (count + 1) hc (by simp at hlen; omega)]
    simp only [List.length_cons]
    congr 2
    omega

theorem sum_map_bump (f g : Nat → Nat) (idx : Nat) (hg : ∀ i, i ≠ idx → g i = f i)
    (hidx : g idx = f idx + 1) :
    ∀ l : List Nat, l.Nodup → idx ∈ l → (l.map g).sum = (l.map f).sum + 1 := by
  intro l
  induction l with
  | nil => intro _ h; cases h
  | cons x xs ih =>
    intro hnd hmem
    rw [List.nodup_cons] at hnd
    simp only [List.map_cons, List.sum_cons]
    by_cases hx : x = idx
    · subst hx
      have hsame : xs.map g = xs.map f := by
        apply List.map_congr_left
        intro i hi
        exact hg i (fun he => hnd.1 (he ▸ hi))
      rw [hsame, hidx]
      omega
    · have hin : idx ∈ xs := by
        rcases List.mem_cons.mp hmem with h | h
        · exact absurd h.symm hx
        · exact h
      rw [ih hnd.2 hin, hg x hx]
      omega

theorem htblCreate_built (α : Type) (n : Nat) (hn : 0 < n) :
    Built (htblCreate α n) n [] (fun _ => []) where
  pos := hn
  size_eq := rfl
  length_eq := by simp [htblCreate]
  chain := by
    intro i hi
    refine ⟨none, ?_, rfl⟩
    simp [htblCreate, List.getElem?_replicate, hi]
  keys_mem := by
    intro i _ a ha
    cases ha
  short := by intro i _; simp
  total := by simp


/-- The call `htblSet` goes wrong only where `getNodeForKey` does. -/
theorem htblSet_total {α : Type} {tbl : htbl α} {key : CString} {node : Option Nat}
    {index : Nat} (data : Option α) (hg : getNodeForKey tbl key = .ok (node, index)) :
    ∃ old tbl2, htblSet tbl key data = .ok (old, tbl2) := by
  obtain ⟨_, hidx, head, hm, hf⟩ := getNodeForKey_eq_ok.mp hg
  unfold htblSet
  rw [hg]
  cases node with
  | some a =>
    obtain ⟨n, hn, _⟩ := findNode_some _ _ _ hf
    simp only
    rw [deref_eq_ok.mpr hn]
    exact ⟨_, _, rfl⟩
  | none =>
    simp only
    unfold newNode
    rw [hidx, hm]
    cases head with
    | none =>
      simp only
      have hL : deref (tbl.cells ++ [some (mallocNode (α := α) none)]) tbl.cells.length =
          .ok (mallocNode none) := by
        rw [deref_eq_ok]; simp
      rw [hL]
      exact ⟨_, _, rfl⟩
    | some hd =>
      simp only
      obtain ⟨hn, hhn⟩ := findNode_deref_head hf
      have hlt := lt_length_of_getElem? hhn
      have h1 : deref (tbl.cells ++ [some (mallocNode (α := α) (some hd))]) hd = .ok hn := by
        rw [deref_eq_ok, List.getElem?_append_left hlt]; exact hhn
      rw [h1]
      simp only
      have hL : deref ((tbl.cells ++ [some (mallocNode (α := α) (some hd))]).set hd
          (some { hn with previous := some tbl.cells.length })) tbl.cells.length =
          .ok (mallocNode (some hd)) := by
        rw [deref_eq_ok, List.getElem?_set_ne (by omega)]; simp
      rw [hL]
      exact ⟨_, _, rfl⟩

/-- In a built table `getNodeForKey` ends without fault, and finds a node only for a key
that was inserted. -/
theorem Built.getNodeForKey {α : Type} {tbl : htbl α} {n : Nat} {keys : List CString}
    {ch : Nat → List Nat} (hb : Built tbl n keys ch) (key : CString) :
    ∃ node, getNodeForKey tbl key = .ok (node, hashKey key % n) ∧
      (node ≠ none → key ∈ keys) := by
  have hidx : hashKey key % n < n := Nat.mod_lt _ hb.pos
  obtain ⟨head, hm, hc⟩ := hb.chain _ hidx
  obtain ⟨r, hr, hmem⟩ := hc.findNode key _ _ _ (hb.short _ hidx)
  refine ⟨r, ?_, ?_⟩
  · refine getNodeForKey_eq_ok.mpr ⟨?_, ?_, head, ?_, hr⟩
    · rw [hb.size_eq]; exact Nat.pos_iff_ne_zero.mp hb.pos
    · rw [hb.size_eq]
    · rw [hb.size_eq]; exact hm
  · intro hne
    cases r with
    | none => exact absurd rfl hne
    | some a =>
      obtain ⟨nd, hnd, hk⟩ := hb.keys_mem _ hidx a (hmem a rfl)
      obtain ⟨nd2, hnd2, hk2⟩ := findNode_some _ _ _ hr
      rw [hnd] at hnd2
      cases hnd2
      exact hk2 ▸ hk

/-- In a built table `htblSet` with a key that was not inserted yet puts one node in front of
the chain of the bucket of the key, and the table is built from one more key. -/
theorem Built.set_new {α : Type} {tbl : htbl α} {n : Nat} {keys : List CString}
    {ch : Nat → List Nat} (hb : Built tbl n keys ch) (key : CString) (data : Option α)
    (hnew : key ∉ keys) :
    ∃ tbl2, htblSet tbl key data = .ok (none, tbl2) ∧
      Built tbl2 n (keys ++ [key])
        (Function.update ch (hashKey key % n) (tbl.cells.length :: ch (hashKey key % n))) := by
  obtain ⟨node, hg, hnode⟩ := hb.getNodeForKey key
  have hnone : node = none := by
    by_contra hne
    exact hnew (hnode hne)
  subst hnone
  obtain ⟨old, tbl2, hset⟩ := htblSet_total data hg
  have hidx : hashKey key % n < n := Nat.mod_lt _ hb.pos
  obtain ⟨hs, hs2, head, hm, hcase⟩ := htblSet_ok hset
  obtain ⟨_, _, head0, hm0, hf0⟩ := getNodeForKey_eq_ok.mp hg
  rw [hm] at hm0
  cases hm0
  rcases hcase with ⟨a, nd, hf, _⟩ | ⟨hf, ho, hmat, hlen, hext, hnode2⟩
  · rw [hf0] at hf
    cases hf
  subst ho
  refine ⟨tbl2, hset, ?_⟩
  rw [hb.size_eq] at hm hmat
  obtain ⟨head1, hm1, hc1⟩ := hb.chain _ hidx
  rw [hm] at hm1
  cases hm1
  refine
    { pos := hb.pos
      size_eq := hs2.trans hb.size_eq
      length_eq := by rw [hmat]; simp [hb.length_eq]
      chain := ?_
      keys_mem := ?_
      short := ?_
      total := ?_ }
  · intro i hi
    by_cases hi2 : i = hashKey key % n
    · subst hi2
      refine ⟨some tbl.cells.length, ?_, ?_⟩
      · rw [hmat]; simp [List.getElem?_set, hb.length_eq, hidx]
      · rw [Function.update_same]
        exact ⟨rfl, _, hnode2, hc1.ext hext⟩
    · obtain ⟨hd, hmi, hci⟩ := hb.chain i hi
      refine ⟨hd, ?_, ?_⟩
      · rw [hmat, List.getElem?_set_ne (Ne.symm hi2)]; exact hmi
      · rw [Function.update_noteq hi2]
        exact hci.ext hext
  · intro i hi a ha
    have hold : ∀ j, j < n → a ∈ ch j →
        ∃ nd, tbl2.cells[a]? = some (some nd) ∧ nd.key ∈ keys ++ [key] := by
      intro j hj haj
      obtain ⟨nd, hnd, hk⟩ := hb.keys_mem j hj a haj
      obtain ⟨nd2, hnd2, hk2, _⟩ := hext a nd hnd
      exact ⟨nd2, hnd2, by rw [hk2]; exact List.mem_append_left _ hk⟩
    by_cases hi2 : i = hashKey key % n
    · subst hi2
      rw [Function.update_same] at ha
      rcases List.mem_cons.mp ha with h | h
      · subst h
        exact ⟨_, hnode2, by simp⟩
      · exact hold _ hi h
    · rw [Function.update_noteq hi2] at ha
      exact hold i hi ha
  · intro i hi
    by_cases hi2 : i = hashKey key % n
    · subst hi2
      rw [Function.update_same, hlen]
      simp only [List.length_cons]
      have := hb.short _ hi
      omega
    · rw [Function.update_noteq hi2, hlen]
      have := hb.short i hi
      omega
  · rw [sum_map_bump (fun i => (ch i).length) _ (hashKey key % n) ?_ ?_ _
      (List.nodup_range n) (List.mem_range.mpr hidx), hb.total]
    · simp
    · intro i hi
      simp only
      rw [Function.update_noteq hi]
    · simp only
      rw [Function.update_same]
      simp

theorem Built.countBuckets {α : Type} {tbl : htbl α} {n : Nat} {keys : List CString}
    {ch : Nat → List Nat} (hb : Built tbl n keys ch) :
    ∀ (is : List Nat) (count : Nat), (∀ i ∈ is, i < n) →
      countBuckets tbl is (count % 2 ^ 32) =
        .ok ((count + (is.map (fun i => (ch i).length)).sum) % 2 ^ 32) := by
  intro is
  induction is with
  | nil => intro count _; simp [DropboxFuse.countBuckets]
  | cons i is ih =>
    intro count hlt
    have hi : i < n := hlt i (List.mem_cons_self _ _)
    obtain ⟨head, hm, hc⟩ := hb.chain i hi
    simp only [DropboxFuse.countBuckets, hm]
    rw [hc.countChain _ _ _ count (hb.short i hi)]
    simp only
    rw [ih (count + (ch i).length) (fun j hj => hlt j (List.mem_cons_of_mem _ hj))]
    simp only [List.map_cons, List.sum_cons]
    congr 2
    omega

/-- In a built table `htblCount` gives the number of keys inserted, as an `unsigned int`. -/
theorem Built.htblCount {α : Type} {tbl : htbl α} {n : Nat} {keys : List CString}
    {ch : Nat → List Nat} (hb : Built tbl n keys ch) (hn : n < 2 ^ 31) :
    htblCount tbl = .ok (keys.length % 2 ^ 32) := by
  unfold DropboxFuse.htblCount
  rw [hb.size_eq]
  simp only [Nat.not_le.mpr hn, if_false]
  have h := hb.countBuckets (List.range n) 0 (fun i hi => List.mem_range.mp hi)
  simp only [Nat.zero_mod, Nat.zero_add] at h
  rw [h, hb.total]

/-- Inserting pairs with keys that are new and pairwise distinct into a built table goes
through, gives a built table, leaves each inserted key with its data and every other key
as it was. -/
theorem Built.setAll {α : Type} {n : Nat} :
    ∀ (kvs : List (CString × Option α)) (tbl : htbl α) (keys : List CString)
      (ch : Nat → List Nat), Built tbl n keys ch → (keys ++ kvs.map Prod.fst).Nodup →
      ∃ tbl2 ch2, htblSetAll tbl kvs = .ok tbl2 ∧
        Built tbl2 n (keys ++ kvs.map Prod.fst) ch2 ∧
        (∀ kv ∈ kvs, htblGet tbl2 kv.1 = .ok kv.2) ∧
        (∀ k r, k ∉ kvs.map Prod.fst → htblGet tbl k = .ok r → htblGet tbl2 k = .ok r) := by
  intro kvs
  induction kvs with
  | nil =>
    intro tbl keys ch hb _
    exact ⟨tbl, ch, rfl, by simpa using hb, by simp, fun _ _ _ h => h⟩
  | cons kv kvs ih =>
    intro tbl keys ch hb hnd
    obtain ⟨key, data⟩ := kv
    have hnd2 : ((keys ++ [key]) ++ kvs.map Prod.fst).Nodup := by
      simpa [List.append_assoc] using hnd
    have hnew : key ∉ keys := by
      intro hmem
      rw [List.nodup_append] at hnd
      exact hnd.2.2 hmem (by simp)
    have hnot : key ∉ kvs.map Prod.fst := by
      intro hmem
      rw [List.nodup_append] at hnd2
      exact hnd2.2.2 (by simp) hmem
    obtain ⟨tbl1, hset, hb1⟩ := hb.set_new key data hnew
    obtain ⟨tbl2, ch2, hall, hb2, hget, hframe⟩ := ih tbl1 (keys ++ [key]) _ hb1 hnd2
    refine ⟨tbl2, ch2, ?_, ?_, ?_, ?_⟩
    · simp only [htblSetAll, hset]
      exact hall
    · simpa [List.append_assoc] using hb2
    · intro kv hkv
      rcases List.mem_cons.mp hkv with h | h
      · subst h
        exact hframe key data hnot (htblSet_get hset).1
      · exact hget kv h
    · intro k r hk hr
      have hk1 : k ≠ key := fun he => hk (by simp [he])
      have hk2 : k ∉ kvs.map Prod.fst := fun hm => hk (by simp at hm ⊢; exact Or.inr hm)
      exact hframe k r hk2 (htblSet_frame hset hk1 hr)

/-! ## The local file system -/

theorem fsFind_fsRemove_self (fs : FileSystem) (p : CString) :
    fsFind (fsRemove fs p) p = none := by
  induction fs with
  | nil => rfl
  | cons e fs ih =>
    obtain ⟨q, i⟩ := e
    by_cases h : q = p
    · simp [fsRemove, h, ih]
    · simp [fsRemove, fsFind, h, ih]

theorem fsFind_fsRemove_ne (fs : FileSystem) {p q : CString} (h : q ≠ p) :
    fsFind (fsRemove fs p) q = fsFind fs q := by
  induction fs with
  | nil => rfl
  | cons e fs ih =>
    obtain ⟨r, i⟩ := e
    by_cases hr : r = p
    · have hpq : p ≠ q := fun he => h he.symm
      simp [fsRemove, fsFind, hr, ih, hpq]
    · simp [fsRemove, fsFind, hr, ih]

theorem fsFind_fsStore_ne (fs : FileSystem) {p q : CString} (i : Inode) (h : q ≠ p) :
    fsFind (fsStore fs p i) q = fsFind fs q := by
  have hpq : p ≠ q := fun he => h he.symm
  simp [fsStore, fsFind, hpq, fsFind_fsRemove_ne fs h]

theorem parentsAreDirs_iff (fs : FileSystem) (p : CString) :
    parentsAreDirs fs p = true ↔ ∀ k, k < p.length → parentIsDir fs p k = true := by
  simp [parentsAreDirs, List.all_eq_true, List.mem_range]

/-- The walk through the directories above `p` gives the same in two file systems that have
the same directories at the proper prefixes of `p`. -/
theorem parentsAreDirs_congr {fs fs2 : FileSystem} {p : CString}
    (h : ∀ k, k < p.length →
      isDirectory (fsFind fs2 (p.take k)) = isDirectory (fsFind fs (p.take k))) :
    parentsAreDirs fs2 p = parentsAreDirs fs p := by
  have hk : ∀ k, k < p.length → parentIsDir fs2 p k = parentIsDir fs p k := by
    intro k hlt
    unfold parentIsDir
    rw [h k hlt]
  rw [Bool.eq_iff_iff, parentsAreDirs_iff, parentsAreDirs_iff]
  exact ⟨fun hall k hlt => (hk k hlt) ▸ hall k hlt,
    fun hall k hlt => (hk k hlt).symm ▸ hall k hlt⟩

/-- A path that names something has its directories. -/
theorem fsLookup_some {fs : FileSystem} {p : CString} {i : Inode} (h : fsLookup fs p = some i) :
    p ≠ [] ∧ parentsAreDirs fs p = true ∧ fsFind fs p = some i := by
  unfold fsLookup at h
  by_cases hp : p = []
  · simp [hp] at h
  · by_cases hpar : parentsAreDirs fs p = true
    · simp only [hp, hpar, if_false, if_true] at h
      exact ⟨hp, hpar, h⟩
    · simp [hp, hpar] at h

theorem fsLookup_of_parents {fs : FileSystem} {p : CString} (hp : p ≠ [])
    (hpar : parentsAreDirs fs p = true) : fsLookup fs p = fsFind fs p := by
  simp [fsLookup, hp, hpar]

/-- The directories above a path are the directories above each of its prefixes. -/
theorem parentsAreDirs_take {fs : FileSystem} {p : CString}
    (h : parentsAreDirs fs p = true) (j : Nat) : parentsAreDirs fs (p.take j) = true := by
  rw [parentsAreDirs_iff] at h ⊢
  intro k hk
  rw [List.length_take] at hk
  have hkj : k < j := by omega
  have hkp : k < p.length := by omega
  have := h k hkp
  unfold parentIsDir at this ⊢
  rw [List.getElem?_take_of_lt hkj, List.take_take, Nat.min_eq_left (le_of_lt hkj)]
  exact this

/-- The prefix that ends before a `'/'` of a path with its directories is a directory. -/
theorem parent_of_parentsAreDirs {fs : FileSystem} {p : CString}
    (h : parentsAreDirs fs p = true) {k : Nat} (hk0 : 0 < k) (hk : p[k]? = some 47) :
    ∃ size nlink, fsLookup fs (p.take k) = some (.dir size nlink) := by
  have hlt : k < p.length := by
    by_contra hge
    rw [List.getElem?_eq_none (by omega)] at hk
    cases hk
  have hdir := (parentsAreDirs_iff fs p).mp h k hlt
  unfold parentIsDir at hdir
  have hk0n : k ≠ 0 := by omega
  simp only [hk0n, decide_False, Bool.false_or, hk, bne_self_eq_false] at hdir
  have hne : p.take k ≠ [] := by
    intro he
    have := congrArg List.length he
    simp only [List.length_take, List.length_nil] at this
    omega
  rw [fsLookup_of_parents hne (parentsAreDirs_take h k)]
  cases hf : fsFind fs (p.take k) with
  | none => simp [hf, isDirectory] at hdir
  | some i =>
    cases i with
    | file c => simp [hf, isDirectory] at hdir
    | dir size nlink => exact ⟨size, nlink, rfl⟩

/-- The removal of a regular file leaves every directory where it is. -/
theorem isDirectory_fsRemove {fs : FileSystem} {p : CString} {content : List Nat}
    (h : fsFind fs p = some (.file content)) (q : CString) :
    isDirectory (fsFind (fsRemove fs p) q) = isDirectory (fsFind fs q) := by
  by_cases hq : q = p
  · subst hq
    rw [fsFind_fsRemove_self, h]
    rfl
  · rw [fsFind_fsRemove_ne fs hq]

theorem parentsAreDirs_unlink (fs : FileSystem) (p q : CString) :
    parentsAreDirs (unlink fs p) q = parentsAreDirs fs q := by
  unfold unlink
  split
  · rename_i content hfile
    exact parentsAreDirs_congr fun k _ => isDirectory_fsRemove (fsLookup_some hfile).2.2 _
  · rfl

theorem fsLookup_unlink_file {fs : FileSystem} {p : CString} {content : List Nat}
    (h : fsLookup fs p = some (.file content)) : fsLookup (unlink fs p) p = none := by
  unfold fsLookup
  rw [parentsAreDirs_unlink]
  unfold unlink
  rw [h]
  simp [fsFind_fsRemove_self]

theorem fsLookup_unlink_ne (fs : FileSystem) {p q : CString} (h : q ≠ p) :
    fsLookup (unlink fs p) q = fsLookup fs q := by
  cases hl : fsLookup fs p with
  | none => simp [unlink, hl]
  | some i =>
    cases i with
    | dir size nlink => simp [unlink, hl]
    | file content =>
      have hpar := parentsAreDirs_unlink fs p q
      simp only [unlink, hl] at hpar ⊢
      simp only [fsLookup, hpar, fsFind_fsRemove_ne fs h]

theorem fsLookup_unlink_none (fs : FileSystem) (p q : CString) (h : fsLookup fs q = none) :
    fsLookup (unlink fs p) q = none := by
  by_cases hq : q = p
  · subst hq
    unfold unlink
    rw [h]
    exact h
  · rw [fsLookup_unlink_ne fs hq]
    exact h

/-- A proper prefix of a path is not the path. -/
theorem take_ne_of_lt {p : CString} {k : Nat} (hk : k < p.length) : p.take k ≠ p := by
  intro he
  have := congrArg List.length he
  rw [List.length_take] at this
  omega

/-- Storing an inode at a path leaves the directories above the path where they are. -/
theorem parentsAreDirs_fsStore_self (fs : FileSystem) (p : CString) (i : Inode) :
    parentsAreDirs (fsStore fs p i) p = parentsAreDirs fs p :=
  parentsAreDirs_congr fun k hk => by rw [fsFind_fsStore_ne fs i (take_ne_of_lt hk)]

theorem fsLookup_fsStore_self (fs : FileSystem) {p : CString} (i : Inode) (hp : p ≠ [])
    (hpar : parentsAreDirs fs p = true) : fsLookup (fsStore fs p i) p = some i := by
  rw [fsLookup_of_parents hp (by rw [parentsAreDirs_fsStore_self]; exact hpar)]
  simp [fsStore, fsFind]

/-- The stream that `fopen(path, "w+")` gives when the directories above the path are there
and the path names nothing. -/
theorem fopenTruncate_of_none {fs : FileSystem} {p : CString} (hp : p ≠ [])
    (hpar : parentsAreDirs fs p = true) (hnone : fsLookup fs p = none) :
    fopenTruncate fs p = some (fsStore fs p (.file [])) := by
  simp [fopenTruncate, hp, hpar, hnone]

theorem scanSlash_lt (path : CString) :
    ∀ (size j : Nat), scanSlash path size = some j → j < size := by
  intro size
  induction size with
  | zero => intro j h; simp [scanSlash] at h
  | succ s ih =>
    intro j h
    simp only [scanSlash] at h
    split at h
    · cases h; omega
    · have := ih j h; omega

/-- The scan finds a slash at or above every slash that lies below `size`. -/
theorem scanSlash_ge (path : CString) (r : Nat) (hr : path[r]? = some 47) :
    ∀ size, r < size → ∃ j, scanSlash path size = some j ∧ r ≤ j := by
  intro size
  induction size with
  | zero => intro h; omega
  | succ s ih =>
    intro hlt
    simp only [scanSlash]
    by_cases hs : path[s]? = some 47
    · exact ⟨s, by simp [hs], by omega⟩
    · simp only [hs, if_false]
      have hne : r ≠ s := fun he => hs (he ▸ hr)
      exact ih (by omega)

/-- The call `rmkdir` ends without fault when a prefix of the path that ends before a `'/'`
exists. -/
theorem rmkdir_ok (path : CString) (fs : FileSystem) (r : Nat) (hr : path[r]? = some 47)
    (hacc : access fs (path.take r) = true) :
    ∀ (fuel size ignore : Nat), r ≤ size → size < fuel →
      ∃ fs1, rmkdir path fuel fs size ignore = .ok fs1 := by
  intro fuel
  induction fuel with
  | zero => intro size ignore _ h; omega
  | succ f ih =>
    intro size ignore hle hlt
    simp only [rmkdir]
    by_cases ha : access fs (path.take size) = true
    · exact ⟨fs, by simp [ha]⟩
    · simp only [ha]
      have hne : r ≠ size := fun he => ha (he ▸ hacc)
      obtain ⟨j, hj, hrj⟩ := scanSlash_ge path r hr size (by omega)
      have hjlt := scanSlash_lt path size j hj
      obtain ⟨fs1, h1⟩ := ih j (ignore - 1) hrj (by omega)
      simp only [hj, h1]
      by_cases hi : ignore = 0
      · exact ⟨mkdir fs1 (path.take size), by simp [hi]⟩
      · exact ⟨fs1, by simp [hi]⟩

/-- The slash that the scan of `rmkdir` stops at. -/
theorem scanSlash_slash (path : CString) :
    ∀ (size j : Nat), scanSlash path size = some j → path[j]? = some 47 := by
  intro size
  induction size with
  | zero => intro j h; simp [scanSlash] at h
  | succ s ih =>
    intro j h
    simp only [scanSlash] at h
    by_cases hs : path[s]? = some 47
    · simp only [hs, if_true, Option.some.injEq] at h
      rw [← h]; exact hs
    · simp only [hs, if_false] at h
      exact ih j h

/-- When the directories above the path are there, the path names nothing and has a `'/'`
after its first byte, `mkdirFile` finds the directory of the path and makes nothing. -/
theorem mkdirFile_of_parents {fs : FileSystem} {path : CString}
    (hpar : parentsAreDirs fs path = true) (hnone : fsLookup fs path = none) {r : Nat}
    (hr0 : 0 < r) (hr : path[r]? = some 47) : mkdirFile fs path = .ok fs := by
  have hrlt : r < path.length := by
    by_contra hge
    rw [List.getElem?_eq_none (by omega)] at hr
    cases hr
  obtain ⟨j, hj, hrj⟩ := scanSlash_ge path r hr path.length hrlt
  have hjlt := scanSlash_lt path path.length j hj
  have hjs := scanSlash_slash path path.length j hj
  obtain ⟨size, nlink, hdir⟩ := parent_of_parentsAreDirs hpar (by omega : 0 < j) hjs
  obtain ⟨n, hn⟩ : ∃ n, path.length = n + 1 := ⟨path.length - 1, by omega⟩
  have hacc : access fs path = false := by simp [access, hnone]
  have hacc2 : access fs (path.take j) = true := by simp [access, hdir]
  unfold mkdirFile
  rw [rmkdir]
  simp only [List.take_length, hacc, Bool.false_eq_true, if_false, hj]
  rw [hn, rmkdir]
  simp [hacc2]


/-! ## `dropbox_readdir` -/

/-- One turn of the loop of `dropbox_readdir` that ends without fault. -/
theorem readdirLoop_cons {cacheRoot : CString} {cur : drbMetadata} {rest : List drbMetadata}
    {tbl : htbl drbMetadata} {fs : FileSystem} {names : List CString}
    {out : htbl drbMetadata × FileSystem × List CString}
    (h : readdirLoop cacheRoot (cur :: rest) tbl fs names = .ok out) :
    ∃ path oldContent tbl1 older old2 tbl2,
      cur.path = some path ∧
      htblSet tbl path (some cur) = .ok (oldContent, tbl1) ∧
      olderVersionCached cur oldContent = .ok older ∧
      htblSet tbl1 path (some { cur with path := some (basename path).2 }) = .ok (old2, tbl2) ∧
      readdirLoop cacheRoot rest tbl2
        (if older && access fs (cacheRoot ++ path) then unlink fs (cacheRoot ++ path) else fs)
        (names ++ [(basename path).1]) = .ok out := by
  simp only [readdirLoop] at h
  cases hp : cur.path with
  | none => simp [hp] at h
  | some path =>
    simp only [hp] at h
    cases h1 : htblSet tbl path (some cur) with
    | error e => simp [h1] at h
    | ok r1 =>
      obtain ⟨oldContent, tbl1⟩ := r1
      simp only [h1] at h
      cases h2 : olderVersionCached cur oldContent with
      | error e => simp [h2] at h
      | ok older =>
        simp only [h2] at h
        cases h3 : htblSet tbl1 path (some { cur with path := some (basename path).2 }) with
        | error e => simp [h3] at h
        | ok r3 =>
          obtain ⟨old2, tbl2⟩ := r3
          simp only [h3] at h
          exact ⟨path, oldContent, tbl1, older, old2, tbl2, rfl, h1, h2, h3, h⟩

/-- The loop leaves what the table holds for every key that is not the path of a child. -/
theorem readdirLoop_frame {cacheRoot : CString} {key : CString} {r : Option drbMetadata} :
    ∀ (cs : List drbMetadata) (tbl : htbl drbMetadata) (fs : FileSystem) (names : List CString)
      (out : htbl drbMetadata × FileSystem × List CString),
      readdirLoop cacheRoot cs tbl fs names = .ok out →
      (∀ c ∈ cs, c.path ≠ some key) → htblGet tbl key = .ok r →
      htblGet out.1 key = .ok r := by
  intro cs
  induction cs with
  | nil =>
    intro tbl fs names out h _ hg
    simp only [readdirLoop, Except.ok.injEq] at h
    rw [← h]
    exact hg
  | cons cur rest ih =>
    intro tbl fs names out h hne hg
    obtain ⟨path, oldContent, tbl1, older, old2, tbl2, hp, h1, _, h3, hrest⟩ :=
      readdirLoop_cons h
    have hk : key ≠ path := by
      intro he
      exact hne cur (List.mem_cons_self _ _) (by rw [hp, he])
    exact ih tbl2 _ _ out hrest (fun c hc => hne c (List.mem_cons_of_mem _ hc))
      (htblSet_frame h3 hk (htblSet_frame h1 hk hg))

/-- After the loop the table holds, at the path of each child, the metadata of that child
(with the path as `basename` left it), when no two children have the same path. -/
theorem readdirLoop_get {cacheRoot : CString} :
    ∀ (cs : List drbMetadata) (tbl : htbl drbMetadata) (fs : FileSystem) (names : List CString)
      (out : htbl drbMetadata × FileSystem × List CString),
      readdirLoop cacheRoot cs tbl fs names = .ok out →
      (cs.map (fun c => c.path)).Nodup →
      ∀ c ∈ cs, ∀ p, c.path = some p →
        htblGet out.1 p = .ok (some { c with path := some (basename p).2 }) := by
  intro cs
  induction cs with
  | nil => intro tbl fs names out _ _ c hc; cases hc
  | cons cur rest ih =>
    intro tbl fs names out h hnd c hc p hcp
    obtain ⟨path, oldContent, tbl1, older, old2, tbl2, hp, h1, _, h3, hrest⟩ :=
      readdirLoop_cons h
    rw [List.map_cons, List.nodup_cons] at hnd
    rcases List.mem_cons.mp hc with hcur | hin
    · subst hcur
      rw [hp] at hcp
      cases hcp
      refine readdirLoop_frame rest tbl2 _ _ out hrest ?_ (htblSet_get h3).1
      intro c2 hc2 he
      exact hnd.1 (List.mem_map.mpr ⟨c2, hc2, by rw [he, hp]⟩)
    · exact ih tbl2 _ _ out hrest hnd.2 c hin p hcp

/-- The loop creates nothing in the local file system. -/
theorem readdirLoop_fs_none {cacheRoot : CString} {q : CString} :
    ∀ (cs : List drbMetadata) (tbl : htbl drbMetadata) (fs : FileSystem) (names : List CString)
      (out : htbl drbMetadata × FileSystem × List CString),
      readdirLoop cacheRoot cs tbl fs names = .ok out →
      fsLookup fs q = none → fsLookup out.2.1 q = none := by
  intro cs
  induction cs with
  | nil =>
    intro tbl fs names out h hq
    simp only [readdirLoop, Except.ok.injEq] at h
    rw [← h]
    exact hq
  | cons cur rest ih =>
    intro tbl fs names out h hq
    obtain ⟨path, oldContent, tbl1, older, old2, tbl2, _, _, _, _, hrest⟩ := readdirLoop_cons h
    refine ih tbl2 _ _ out hrest ?_
    split
    · exact fsLookup_unlink_none fs _ q hq
    · exact hq

/-- The loop leaves every directory of the local file system where it is. -/
theorem readdirLoop_parents {cacheRoot : CString} (q : CString) :
    ∀ (cs : List drbMetadata) (tbl : htbl drbMetadata) (fs : FileSystem) (names : List CString)
      (out : htbl drbMetadata × FileSystem × List CString),
      readdirLoop cacheRoot cs tbl fs names = .ok out →
      parentsAreDirs out.2.1 q = parentsAreDirs fs q := by
  intro cs
  induction cs with
  | nil =>
    intro tbl fs names out h
    simp only [readdirLoop, Except.ok.injEq] at h
    rw [← h]
  | cons cur rest ih =>
    intro tbl fs names out h
    obtain ⟨path, oldContent, tbl1, older, old2, tbl2, _, _, _, _, hrest⟩ := readdirLoop_cons h
    rw [ih tbl2 _ _ out hrest]
    split
    · exact parentsAreDirs_unlink fs _ q
    · rfl

/-- The loop removes the cache file of a child that is not a directory when the table held,
for the path of the child, metadata with another revision. -/
theorem readdirLoop_invalidate {cacheRoot : CString} {p : CString} {old : drbMetadata}
    {content : List Nat} :
    ∀ (cs : List drbMetadata) (tbl : htbl drbMetadata) (fs : FileSystem) (names : List CString)
      (out : htbl drbMetadata × FileSystem × List CString),
      readdirLoop cacheRoot cs tbl fs names = .ok out →
      (cs.map (fun c => c.path)).Nodup →
      ∀ c ∈ cs, c.path = some p → c.isDir = some false →
        htblGet tbl p = .ok (some old) → old.revision ≠ c.revision →
        fsLookup fs (cacheRoot ++ p) = some (.file content) →
        fsLookup out.2.1 (cacheRoot ++ p) = none := by
  intro cs
  induction cs with
  | nil => intro tbl fs names out _ _ c hc; cases hc
  | cons cur rest ih =>
    intro tbl fs names out h hnd c hc hcp hdir hold hrev hfile
    obtain ⟨path, oldContent, tbl1, older, old2, tbl2, hp, h1, h2, h3, hrest⟩ :=
      readdirLoop_cons h
    rw [List.map_cons, List.nodup_cons] at hnd
    rcases List.mem_cons.mp hc with hcur | hin
    · subst hcur
      rw [hp] at hcp
      cases hcp
      have ho : oldContent = some old := by
        have := htblSet_old h1
        rw [hold] at this
        exact (Except.ok.inj this).symm
      subst ho
      have holder : older = true := by
        unfold olderVersionCached at h2
        rw [hdir] at h2
        simp only at h2
        cases hr1 : old.revision with
        | none => simp [hr1] at h2
        | some r1 =>
          cases hr2 : c.revision with
          | none => simp [hr1, hr2] at h2
          | some r2 =>
            simp only [hr1, hr2, Except.ok.injEq] at h2
            rw [← h2]
            have : r1 ≠ r2 := by
              intro he
              exact hrev (by rw [hr1, hr2, he])
            simpa using this
      refine readdirLoop_fs_none rest tbl2 _ _ out hrest ?_
      have hacc : access fs (cacheRoot ++ p) = true := by simp [access, hfile]
      rw [holder, hacc]
      exact fsLookup_unlink_file hfile
    · have hne : p ≠ path := by
        intro he
        exact hnd.1 (List.mem_map.mpr ⟨c, hin, by rw [hcp, hp, he]⟩)
      refine ih tbl2 _ _ out hrest hnd.2 c hin hcp hdir
        (htblSet_frame h3 hne (htblSet_frame h1 hne hold)) hrev ?_
      split
      · rw [fsLookup_unlink_ne fs (fun he => hne (List.append_cancel_left he))]
        exact hfile
      · exact hfile

/-- A run of `dropbox_readdir` that gives `DRBERR_OK` is the loop over the children. -/
theorem dropbox_readdir_ok {s s2 : FuseState} {path : CString} {remote : MetadataResponse}
    {names : List CString} {reqs : List Request}
    (h : dropbox_readdir s path remote = .ok (DRBERR_OK, names, s2, reqs)) :
    s2.cacheRoot = s.cacheRoot ∧ reqs = [.getMetadata path] ∧
    readdirLoop s.cacheRoot (children remote) s.filesTable s.fs [[46], [46, 46]] =
      .ok (s2.filesTable, s2.fs, names) := by
  unfold dropbox_readdir at h
  by_cases herr : remote.err = DRBERR_OK
  · simp only [herr, if_true] at h
    cases hm : remote.meta with
    | none => simp [hm] at h
    | some m =>
      simp only [hm] at h
      cases hc : m.contents with
      | none =>
        simp only [hc, Except.ok.injEq, Prod.mk.injEq, true_and] at h
        obtain ⟨h1, h2, h3⟩ := h
        subst h2
        simp [children, hm, hc, readdirLoop, h1, h3]
      | some contents =>
        simp only [hc] at h
        cases hl : readdirLoop s.cacheRoot contents s.filesTable s.fs [[46], [46, 46]] with
        | error e => simp [hl] at h
        | ok out =>
          obtain ⟨tbl1, fs1, names1⟩ := out
          simp only [hl, Except.ok.injEq, Prod.mk.injEq, true_and] at h
          obtain ⟨h1, h2, h3⟩ := h
          subst h2
          simp [children, hm, hc, hl, h1, h3]
  · simp only [herr, if_false, Except.ok.injEq, Prod.mk.injEq] at h
    exact absurd h.1 (by simp [DRBERR_OK, ENOENT])


/-! ## `dropbox_getattr` and `dropbox_read` -/

/-- When the table holds metadata for the path, `dropbox_getattr` succeeds from it and asks
the server nothing. -/
theorem dropbox_getattr_hit {s : FuseState} {path : CString} {m : drbMetadata}
    (h : htblGet s.filesTable path = .ok (some m)) (stbuf : stat) (remote : MetadataResponse) :
    ∃ st, dropbox_getattr s path stbuf remote = .ok (0, st, s, []) ∧
      st.st_mode = getattrMode m := by
  unfold dropbox_getattr
  rw [h]
  simp only [if_true]
  cases hl : (if access s.fs (s.cacheRoot ++ path) then fsLookup s.fs (s.cacheRoot ++ path)
      else none) with
  | none => exact ⟨_, rfl, rfl⟩
  | some inode => exact ⟨_, rfl, rfl⟩

/-- When nothing is at the cache path, every run of `dropbox_read` that returns has made
exactly one request, the download of the path. -/
theorem dropbox_read_miss {s : FuseState} {path : CString}
    (h : fsLookup s.fs (s.cacheRoot ++ path) = none) (size offset : Nat)
    (remote : GetFileResponse) (out : Int × List Nat × FuseState × List Request)
    (hrun : dropbox_read s path size offset remote = .ok out) :
    out.2.2.2 = [.getFile path] := by
  unfold dropbox_read at hrun
  simp only [openRead, h] at hrun
  cases h1 : mkdirFile s.fs (s.cacheRoot ++ path) with
  | error e => simp [h1] at hrun
  | ok fs1 =>
    simp only [h1] at hrun
    cases h2 : fopenTruncate fs1 (s.cacheRoot ++ path) with
    | none => simp [h2] at hrun
    | some fs2 =>
      simp only [h2] at hrun
      by_cases herr : remote.err = DRBERR_OK
      · simp only [herr, ne_eq, not_true_eq_false, if_false, if_true] at hrun
        simp only [Except.ok.injEq] at hrun
        rw [← hrun]
      · simp only [herr, ne_eq, not_false_eq_true, if_true] at hrun
        split at hrun
        · simp only [Except.ok.injEq] at hrun
          rw [← hrun]
        · simp only [Except.ok.injEq] at hrun
          rw [← hrun]


/-- When the directories above the cache path are there, the cache root is not empty, the
path begins with `'/'` and nothing is at the cache path, `dropbox_read` returns and has made
exactly one request, the download of the path, whether the download succeeds or not. -/
theorem dropbox_read_miss_total {s : FuseState} {p rest : CString}
    (hroot : s.cacheRoot ≠ []) (hp : p = 47 :: rest)
    (hpar : parentsAreDirs s.fs (s.cacheRoot ++ p) = true)
    (hnone : fsLookup s.fs (s.cacheRoot ++ p) = none) (size offset : Nat)
    (remote : GetFileResponse) :
    ∃ res buf s1, dropbox_read s p size offset remote = .ok (res, buf, s1, [.getFile p]) := by
  have hne : s.cacheRoot ++ p ≠ [] := by rw [hp]; simp
  have hslash : (s.cacheRoot ++ p)[s.cacheRoot.length]? = some 47 := by
    rw [hp, List.getElem?_append_right (le_refl _)]; simp
  have hpos : 0 < s.cacheRoot.length := List.length_pos.mpr hroot
  have hmk := mkdirFile_of_parents hpar hnone hpos hslash
  have hopen := fopenTruncate_of_none hne hpar hnone
  unfold dropbox_read
  simp only [openRead, hnone, hmk, hopen]
  by_cases herr : remote.err = DRBERR_OK
  · simp only [herr, ne_eq, not_true_eq_false, if_false, if_true]
    exact ⟨_, _, _, rfl⟩
  · simp only [herr, ne_eq, not_false_eq_true, if_true]
    split
    · exact ⟨_, _, _, rfl⟩
    · exact ⟨_, _, _, rfl⟩

/-- C1: after a listing that goes through (`dropbox_readdir` gives `DRBERR_OK`) and whose
children have pairwise distinct paths, for every child `c` that is not a directory: if the
table held metadata `old` for the path of `c` with a revision other than that of `c`, and a
cache file was at `cacheRoot ++ path`, then nothing is at that cache path when
`dropbox_readdir` returns; a following `dropbox_read` of the path that returns has requested
the download of the path, and it does return, with exactly that request, when the cache root
exists and the path begins with `'/'`. -/
theorem readdir_removes_stale_cache_file (s s2 : FuseState) (d : CString)
    (remote : MetadataResponse) (names : List CString) (reqs : List Request)
    (hrun : dropbox_readdir s d remote = .ok (DRBERR_OK, names, s2, reqs))
    (hdistinct : ((children remote).map (fun c => c.path)).Nodup)
    (c : drbMetadata) (hc : c ∈ children remote) (p : CString) (hp : c.path = some p)
    (hfile : c.isDir = some false)
    (old : drbMetadata) (hold : htblGet s.filesTable p = .ok (some old))
    (hrev : old.revision ≠ c.revision)
    (content : List Nat) (hcache : fsLookup s.fs (s.cacheRoot ++ p) = some (.file content)) :
    fsLookup s2.fs (s2.cacheRoot ++ p) = none ∧
    (∀ (size offset : Nat) (download : GetFileResponse)
      (out : Int × List Nat × FuseState × List Request),
      dropbox_read s2 p size offset download = .ok out → out.2.2.2 = [.getFile p]) ∧
    (access s2.fs s2.cacheRoot = true → ∀ rest, p = 47 :: rest →
      ∀ (size offset : Nat) (download : GetFileResponse), ∃ res buf s3,
        dropbox_read s2 p size offset download = .ok (res, buf, s3, [.getFile p])) := by
  obtain ⟨hroot, _, hloop⟩ := dropbox_readdir_ok hrun
  have hgone : fsLookup s2.fs (s2.cacheRoot ++ p) = none := by
    rw [hroot]
    exact readdirLoop_invalidate (children remote) _ _ _ _ hloop hdistinct c hc hp hfile hold
      hrev hcache
  have hpar : parentsAreDirs s2.fs (s2.cacheRoot ++ p) = true := by
    rw [hroot, readdirLoop_parents (s.cacheRoot ++ p) (children remote) _ _ _ _ hloop]
    exact (fsLookup_some hcache).2.1
  refine ⟨hgone,
    fun size offset download out hread => dropbox_read_miss hgone size offset download out hread,
    fun hacc rest hrest size offset download =>
      dropbox_read_miss_total ?_ hrest hpar hgone size offset download⟩
  intro he
  rw [he] at hacc
  simp [access, fsLookup] at hacc

/-- C1, at `cachedState`: `/a.txt` is cached with revision 1 and the listing of `/` reports
revision 2. -/
theorem readdir_removes_stale_cache_file_witness :
    dropbox_readdir cachedState pathRoot listingNewer =
      .ok (DRBERR_OK, [[46], [46, 46], [97, 46, 116, 120, 116]], refreshedState,
        [.getMetadata pathRoot]) ∧
    ((children listingNewer).map (fun c => c.path)).Nodup ∧
    fileMeta pathA 2 7 ∈ children listingNewer ∧
    htblGet cachedState.filesTable pathA = .ok (some (fileMeta pathA 1 5)) ∧
    (fileMeta pathA 1 5).revision ≠ (fileMeta pathA 2 7).revision ∧
    fsLookup cachedState.fs (cachedState.cacheRoot ++ pathA) = some (.file hello) ∧
    fsLookup refreshedState.fs (refreshedState.cacheRoot ++ pathA) = none ∧
    (∀ (size offset : Nat) (download : GetFileResponse)
      (out : Int × List Nat × FuseState × List Request),
      dropbox_read refreshedState pathA size offset download = .ok out →
        out.2.2.2 = [.getFile pathA]) ∧
    (access refreshedState.fs refreshedState.cacheRoot = true →
      ∀ rest, pathA = 47 :: rest →
      ∀ (size offset : Nat) (download : GetFileResponse), ∃ res buf s3,
        dropbox_read refreshedState pathA size offset download =
          .ok (res, buf, s3, [.getFile pathA])) :=
  have hrun : dropbox_readdir cachedState pathRoot listingNewer =
      .ok (DRBERR_OK, [[46], [46, 46], [97, 46, 116, 120, 116]], refreshedState,
        [.getMetadata pathRoot]) := by rfl
  have hnd : ((children listingNewer).map (fun c => c.path)).Nodup := by
    simp [children, listingNewer, dirMeta]
  have hmem : fileMeta pathA 2 7 ∈ children listingNewer := by
    simp [children, listingNewer, dirMeta]
  have hold : htblGet cachedState.filesTable pathA = .ok (some (fileMeta pathA 1 5)) := by rfl
  have hrev : (fileMeta pathA 1 5).revision ≠ (fileMeta pathA 2 7).revision := by
    simp [fileMeta]
  have hcache : fsLookup cachedState.fs (cachedState.cacheRoot ++ pathA) =
      some (.file hello) := by rfl
  ⟨hrun, hnd, hmem, hold, hrev, hcache,
    readdir_removes_stale_cache_file cachedState refreshedState pathRoot listingNewer _ _ hrun
      hnd (fileMeta pathA 2 7) hmem pathA rfl rfl (fileMeta pathA 1 5) hold hrev hello hcache⟩


/-- C2 (the code departs from the claim): `/d` is read in `freshState`, which leaves the cache
file `/c/d`; then `/d` is renamed to `/e`, the folder `/d` is made and `/e` is renamed to
`/d/f`.  In the state reached `/d/f` has an entry in the table and no cache file, and the
download would succeed, yet `dropbox_read` of `/d/f` does not return: `/c/d` is a regular
file, `mkdirFile` stops at it, `fopen` of `/c/d/f` gives `NULL`, and `drbGetFile` (through
`fwrite`) and `fclose` go through the null stream, which the handler does not test. -/
theorem read_goes_through_null_stream_below_cache_file :
    ∃ s1 s2 s3 s4,
      dropbox_read freshState pathD 5 0 downloadHello =
        .ok (-EBADF, [], s1, [.getFile pathD]) ∧
      dropbox_rename s1 pathD pathE { err := 0, meta := some (fileMeta pathE 2 5) } =
        .ok (DRBERR_OK, s2, [.move pathD pathE]) ∧
      dropbox_mkdir s2 pathD { err := 0, meta := some (dirMeta pathD 1 []) } =
        .ok (DRBERR_OK, s3, [.createFolder pathD]) ∧
      dropbox_rename s3 pathE pathDF { err := 0, meta := some (fileMeta pathDF 3 5) } =
        .ok (DRBERR_OK, s4, [.move pathE pathDF]) ∧
      htblGet s4.filesTable pathDF = .ok (some (fileMeta pathDF 3 5)) ∧
      fsLookup s4.fs (s4.cacheRoot ++ pathD) = some (.file hello) ∧
      fsLookup s4.fs (s4.cacheRoot ++ pathDF) = none ∧
      mkdirFile s4.fs (s4.cacheRoot ++ pathDF) = .ok s4.fs ∧
      fopenTruncate s4.fs (s4.cacheRoot ++ pathDF) = none ∧
      downloadHello.err = DRBERR_OK ∧
      dropbox_read s4 pathDF 5 0 downloadHello = .error .nullDeref :=
  ⟨_, _, _, _, rfl, rfl, rfl, rfl, rfl, rfl, rfl, rfl, rfl, rfl, rfl⟩

/-- C3 (the code departs from the claim): in `freshState` nothing is cached for `/a.txt` and
the download of `hello` succeeds, yet `dropbox_read` of 5 bytes at offset 0 gives `-EBADF`
and no byte, because `pread` runs on the descriptor `-1` of the failed `open`; the same call
in the state it leaves, where the cache file holds `hello`, gives the 5 bytes. -/
theorem read_after_download_returns_ebadf :
    dropbox_read freshState pathA 5 0 downloadHello =
      .ok (-9, [], downloadedState, [.getFile pathA]) ∧
    dropbox_read downloadedState pathA 5 0 downloadHello =
      .ok (5, hello, downloadedState, []) := by
  constructor <;> rfl


/-- C4 (the code departs from the claim): with 4 buckets, `set("/a", 1)` and `set("/e", 2)`
put both keys in bucket 1 with `/e` at the head of the chain.  `remove("/e")` gives back 2 and
frees the node, but leaves `matrix[1]` pointing to it (the head has a successor, so the branch
that writes `matrix[index]` is not taken); `get("/e")` and `exists("/e")` then read the freed
node instead of finding nothing. -/
theorem remove_chain_head_leaves_dangling_bucket :
    htblSetAll (htblCreate Nat 4) [(keyA, some 1), (keyE, some 2)] = .ok tableAE ∧
    htblRemove tableAE keyE = .ok (some 2, tableAEremoved) ∧
    htblGet tableAEremoved keyE = .error .useAfterFree ∧
    htblExists tableAEremoved keyE = .error .useAfterFree := by
  decide

/-- C5 (the code departs from the claim): `tableAEremoved` is reached from `htblCreate 4` by
`set("/a", 1)`, `set("/e", 2)` and `remove("/e")`; in it `set("/e", 3)` and `set("/a", 3)`
read the freed node that bucket 1 still points to, so no later `get` can give 3. -/
theorem set_after_remove_of_chain_head_reads_freed_node :
    (∃ t1 t2, htblSet (htblCreate Nat 4) keyA (some 1) = .ok (none, t1) ∧
      htblSet t1 keyE (some 2) = .ok (none, t2) ∧
      htblRemove t2 keyE = .ok (some 2, tableAEremoved)) ∧
    htblSet tableAEremoved keyE (some 3) = .error .useAfterFree ∧
    htblSet tableAEremoved keyA (some 3) = .error .useAfterFree := by
  refine ⟨⟨_, _, rfl, rfl, rfl⟩, ?_, ?_⟩ <;> decide

/-- C6 (the code departs from the claim): `tableAEremoved` is reached from `htblCreate 4` by
`set("/a", 1)`, `set("/e", 2)` and `remove("/e")`; in it the path `/e` has no entry, yet
`set("/e", 3)` does not give back `NULL`: it reads the freed node that bucket 1 still points
to.  In the table before the removal the two calls of `set` behave as the claim says. -/
theorem set_on_removed_path_does_not_return_absent :
    htblSetAll (htblCreate Nat 4) [(keyA, some 1), (keyE, some 2)] = .ok tableAE ∧
    htblRemove tableAE keyE = .ok (some 2, tableAEremoved) ∧
    htblSet tableAEremoved keyE (some 3) ≠ .ok (none, tableAEremoved) ∧
    (∀ r, htblSet tableAEremoved keyE (some 3) ≠ .ok r) ∧
    (∃ t1 t2, htblSet tableAE keyE (some 3) = .ok (some 2, t1) ∧
      htblSet t1 keyE (some 4) = .ok (some 3, t2) ∧ htblGet t2 keyE = .ok (some 4)) := by
  have h : htblSet tableAEremoved keyE (some 3) = .error .useAfterFree := by decide
  refine ⟨by decide, by decide, ?_, ?_, ⟨_, _, rfl, rfl, rfl⟩⟩
  · rw [h]; intro he; cases he
  · intro r; rw [h]; intro he; cases he

/-- C7: for every number of buckets `n` with `1 ≤ n` (and `n ≤ INT_MAX`, the loop variable of
`htblCount` being an `int`) and every list of fewer than `2^32` pairs with pairwise distinct
paths: inserting the pairs with `htblSet` into `htblCreate n` goes through, `htblCount` gives
the number of pairs and `htblGet` of each path gives the value inserted for it. -/
theorem distinct_inserts_are_counted_and_found {α : Type} (n : Nat)
    (kvs : List (CString × Option α)) (hn : 1 ≤ n) (hint : n < 2 ^ 31)
    (hlen : kvs.length < 2 ^ 32) (hdistinct : (kvs.map Prod.fst).Nodup) :
    ∃ tbl, htblSetAll (htblCreate α n) kvs = .ok tbl ∧
      htblCount tbl = .ok kvs.length ∧
      ∀ kv ∈ kvs, htblGet tbl kv.1 = .ok kv.2 := by
  obtain ⟨tbl, ch, hall, hb, hget, _⟩ :=
    Built.setAll kvs (htblCreate α n) [] _ (htblCreate_built α n hn) (by simpa using hdistinct)
  refine ⟨tbl, hall, ?_, hget⟩
  rw [hb.htblCount hint]
  simp only [List.nil_append, List.length_map]
  rw [Nat.mod_eq_of_lt hlen]

/-- C7, at the scenario of the specification: 4 buckets, the 20 paths `/a` .. `/t`. -/
theorem distinct_inserts_are_counted_and_found_witness :
    1 ≤ 4 ∧ 4 < 2 ^ 31 ∧ twentyPaths.length < 2 ^ 32 ∧ (twentyPaths.map Prod.fst).Nodup ∧
    ∃ tbl, htblSetAll (htblCreate Nat 4) twentyPaths = .ok tbl ∧
      htblCount tbl = .ok twentyPaths.length ∧
      ∀ kv ∈ twentyPaths, htblGet tbl kv.1 = .ok kv.2 :=
  ⟨by decide, by decide, by decide, by decide,
    distinct_inserts_are_counted_and_found 4 twentyPaths (by decide) (by decide) (by decide)
      (by decide)⟩


/-- C8: after a listing that goes through (`dropbox_readdir` gives `DRBERR_OK`) and whose
children have pairwise distinct paths, for every child `c` with path `p`: `htblGet` of `p`
gives the metadata of `c` (the object of the listing, whose `path` buffer `basename` has
cut at trailing slashes; it is `c` itself when `basename` leaves `p` as it is), with the
revision of the listing, and `dropbox_getattr` of `p` succeeds from it without a request to
the server, whatever the server would answer. -/
theorem readdir_then_getattr_from_index (s s2 : FuseState) (d : CString)
    (remote : MetadataResponse) (names : List CString) (reqs : List Request)
    (hrun : dropbox_readdir s d remote = .ok (DRBERR_OK, names, s2, reqs))
    (hdistinct : ((children remote).map (fun c => c.path)).Nodup)
    (c : drbMetadata) (hc : c ∈ children remote) (p : CString) (hp : c.path = some p) :
    (∃ m, htblGet s2.filesTable p = .ok (some m) ∧
      m = { c with path := some (basename p).2 } ∧ m.revision = c.revision ∧
      ((basename p).2 = p → m = c) ∧
      ∀ (stbuf : stat) (answer : MetadataResponse), ∃ st,
        dropbox_getattr s2 p stbuf answer = .ok (0, st, s2, []) ∧
        st.st_mode = getattrMode c) := by
  obtain ⟨_, _, hloop⟩ := dropbox_readdir_ok hrun
  have hget := readdirLoop_get (children remote) _ _ _ _ hloop hdistinct c hc p hp
  refine ⟨_, hget, rfl, rfl, ?_, ?_⟩
  · intro hb
    rw [hb, ← hp]
    cases c
    rfl
  · intro stbuf answer
    exact dropbox_getattr_hit hget stbuf answer

/-- C8, at `freshState` with the listing of `/cf.txt` and `/a.txt`, for the child `/a.txt`. -/
theorem readdir_then_getattr_from_index_witness :
    dropbox_readdir freshState pathRoot listingTwo =
      .ok (DRBERR_OK, [[46], [46, 46], [99, 102, 46, 116, 120, 116], [97, 46, 116, 120, 116]],
        stateTwo, [.getMetadata pathRoot]) ∧
    ((children listingTwo).map (fun c => c.path)).Nodup ∧
    fileMeta pathA 1 5 ∈ children listingTwo ∧
    (basename pathA).2 = pathA ∧
    (∃ m, htblGet stateTwo.filesTable pathA = .ok (some m) ∧
      m = { fileMeta pathA 1 5 with path := some (basename pathA).2 } ∧
      m.revision = (fileMeta pathA 1 5).revision ∧
      ((basename pathA).2 = pathA → m = fileMeta pathA 1 5) ∧
      ∀ (stbuf : stat) (answer : MetadataResponse), ∃ st,
        dropbox_getattr stateTwo pathA stbuf answer = .ok (0, st, stateTwo, []) ∧
        st.st_mode = getattrMode (fileMeta pathA 1 5)) :=
  have hrun : dropbox_readdir freshState pathRoot listingTwo =
      .ok (DRBERR_OK, [[46], [46, 46], [99, 102, 46, 116, 120, 116], [97, 46, 116, 120, 116]],
        stateTwo, [.getMetadata pathRoot]) := by rfl
  have hnd : ((children listingTwo).map (fun c => c.path)).Nodup := by
    simp [children, listingTwo, dirMeta, fileMeta, pathA, pathCF]
  have hmem : fileMeta pathA 1 5 ∈ children listingTwo := by
    simp [children, listingTwo, dirMeta]
  ⟨hrun, hnd, hmem, by decide,
    readdir_then_getattr_from_index freshState stateTwo pathRoot listingTwo _ _ hrun hnd
      (fileMeta pathA 1 5) hmem pathA rfl⟩

/-- C9 (the claim fails on the code): in `rootKnownState` the table holds metadata of `/` with
revision 0; the listing of `/` goes through with the fresh metadata of `/`, revision 1, and
afterwards the table still holds the metadata with revision 0: `dropbox_readdir` destroys the
metadata of the directory and never sets it. -/
theorem readdir_keeps_old_directory_entry :
    dropbox_readdir rootKnownState pathRoot listingEmpty =
      .ok (DRBERR_OK, [[46], [46, 46]], rootKnownState, [.getMetadata pathRoot]) ∧
    htblGet rootKnownState.filesTable pathRoot = .ok (some (dirMeta pathRoot 0 [])) ∧
    listingEmpty.meta = some (dirMeta pathRoot 1 []) ∧
    htblGet rootKnownState.filesTable pathRoot ≠ .ok listingEmpty.meta := by
  have h : htblGet rootKnownState.filesTable pathRoot = .ok (some (dirMeta pathRoot 0 [])) := by
    rfl
  refine ⟨by rfl, h, rfl, ?_⟩
  rw [h]
  simp [listingEmpty, dirMeta]

/-- C9 as amended: after a listing of `d` that goes through, the table holds for `d` what it
held before the call, unless `d` is the path of one of the children listed. -/
theorem readdir_leaves_directory_entry (s s2 : FuseState) (d : CString)
    (remote : MetadataResponse) (names : List CString) (reqs : List Request)
    (hrun : dropbox_readdir s d remote = .ok (DRBERR_OK, names, s2, reqs))
    (hnotchild : ∀ c ∈ children remote, c.path ≠ some d)
    (r : Option drbMetadata) (hbefore : htblGet s.filesTable d = .ok r) :
    htblGet s2.filesTable d = .ok r := by
  obtain ⟨_, _, hloop⟩ := dropbox_readdir_ok hrun
  exact readdirLoop_frame (children remote) _ _ _ _ hloop hnotchild hbefore

/-- C9 as amended, at `freshState` with the listing of `/cf.txt` and `/a.txt`: the table has
no entry for `/` before the listing and none after it. -/
theorem readdir_leaves_directory_entry_witness :
    dropbox_readdir freshState pathRoot listingTwo =
      .ok (DRBERR_OK, [[46], [46, 46], [99, 102, 46, 116, 120, 116], [97, 46, 116, 120, 116]],
        stateTwo, [.getMetadata pathRoot]) ∧
    (∀ c ∈ children listingTwo, c.path ≠ some pathRoot) ∧
    htblGet freshState.filesTable pathRoot = .ok none ∧
    htblGet stateTwo.filesTable pathRoot = .ok none :=
  have hrun : dropbox_readdir freshState pathRoot listingTwo =
      .ok (DRBERR_OK, [[46], [46, 46], [99, 102, 46, 116, 120, 116], [97, 46, 116, 120, 116]],
        stateTwo, [.getMetadata pathRoot]) := by rfl
  have hnot : ∀ c ∈ children listingTwo, c.path ≠ some pathRoot := by
    simp [children, listingTwo, dirMeta, fileMeta, pathA, pathCF, pathRoot]
  have hbefore : htblGet freshState.filesTable pathRoot = .ok none := by rfl
  ⟨hrun, hnot, hbefore,
    readdir_leaves_directory_entry freshState stateTwo pathRoot listingTwo _ _ hrun hnot none
      hbefore⟩

/-- C10 (the code departs from the claim): in `stateTwo` the paths `/cf.txt` and `/a.txt`
share bucket 71 and `/a.txt` is the head of the chain.  `rename("/a.txt", "/b.txt")` succeeds
and installs the metadata of the move at `/b.txt`, but `htblRemove` leaves bucket 71 pointing
to the freed node of `/a.txt`: `exists("/a.txt")` reads the freed node instead of giving
false, and `/cf.txt` cannot be looked up any more. -/
theorem rename_of_chain_head_leaves_dangling_bucket :
    dropbox_readdir freshState pathRoot listingTwo =
      .ok (DRBERR_OK, [[46], [46, 46], [99, 102, 46, 116, 120, 116], [97, 46, 116, 120, 116]],
        stateTwo, [.getMetadata pathRoot]) ∧
    dropbox_rename stateTwo pathA pathB movedToB =
      .ok (DRBERR_OK, renamedState, [.move pathA pathB]) ∧
    htblGet renamedState.filesTable pathB = .ok movedToB.meta ∧
    htblExists renamedState.filesTable pathA = .error .useAfterFree ∧
    htblExists renamedState.filesTable pathA ≠ .ok false ∧
    htblGet renamedState.filesTable pathCF = .error .useAfterFree := by
  have h : htblExists renamedState.filesTable pathA = .error .useAfterFree := by rfl
  refine ⟨by rfl, by rfl, by rfl, h, ?_, by rfl⟩
  rw [h]
  intro he
  cases he


/-! ## Lemmas for the handlers that change the remote side -/

/-- Where `htblGet` ends without fault, `htblSet` does too. -/
theorem htblSet_total_of_get {α : Type} {tbl : htbl α} {key : CString} {r : Option α}
    (h : htblGet tbl key = .ok r) (data : Option α) :
    ∃ old tbl2, htblSet tbl key data = .ok (old, tbl2) := by
  obtain ⟨index, hres⟩ := htblGet_ok h
  rcases hres with ⟨hg, _⟩ | ⟨a, n, hg, _⟩
  · exact htblSet_total data hg
  · exact htblSet_total data hg

/-- The bytes written by `pwrite` are in the file, at the offset. -/
theorem pwriteContent_at (content data : List Nat) (offset : Nat) :
    ((pwriteContent content data offset).drop offset).take data.length = data := by
  by_cases hd : data = []
  · subst hd
    simp
  unfold pwriteContent
  rw [if_neg hd]
  have hlen : (content.take offset ++ List.replicate (offset - content.length) 0).length =
      offset := by
    simp only [List.length_append, List.length_take, List.length_replicate]
    omega
  rw [List.append_assoc, List.drop_append_eq_append_drop, hlen]
  simp [List.drop_eq_nil_of_le (le_of_eq hlen)]

theorem ssizeToInt_of_lt {n : Nat} (h : n < 2 ^ 31) : ssizeToInt n = (n : Int) := by
  unfold ssizeToInt
  have h1 : (n + 2 ^ 31) % 2 ^ 32 = n + 2 ^ 31 := Nat.mod_eq_of_lt (by omega)
  rw [h1]
  push_cast
  omega


/-- When the table holds metadata for the path, `dropbox_getattr` returns 0 with the
`struct stat` made from it, asks the server nothing and leaves the state as it is. -/
theorem dropbox_getattr_found {s : FuseState} {path : CString} {m : drbMetadata}
    (h : htblGet s.filesTable path = .ok (some m)) (stbuf : stat) (remote : MetadataResponse) :
    dropbox_getattr s path stbuf remote =
      .ok (0, getattrStat s.fs (s.cacheRoot ++ path) m, s, []) := by
  unfold dropbox_getattr
  simp only [h, if_true]
  cases hl : fsLookup s.fs (s.cacheRoot ++ path) with
  | none => simp [access, hl, getattrStat, DRBERR_OK]
  | some inode => simp [access, hl, getattrStat]

/-- When the table has no entry for the path and the server gives metadata that is not marked
deleted, `dropbox_getattr` sets the metadata in the table and returns 0 with the
`struct stat` made from it. -/
theorem dropbox_getattr_fetched {s : FuseState} {path : CString} {remote : MetadataResponse}
    {m : drbMetadata} (hmiss : htblGet s.filesTable path = .ok none)
    (hok : remote.err = DRBERR_OK) (hmeta : remote.meta = some m)
    (hlive : m.isDeleted ≠ some true) (stbuf : stat) :
    ∃ tbl1, htblSet s.filesTable path (some m) = .ok (none, tbl1) ∧
      dropbox_getattr s path stbuf remote =
        .ok (0, getattrStat s.fs (s.cacheRoot ++ path) m, { s with filesTable := tbl1 },
          [.getMetadata path]) := by
  obtain ⟨old, tbl1, hset⟩ := htblSet_total_of_get hmiss (some m)
  have hold : old = none := by
    have := htblSet_old hset
    rw [hmiss] at this
    exact (Except.ok.inj this).symm
  subst hold
  have hcond : m.isDeleted = none ∨ m.isDeleted = some false := by
    cases hd : m.isDeleted with
    | none => exact Or.inl rfl
    | some d =>
      cases d with
      | false => exact Or.inr rfl
      | true => exact absurd hd hlive
  refine ⟨tbl1, hset, ?_⟩
  unfold dropbox_getattr
  simp only [hmiss, hok, hmeta, if_true, hcond, hset]
  cases hl : fsLookup s.fs (s.cacheRoot ++ path) with
  | none => simp [access, hl, getattrStat, DRBERR_OK]
  | some inode => simp [access, hl, getattrStat]

/-- C11: for every state and every path, when the remote delete fails (whatever the status,
so also for a path that does not exist remotely), `dropbox_unlink` returns `-ENOENT` and the
state, that is the table and the local cache, is the one before the call. -/
theorem unlink_failure_changes_nothing (s : FuseState) (path : CString) (remote : Int)
    (hfail : remote ≠ DRBERR_OK) :
    dropbox_unlink s path remote = .ok (-ENOENT, s, [.delete path]) := by
  unfold dropbox_unlink
  simp [hfail]

/-- C11, at `cachedState`: the delete of `/a.txt` is answered with 404. -/
theorem unlink_failure_changes_nothing_witness :
    (404 : Int) ≠ DRBERR_OK ∧
    dropbox_unlink cachedState pathA 404 = .ok (-ENOENT, cachedState, [.delete pathA]) :=
  ⟨by decide, unlink_failure_changes_nothing cachedState pathA 404 (by decide)⟩

/-- C12 (the code departs from the claim): the remote delete succeeds in each case.
`dropbox_rmdir` of `/d` in `folderCachedState` returns 0 and takes `/d` out of the table, but
the cache directory `/c/d` and the cache file `/c/d/f` stay: the handler has no code for the
cache.  In `cachedState`, `dropbox_rmdir` of `/a.txt` leaves the cache file that
`dropbox_unlink` of `/a.txt` removes.  In `stateTwo`, where `/a.txt` is the head of a chain
with a successor, `dropbox_unlink` of `/a.txt` leaves the bucket pointing to the freed node,
so the lookup of `/a.txt` reads freed memory instead of finding nothing. -/
theorem delete_leaves_cache_or_dangling_entry :
    (∃ s2, dropbox_rmdir folderCachedState pathD 0 = .ok (0, s2, [.delete pathD]) ∧
      htblGet s2.filesTable pathD = .ok none ∧
      fsLookup s2.fs (s2.cacheRoot ++ pathD) = some (.dir 4096 2) ∧
      fsLookup s2.fs (s2.cacheRoot ++ pathDF) = some (.file hello)) ∧
    (∃ s2, dropbox_rmdir cachedState pathA 0 = .ok (0, s2, [.delete pathA]) ∧
      fsLookup s2.fs (s2.cacheRoot ++ pathA) = some (.file hello)) ∧
    (∃ s2, dropbox_unlink cachedState pathA 0 = .ok (0, s2, [.delete pathA]) ∧
      fsLookup s2.fs (s2.cacheRoot ++ pathA) = none) ∧
    (∃ s2, dropbox_unlink stateTwo pathA 0 = .ok (0, s2, [.delete pathA]) ∧
      htblGet s2.filesTable pathA = .error .useAfterFree ∧
      htblExists s2.filesTable pathA = .error .useAfterFree) := by
  refine ⟨⟨_, rfl, rfl, rfl, rfl⟩, ⟨_, rfl, rfl⟩, ⟨_, rfl, rfl⟩, ⟨_, rfl, rfl, rfl⟩⟩

/-- When `htblGet` gives `NULL` for the path and the server gives metadata `m` for it
(`DRBERR_OK`): if `m` is not marked deleted, `dropbox_getattr` returns 0 after one request and
the table then holds `m` for the path; if `m` is marked deleted, it returns `-ENOENT` and
leaves `*stbuf` and the state as they were.  So it returns 0 exactly when `m` is not marked
deleted. -/
theorem dropbox_getattr_miss (s : FuseState) (path : CString) (stbuf : stat)
    (remote : MetadataResponse) (m : drbMetadata)
    (hmiss : htblGet s.filesTable path = .ok none) (hok : remote.err = DRBERR_OK)
    (hmeta : remote.meta = some m) :
    (m.isDeleted ≠ some true →
      ∃ st s2, dropbox_getattr s path stbuf remote = .ok (0, st, s2, [.getMetadata path]) ∧
        htblGet s2.filesTable path = .ok (some m)) ∧
    (m.isDeleted = some true →
      dropbox_getattr s path stbuf remote = .ok (-ENOENT, stbuf, s, [.getMetadata path]) ∧
      htblGet s.filesTable path = .ok none) ∧
    ∀ res st s2 reqs, dropbox_getattr s path stbuf remote = .ok (res, st, s2, reqs) →
      (res = 0 ↔ m.isDeleted ≠ some true) := by
  obtain ⟨old, tbl1, hset⟩ := htblSet_total_of_get hmiss (some m)
  have hlive : m.isDeleted ≠ some true →
      ∃ st, dropbox_getattr s path stbuf remote =
        .ok (0, st, { s with filesTable := tbl1 }, [.getMetadata path]) := by
    intro hnd
    have hcond : m.isDeleted = none ∨ m.isDeleted = some false := by
      cases hd : m.isDeleted with
      | none => exact Or.inl rfl
      | some b =>
        cases b with
        | false => exact Or.inr rfl
        | true => exact absurd hd hnd
    unfold dropbox_getattr
    simp only [hmiss, hok, hmeta, if_true, hcond, hset]
    cases hl : (if access s.fs (s.cacheRoot ++ path) then fsLookup s.fs (s.cacheRoot ++ path)
        else none) with
    | none => exact ⟨_, rfl⟩
    | some inode => exact ⟨_, rfl⟩
  have hdead : m.isDeleted = some true →
      dropbox_getattr s path stbuf remote = .ok (-ENOENT, stbuf, s, [.getMetadata path]) := by
    intro hd
    unfold dropbox_getattr
    simp [hmiss, hok, hmeta, hd, DRBERR_OK, ENOENT]
  refine ⟨?_, ?_, ?_⟩
  · intro hnd
    obtain ⟨st, hrun⟩ := hlive hnd
    exact ⟨st, _, hrun, (htblSet_get hset).1⟩
  · intro hd
    exact ⟨hdead hd, hmiss⟩
  · intro res st s2 reqs hrun
    by_cases hd : m.isDeleted = some true
    · rw [hdead hd] at hrun
      simp only [Except.ok.injEq, Prod.mk.injEq] at hrun
      constructor
      · intro h0
        rw [h0] at hrun
        exact absurd hrun.1 (by simp [ENOENT])
      · intro hn
        exact absurd hd hn
    · obtain ⟨st1, hrun1⟩ := hlive hd
      rw [hrun1] at hrun
      simp only [Except.ok.injEq, Prod.mk.injEq] at hrun
      exact ⟨fun _ => hd, fun _ => hrun.1.symm⟩

/-- C13 (the code departs from the claim): the listing `listingTwo` of `/` puts `/cf.txt` and
`/a.txt` in one chain of the table, `/a.txt` at its head, and `dropbox_unlink` then removes
`/a.txt`.  The path has no entry any more, but `htblRemove` has left the bucket pointing to
the freed node: a `dropbox_getattr` of `/a.txt` reads that node in `htblGet`, whatever the
server answers.  It neither installs the record that was fetched nor returns `-ENOENT` for a
record that is marked deleted. -/
theorem getattr_after_unlink_of_chain_head_reads_freed_node :
    dropbox_readdir freshState pathRoot listingTwo =
      .ok (DRBERR_OK, [[46], [46, 46], [99, 102, 46, 116, 120, 116], [97, 46, 116, 120, 116]],
        stateTwo, [.getMetadata pathRoot]) ∧
    ∃ s2, dropbox_unlink stateTwo pathA DRBERR_OK = .ok (DRBERR_OK, s2, [.delete pathA]) ∧
      ∀ (stbuf : stat) (remote : MetadataResponse),
        dropbox_getattr s2 pathA stbuf remote = .error .useAfterFree :=
  ⟨by rfl, _, rfl, fun _ _ => rfl⟩

/-- C14 (the claim fails on the code): in `cachedState` the table holds metadata of `/a.txt`
with 5 bytes and the cache file holds `hello`.  A write of `!!` at offset 5 whose upload fails
leaves `aheadState`: the metadata still says 5 bytes, the cache file has 7.  There
`dropbox_getattr` of `/a.txt` reports 7, the size that `lstat` gives for the cache file. -/
theorem getattr_reports_local_size :
    dropbox_write cachedState pathA [33, 33] 5 answer500 =
      .ok (2, aheadState, [.putFile pathA (hello ++ [33, 33])]) ∧
    htblGet aheadState.filesTable pathA = .ok (some (fileMeta pathA 1 5)) ∧
    (fileMeta pathA 1 5).bytes = some 5 ∧
    dropbox_getattr aheadState pathA zeroStat answer500 =
      .ok (0, { st_mode := getattrMode (fileMeta pathA 1 5), st_nlink := 1, st_size := 7 },
        aheadState, []) := by
  refine ⟨by rfl, by rfl, rfl, by rfl⟩

/-- C14 as amended: for every path whose metadata `m` (found in the table, or fetched with
success and not marked deleted when the table has no entry) defines `bytes = b`,
`dropbox_getattr` succeeds and reports the size `b` when nothing exists at the cache path;
when something exists there it reports the size that `lstat` gives for it, which for a cache
file is the length of the file. -/
theorem getattr_size_metadata_without_cache_else_local (s : FuseState) (path : CString)
    (stbuf : stat) (remote : MetadataResponse) (m : drbMetadata) (b : Nat)
    (hsource : htblGet s.filesTable path = .ok (some m) ∨
      (htblGet s.filesTable path = .ok none ∧ remote.err = DRBERR_OK ∧
        remote.meta = some m ∧ m.isDeleted ≠ some true))
    (hbytes : m.bytes = some b) :
    ∃ st s2 reqs, dropbox_getattr s path stbuf remote = .ok (0, st, s2, reqs) ∧
      (fsLookup s.fs (s.cacheRoot ++ path) = none → st.st_size = b) ∧
      (∀ inode, fsLookup s.fs (s.cacheRoot ++ path) = some inode →
        st.st_size = (lstat inode).st_size) ∧
      (∀ content, fsLookup s.fs (s.cacheRoot ++ path) = some (.file content) →
        st.st_size = content.length) := by
  have hsize : (fsLookup s.fs (s.cacheRoot ++ path) = none →
        (getattrStat s.fs (s.cacheRoot ++ path) m).st_size = b) ∧
      (∀ inode, fsLookup s.fs (s.cacheRoot ++ path) = some inode →
        (getattrStat s.fs (s.cacheRoot ++ path) m).st_size = (lstat inode).st_size) ∧
      (∀ content, fsLookup s.fs (s.cacheRoot ++ path) = some (.file content) →
        (getattrStat s.fs (s.cacheRoot ++ path) m).st_size = content.length) := by
    refine ⟨?_, ?_, ?_⟩
    · intro h; simp [getattrStat, h, hbytes]
    · intro inode h; simp [getattrStat, h]
    · intro content h; simp [getattrStat, h, lstat]
  rcases hsource with hhit | ⟨hmiss, hok, hmeta, hlive⟩
  · exact ⟨_, _, _, dropbox_getattr_found hhit stbuf remote, hsize⟩
  · obtain ⟨tbl1, _, hrun⟩ := dropbox_getattr_fetched hmiss hok hmeta hlive stbuf
    exact ⟨_, _, _, hrun, hsize⟩

/-- C14 as amended, at `aheadState`: the metadata of `/a.txt` says 5 bytes, the cache file has
7 bytes, and 7 is the size reported. -/
theorem getattr_size_metadata_without_cache_else_local_witness :
    htblGet aheadState.filesTable pathA = .ok (some (fileMeta pathA 1 5)) ∧
    (fileMeta pathA 1 5).bytes = some 5 ∧
    ∃ st s2 reqs, dropbox_getattr aheadState pathA zeroStat answer500 = .ok (0, st, s2, reqs) ∧
      (fsLookup aheadState.fs (aheadState.cacheRoot ++ pathA) = none → st.st_size = 5) ∧
      (∀ inode, fsLookup aheadState.fs (aheadState.cacheRoot ++ pathA) = some inode →
        st.st_size = (lstat inode).st_size) ∧
      (∀ content, fsLookup aheadState.fs (aheadState.cacheRoot ++ pathA) =
        some (.file content) → st.st_size = content.length) :=
  have hhit : htblGet aheadState.filesTable pathA = .ok (some (fileMeta pathA 1 5)) := by rfl
  ⟨hhit, rfl,
    getattr_size_metadata_without_cache_else_local aheadState pathA zeroStat answer500
      (fileMeta pathA 1 5) 5 (Or.inl hhit) rfl⟩


/-- C16 (the code departs from the claim): in `freshState` nothing is cached for `/a.txt`.
When the server refuses the download with the status 404, `dropbox_read` removes the cache
file it had created, but returns `errno`, which is `ENOENT` = 2 from the failed `open`, and
not `-errno`: the caller takes it as a count of bytes read.  When the connection is refused,
`drbGetFile` returns `DRBERR_OK`, since `drbOAuthRequest` looks at the HTTP status only:
`dropbox_read` takes the download as done, leaves the empty cache file and returns
`-EBADF`. -/
theorem read_gives_positive_errno_or_leaves_empty_file :
    download404.err ≠ DRBERR_OK ∧
    dropbox_read freshState pathA 5 0 download404 =
      .ok (2, [], freshState, [.getFile pathA]) ∧
    fsLookup freshState.fs (freshState.cacheRoot ++ pathA) = none ∧
    downloadRefused.err = DRBERR_OK ∧
    dropbox_read freshState pathA 5 0 downloadRefused =
      .ok (-EBADF, [], emptyFileState, [.getFile pathA]) ∧
    fsLookup emptyFileState.fs (emptyFileState.cacheRoot ++ pathA) = some (.file []) := by
  refine ⟨by decide, by rfl, by rfl, by rfl, by rfl, by rfl⟩

/-- The run of `dropbox_write` on a path with a cache file (content `content`), for `data`
of fewer than `2^31` bytes: `pwrite` puts `data` at `offset` in the cache file.  When
`drbPutFile` returns another code than `DRBERR_OK`, `dropbox_write` returns the number of
bytes, has uploaded the whole file as written, and leaves the table as it was.  When
`drbPutFile` returns `DRBERR_OK` and `htblGet` ends without fault for the path, it returns the
number of bytes, has uploaded the whole file as written, and `htblGet` of the path gives what
`drbPutFile` left in `*meta`. -/
theorem dropbox_write_cached (s : FuseState) (path : CString) (data : List Nat)
    (offset : Nat) (remote : MetadataResponse) (content : List Nat)
    (hfile : fsLookup s.fs (s.cacheRoot ++ path) = some (.file content))
    (hsize : data.length < 2 ^ 31) :
    ((pwriteContent content data offset).drop offset).take data.length = data ∧
    (remote.err ≠ DRBERR_OK →
      ∃ s2, dropbox_write s path data offset remote =
          .ok ((data.length : Int), s2, [.putFile path (pwriteContent content data offset)]) ∧
        s2.filesTable = s.filesTable ∧ s2.cacheRoot = s.cacheRoot ∧
        fsLookup s2.fs (s2.cacheRoot ++ path) =
          some (.file (pwriteContent content data offset))) ∧
    (remote.err = DRBERR_OK → ∀ old, htblGet s.filesTable path = .ok old →
      ∃ s2, dropbox_write s path data offset remote =
          .ok ((data.length : Int), s2, [.putFile path (pwriteContent content data offset)]) ∧
        htblGet s2.filesTable path = .ok remote.meta ∧ s2.cacheRoot = s.cacheRoot ∧
        fsLookup s2.fs (s2.cacheRoot ++ path) =
          some (.file (pwriteContent content data offset))) := by
  have hne : s.cacheRoot ++ path ≠ [] := by
    intro he
    rw [he] at hfile
    simp [fsLookup] at hfile
  have hres : ((data.length : Int) = -1) = False := by
    apply eq_false
    omega
  have hstored : fsLookup (fsStore s.fs (s.cacheRoot ++ path)
      (.file (pwriteContent content data offset))) (s.cacheRoot ++ path) =
      some (.file (pwriteContent content data offset)) :=
    fsLookup_fsStore_self _ _ hne (fsLookup_some hfile).2.1
  obtain ⟨fs1, hfs1⟩ : ∃ fs1, fs1 = fsStore s.fs (s.cacheRoot ++ path)
      (.file (pwriteContent content data offset)) := ⟨_, rfl⟩
  rw [← hfs1] at hstored
  refine ⟨pwriteContent_at content data offset, ?_, ?_⟩
  · intro hfail
    refine ⟨{ s with fs := fs1 }, ?_, rfl, rfl, hstored⟩
    unfold dropbox_write
    simp only [hfile, pwrite, ssizeToInt_of_lt hsize, hres, if_false, readForUpload, ← hfs1,
      hstored, hfail]
  · intro hok old hget
    obtain ⟨old2, tbl1, hset⟩ := htblSet_total_of_get hget remote.meta
    refine ⟨{ s with filesTable := tbl1, fs := fs1 }, ?_, (htblSet_get hset).1, rfl, hstored⟩
    unfold dropbox_write
    simp only [hfile, pwrite, ssizeToInt_of_lt hsize, hres, if_false, readForUpload, ← hfs1,
      hstored, hok, if_true, hset]

/-- C17 (the code departs from the claim): in `cachedState` the table holds metadata for
`/a.txt` and the cache file holds `hello`; `!!` is written at offset 5.  When the connection
of the upload is refused, `drbPutFile` returns `DRBERR_OK` and leaves `meta` at `NULL`, since
`drbOAuthPostFile` looks at the HTTP status only: `dropbox_write` returns 2 and sets the entry
of `/a.txt` to `NULL`, so the table is not as it was.  And when the upload succeeds in a
state whose table has lost the head of the chain of the path (`/cf.txt` after the listing
`listingTwo`, a download of `/cf.txt` and `dropbox_unlink` of `/a.txt`), the cache file is
written but `htblSet` reads the freed node: the table does not come to hold the metadata
returned. -/
theorem write_sets_entry_to_null_when_upload_gets_no_answer :
    uploadRefused.err = DRBERR_OK ∧ uploadRefused.meta = none ∧
    htblGet cachedState.filesTable pathA = .ok (some (fileMeta pathA 1 5)) ∧
    fsLookup cachedState.fs (cachedState.cacheRoot ++ pathA) = some (.file hello) ∧
    (∃ s2, dropbox_write cachedState pathA [33, 33] 5 uploadRefused =
        .ok (2, s2, [.putFile pathA (hello ++ [33, 33])]) ∧
      htblGet s2.filesTable pathA = .ok none ∧
      fsLookup s2.fs (s2.cacheRoot ++ pathA) = some (.file (hello ++ [33, 33]))) ∧
    (∃ s1 s2, dropbox_read stateTwo pathCF 5 0 downloadHello =
        .ok (-EBADF, [], s1, [.getFile pathCF]) ∧
      dropbox_unlink s1 pathA DRBERR_OK = .ok (DRBERR_OK, s2, [.delete pathA]) ∧
      fsLookup s2.fs (s2.cacheRoot ++ pathCF) = some (.file hello) ∧
      dropbox_write s2 pathCF [33, 33] 5 { err := 0, meta := some (fileMeta pathCF 2 7) } =
        .error .useAfterFree) :=
  ⟨by rfl, rfl, by rfl, by rfl, ⟨_, rfl, rfl, rfl⟩, ⟨_, _, rfl, rfl, rfl, rfl⟩⟩

/-- C18 (the claim fails on the code): `dropbox_mkdir` reports the remote status 404 (not
found) and the status 500 with the same code, `-EEXIST`, and `dropbox_getattr` reports the
status 500 with `-ENOENT`. -/
theorem remote_status_is_not_told_apart :
    dropbox_mkdir freshState pathD answer404 = .ok (-EEXIST, freshState, [.createFolder pathD]) ∧
    dropbox_mkdir freshState pathD answer500 = .ok (-EEXIST, freshState, [.createFolder pathD]) ∧
    answer404.err ≠ answer500.err ∧
    dropbox_getattr freshState pathA zeroStat answer500 =
      .ok (-ENOENT, zeroStat, freshState, [.getMetadata pathA]) := by
  refine ⟨by rfl, by rfl, by decide, by rfl⟩

/-- C18 as amended: whatever the remote status, as long as it is not `DRBERR_OK`,
`dropbox_mkdir` returns `-EEXIST`, and `dropbox_unlink`, `dropbox_rename`, `dropbox_readdir`
and (for a path without entry in the table) `dropbox_getattr` return `-ENOENT`; the status
itself is not passed on. -/
theorem remote_failure_gives_one_code_per_handler (s : FuseState) (path toPath : CString)
    (stbuf : stat) (remote : MetadataResponse) (hfail : remote.err ≠ DRBERR_OK) :
    dropbox_mkdir s path remote = .ok (-EEXIST, s, [.createFolder path]) ∧
    dropbox_unlink s path remote.err = .ok (-ENOENT, s, [.delete path]) ∧
    dropbox_rename s path toPath remote = .ok (-ENOENT, s, [.move path toPath]) ∧
    dropbox_readdir s path remote = .ok (-ENOENT, [], s, [.getMetadata path]) ∧
    (htblGet s.filesTable path = .ok none →
      dropbox_getattr s path stbuf remote = .ok (-ENOENT, stbuf, s, [.getMetadata path])) := by
  refine ⟨?_, ?_, ?_, ?_, ?_⟩
  · unfold dropbox_mkdir; simp [hfail]
  · unfold dropbox_unlink; simp [hfail]
  · unfold dropbox_rename; simp [hfail]
  · unfold dropbox_readdir; simp [hfail]
  · intro hmiss
    unfold dropbox_getattr
    simp only [hmiss, if_neg hfail]
    simp [DRBERR_OK, ENOENT]

/-- C18 as amended, at `freshState` with the status 500. -/
theorem remote_failure_gives_one_code_per_handler_witness :
    answer500.err ≠ DRBERR_OK ∧
    dropbox_mkdir freshState pathD answer500 = .ok (-EEXIST, freshState, [.createFolder pathD]) ∧
    dropbox_unlink freshState pathD answer500.err = .ok (-ENOENT, freshState, [.delete pathD]) ∧
    dropbox_rename freshState pathD pathB answer500 =
      .ok (-ENOENT, freshState, [.move pathD pathB]) ∧
    dropbox_readdir freshState pathD answer500 =
      .ok (-ENOENT, [], freshState, [.getMetadata pathD]) ∧
    htblGet freshState.filesTable pathD = .ok none ∧
    dropbox_getattr freshState pathD zeroStat answer500 =
      .ok (-ENOENT, zeroStat, freshState, [.getMetadata pathD]) :=
  have h := remote_failure_gives_one_code_per_handler freshState pathD pathB zeroStat answer500
    (by decide)
  have hmiss : htblGet freshState.filesTable pathD = .ok none := by rfl
  ⟨by decide, h.1, h.2.1, h.2.2.1, h.2.2.2.1, hmiss, h.2.2.2.2 hmiss⟩

/-- C19 (the code departs from the claim): the remote call fails in each case.
`dropbox_rmdir` returns `ENOENT` = 2 (it ends with `return -res;`), `dropbox_mknod` returns
`ENOENT` = 2 (`res = ENOENT;`), `dropbox_read` returns `errno` = 2 (`res = errno;`), and
`dropbox_write` returns 2, the number of bytes written to the cache file, as if the write had
gone through. -/
theorem remote_failure_reported_as_non_negative :
    dropbox_rmdir folderCachedState pathD 404 = .ok (2, folderCachedState, [.delete pathD]) ∧
    dropbox_mknod freshState pathA .regular answer500 =
      .ok (2, freshState, [.putFile pathA []]) ∧
    dropbox_read freshState pathA 5 0 download404 = .ok (2, [], freshState, [.getFile pathA]) ∧
    dropbox_write cachedState pathA [33, 33] 5 answer500 =
      .ok (2, aheadState, [.putFile pathA (hello ++ [33, 33])]) := by
  refine ⟨by rfl, by rfl, by rfl, by rfl⟩

/-- C20 (the code departs from the claim): when the connection is refused, `drbOAuthRequest`
returns 0, which is `DRBERR_OK`, so `drbMove` and `drbGetMetadata` report no failure and
store in `*meta` what `drbParseMetadata` makes of the `NULL` answer, `m`.  In `cachedState`,
where the table holds `/a.txt`, `dropbox_rename` of `/a.txt` to `/b.txt` then takes the
branch of a move that went through: whatever `m` is, it returns 0, the entry of `/a.txt` is
gone and `/b.txt` is set to `m`.  `dropbox_readdir` does not take its failure branch either:
it goes on to read `meta->contents`, through a null pointer when `m` is `NULL`. -/
theorem rename_changes_index_when_move_gets_no_answer :
    drbOAuthRequest 0 = DRBERR_OK ∧
    htblGet cachedState.filesTable pathA = .ok (some (fileMeta pathA 1 5)) ∧
    htblGet cachedState.filesTable pathB = .ok none ∧
    (∀ m, ∃ s2, dropbox_rename cachedState pathA pathB (requestRefused m) =
        .ok (DRBERR_OK, s2, [.move pathA pathB]) ∧
      htblGet s2.filesTable pathA = .ok none ∧
      htblGet s2.filesTable pathB = .ok m ∧
      htblExists s2.filesTable pathB = .ok true) ∧
    (∀ m, dropbox_readdir cachedState pathRoot (requestRefused m) ≠
      .ok (-ENOENT, [], cachedState, [.getMetadata pathRoot])) ∧
    dropbox_readdir cachedState pathRoot (requestRefused none) = .error .nullDeref := by
  refine ⟨by rfl, by rfl, by rfl, ?_, ?_, by rfl⟩
  · intro m
    obtain ⟨tbl1, hrem, hgetA, hgetB⟩ : ∃ tbl1,
        htblRemove cachedState.filesTable pathA = .ok (some (fileMeta pathA 1 5), tbl1) ∧
        htblGet tbl1 pathA = .ok none ∧ htblGet tbl1 pathB = .ok none := ⟨_, rfl, rfl, rfl⟩
    obtain ⟨old, tbl2, hset⟩ := htblSet_total_of_get hgetB m
    have herr : (requestRefused m).err = DRBERR_OK := rfl
    have hmeta : (requestRefused m).meta = m := rfl
    refine ⟨{ cachedState with filesTable := tbl2 }, ?_,
      htblSet_frame hset (by decide) hgetA, (htblSet_get hset).1, (htblSet_get hset).2⟩
    unfold dropbox_rename
    rw [if_pos herr, hmeta]
    simp only [hrem, hset]
  · intro m h
    have herr : (requestRefused m).err = DRBERR_OK := rfl
    unfold dropbox_readdir at h
    rw [if_pos herr] at h
    cases m with
    | none => cases h
    | some md =>
      simp only [requestRefused] at h
      split at h
      · simp [DRBERR_OK, ENOENT] at h
      · split at h
        · cases h
        · simp [DRBERR_OK, ENOENT] at h

/-! ## The visitor loop, the hash, `mkdirDeep`, the mode of `getattr` -/

/-- C21 (the code departs from the claim): in `tableAB`, built by two calls of `set`, the
entries `/a.txt` and `/b.txt` are in the buckets 71 and 92.  A visitor that never asks to stop
is called once on each.  A visitor that asks to stop at its first call is called on `/b.txt`
all the same: its answer ends the walk of the chain of bucket 71 only, and the loop over the
buckets goes on.  In `tableAE`, where both entries are in one chain, the stop does end the
calls.  In `tableAEremoved`, reached by `remove`, the walk reads the freed node. -/
theorem forEach_stop_ends_one_chain_only :
    htblSetAll (htblCreate Nat 100) [(pathA, some 1), (pathB, some 2)] = .ok tableAB ∧
    htblForEach tableAB neverStop 0 = .ok (2, [pathA, pathB]) ∧
    htblForEach tableAB stopAtOnce 0 = .ok (2, [pathA, pathB]) ∧
    htblForEach tableAE neverStop 0 = .ok (2, [keyE, keyA]) ∧
    htblForEach tableAE stopAtOnce 0 = .ok (1, [keyE]) ∧
    htblForEach tableAEremoved neverStop 0 = .error .useAfterFree := by
  refine ⟨by decide, by decide, by decide, by decide, by decide, by decide⟩

theorem foldl_congr_mem {β : Type} (f g : β → Nat → β) :
    ∀ (key : List Nat) (init : β), (∀ h, ∀ b ∈ key, f h b = g h b) →
      key.foldl f init = key.foldl g init := by
  intro key
  induction key with
  | nil => intro init _; rfl
  | cons b rest ih =>
    intro init h
    simp only [List.foldl_cons]
    rw [h init b (by simp)]
    exact ih _ (fun h2 b2 hb2 => h h2 b2 (by simp [hb2]))

/-- C22 (the claim fails on the code): for the path `/é` (UTF-8 bytes 47, 195, 169) the fold
over the byte values 0..255 gives 193434784, bucket 84 of 100, while `hashKey` gives
193426080, bucket 80: the bytes 195 and 169 are read through a `char*` and count as -61 and
-87. -/
theorem hashKey_differs_from_unsigned_fold :
    djb2 pathAccent = 193434784 ∧ hashKey pathAccent = 193426080 ∧
    hashKey pathAccent ≠ djb2 pathAccent ∧
    getNodeForKey (htblCreate Nat 100) pathAccent = .ok (none, 80) ∧
    djb2 pathAccent % 100 = 84 := by
  decide

/-- C22 as amended: for every key (a string of bytes), `hashKey` is the fold `h0 = 5381`,
`h(i+1) = h(i) * 33 + byte(i)` modulo `2^32` with the bytes taken as `signed char` values
-128..127; it is the fold over the values 0..255 when every byte of the key is below 128; and
the bucket that the lookup of `get`, `set`, `remove` and `exists` gives for the key is
`hashKey` modulo the number of buckets. -/
theorem hashKey_is_fold_of_signed_bytes (key : CString) (hbytes : ∀ b ∈ key, b < 256) :
    hashKey key = djb2Signed key ∧
    ((∀ b ∈ key, b < 128) → hashKey key = djb2 key) ∧
    ∀ (α : Type) (tbl : htbl α) (node : Option Nat) (index : Nat),
      getNodeForKey tbl key = .ok (node, index) → index = hashKey key % tbl.size := by
  refine ⟨?_, ?_, ?_⟩
  · unfold hashKey djb2Signed HASH_NUMBER
    apply foldl_congr_mem
    intro h b hb
    have hb2 := hbytes b hb
    unfold charToUnsigned signedChar
    by_cases h128 : b < 128
    · simp only [h128, if_true, Nat.mod_eq_of_lt hb2]
      omega
    · simp only [h128, if_false, Nat.mod_eq_of_lt hb2]
      omega
  · intro hascii
    unfold hashKey djb2 HASH_NUMBER
    apply foldl_congr_mem
    intro h b hb
    have hb2 := hascii b hb
    unfold charToUnsigned
    have hm : b % 256 = b := Nat.mod_eq_of_lt (by omega)
    simp only [hm, hb2, if_true]
    omega
  · intro α tbl node index h
    exact (getNodeForKey_eq_ok.mp h).2.1

/-- C22 as amended, at the path `/é`. -/
theorem hashKey_is_fold_of_signed_bytes_witness :
    (∀ b ∈ pathAccent, b < 256) ∧ hashKey pathAccent = djb2Signed pathAccent ∧
    ((∀ b ∈ pathAccent, b < 128) → hashKey pathAccent = djb2 pathAccent) ∧
    ∀ (α : Type) (tbl : htbl α) (node : Option Nat) (index : Nat),
      getNodeForKey tbl pathAccent = .ok (node, index) →
        index = hashKey pathAccent % tbl.size :=
  ⟨by decide, hashKey_is_fold_of_signed_bytes pathAccent (by decide)⟩

/-- When nothing exists at the path or at any of its prefixes of two bytes or more, and the
first component is not empty, `rmkdir` comes to the empty prefix and scans below index 0. -/
theorem rmkdir_fault_of_missing (fs : FileSystem) (c : Nat) (rest : CString) (hc : c ≠ 47)
    (hnone : ∀ k, 2 ≤ k → access fs ((47 :: c :: rest).take k) = false) :
    ∀ (fuel size ignore : Nat), size < fuel → size ≠ 1 →
      rmkdir (47 :: c :: rest) fuel fs size ignore = .error .wildPointer := by
  intro fuel
  induction fuel with
  | zero => intro size ignore h; omega
  | succ f ih =>
    intro size ignore hlt hne
    simp only [rmkdir]
    have hacc : access fs ((47 :: c :: rest).take size) = false := by
      by_cases h0 : size = 0
      · subst h0; simp [access, fsLookup]
      · exact hnone size (by omega)
    simp only [hacc, Bool.false_eq_true, if_false]
    cases hscan : scanSlash (47 :: c :: rest) size with
    | none => rfl
    | some j =>
      have hj := scanSlash_slash _ _ _ hscan
      have hjlt := scanSlash_lt _ _ _ hscan
      have hj1 : j ≠ 1 := by
        intro h1
        subst h1
        simp at hj
        exact hc hj
      simp only [ih j (ignore - 1) (by omega) hj1]

/-- C25 (the code departs from the claim): for every file system and every absolute path whose
first component is not empty, when nothing exists at the path nor at any prefix of it other
than `/` (so the first component is missing, whether the root directory exists or not),
`mkdirDeep` does not make the directories: `rmkdir` cuts the path down to the empty string,
for which `access` fails, and its scan `do { size--; } while(size >= 0 && path[size] != '/')`
then goes below index 0 of the buffer, `size` being a `size_t`. -/
theorem mkdirDeep_scans_below_buffer_when_first_component_missing (fs : FileSystem) (c : Nat)
    (rest : CString) (hc : c ≠ 47)
    (hnone : ∀ k, 2 ≤ k → access fs ((47 :: c :: rest).take k) = false) :
    mkdirDeep fs (47 :: c :: rest) = .error .wildPointer := by
  unfold mkdirDeep
  exact rmkdir_fault_of_missing fs c rest hc hnone _ _ 0 (by omega) (by simp)

/-- C25, at the path `/a/b` on a file system that has the root directory and nothing else. -/
theorem mkdirDeep_scans_below_buffer_when_first_component_missing_witness :
    access rootOnly [47] = true ∧ (97 : Nat) ≠ 47 ∧
    (∀ k, 2 ≤ k → access rootOnly (pathAB.take k) = false) ∧
    mkdirDeep rootOnly pathAB = .error .wildPointer :=
  have hnone : ∀ k, 2 ≤ k → access rootOnly ((47 :: 97 :: [47, 98]).take k) = false := by
    intro k hk
    have hcases : k = 2 ∨ k = 3 ∨ 4 ≤ k := by omega
    rcases hcases with h | h | h
    · subst h; decide
    · subst h; decide
    · rw [List.take_of_length_le (by simpa using h)]; decide
  ⟨by decide, by decide, hnone,
    mkdirDeep_scans_below_buffer_when_first_component_missing rootOnly 97 [47, 98]
      (by decide) hnone⟩

/-- A successful `htblSet` on one key leaves the node that the lookup finds for every other
key. -/
theorem htblSet_frame_node {α : Type} {tbl tbl2 : htbl α} {key key2 : CString}
    {data old : Option α} {node : Option Nat} {index : Nat}
    (h : htblSet tbl key data = .ok (old, tbl2)) (hne : key2 ≠ key)
    (hg : getNodeForKey tbl key2 = .ok (node, index)) :
    getNodeForKey tbl2 key2 = .ok (node, index) := by
  obtain ⟨hs, hs2, head, hm, hcase⟩ := htblSet_ok h
  have hs2n : tbl2.size ≠ 0 := by rw [hs2]; exact hs
  obtain ⟨_, hidx0, head2, hm2, hf2⟩ := getNodeForKey_eq_ok.mp hg
  have hafter : ∃ head3, tbl2.matrix[hashKey key2 % tbl2.size]? = some head3 ∧
      findNode tbl2.cells key2 tbl2.cells.length head3 = .ok node := by
    rcases hcase with ⟨a, n, hf, hn, hk, _, hmat, hcells⟩ | ⟨hf, _, hmat, hlen, hext, hnew⟩
    · have hext : Ext tbl.cells tbl2.cells (some a) := by
        rw [hcells]
        exact Ext.set _ a n _ _ hn rfl rfl (fun hne => absurd rfl hne)
      refine ⟨head2, by rw [hs2, hmat]; exact hm2, ?_⟩
      exact findNode_ext hext key2 _ _ _ _ (by rw [hcells]; simp) hf2
    · have hf3 : findNode tbl2.cells key2 tbl.cells.length head2 = .ok node :=
        findNode_ext hext key2 _ _ _ _ (le_refl _) hf2
      by_cases hidx : hashKey key2 % tbl.size = hashKey key % tbl.size
      · have hlt : hashKey key % tbl.size < tbl.matrix.length := lt_length_of_getElem? hm
        have hh : head2 = head := by
          rw [hidx, hm] at hm2
          exact (Option.some.inj hm2).symm
        refine ⟨some tbl.cells.length, ?_, ?_⟩
        · rw [hs2, hmat, hidx]; simp [List.getElem?_set, hlt]
        · rw [hlen]
          simp only [findNode]
          rw [deref_eq_ok.mpr hnew]
          simp only [Ne.symm hne, if_false]
          rw [← hh]
          exact hf3
      · refine ⟨head2, ?_, ?_⟩
        · rw [hs2, hmat, List.getElem?_set_ne (Ne.symm hidx)]; exact hm2
        · exact findNode_ext hext key2 _ _ _ _ (by rw [hlen]; omega) hf2
  obtain ⟨head3, hm3, hf3⟩ := hafter
  exact getNodeForKey_eq_ok.mpr ⟨hs2n, by rw [hs2]; exact hidx0, head3, hm3, hf3⟩

/-- A successful `htblSet` on one key leaves what `htblExists` says for every other key. -/
theorem htblSet_frame_exists {α : Type} {tbl tbl2 : htbl α} {key key2 : CString}
    {data old : Option α} {b : Bool} (h : htblSet tbl key data = .ok (old, tbl2))
    (hne : key2 ≠ key) (hex : htblExists tbl key2 = .ok b) : htblExists tbl2 key2 = .ok b := by
  unfold htblExists at hex ⊢
  cases hg : getNodeForKey tbl key2 with
  | error e => simp [hg] at hex
  | ok p =>
    obtain ⟨node, index⟩ := p
    rw [hg] at hex
    rw [htblSet_frame_node h hne hg]
    exact hex

/-- C27 (the code departs from the claim): in `tableAE`, built by `set("/a", 1)` and
`set("/e", 2)` on 4 buckets, both paths are in bucket 1 and `/e` is the head of the chain.
Before `remove("/e")`, `get("/a")` gives 1 and `exists("/a")` is true; afterwards both read the
freed node of `/e`, which bucket 1 still points to.  For `set` the claim holds: a call of
`set(p, v)` that returns leaves `get(q)` and `exists(q)` as they were for every other path
`q`, in the same bucket or not. -/
theorem remove_of_chain_head_loses_other_path :
    htblSetAll (htblCreate Nat 4) [(keyA, some 1), (keyE, some 2)] = .ok tableAE ∧
    keyA ≠ keyE ∧ hashKey keyA % 4 = hashKey keyE % 4 ∧
    htblGet tableAE keyA = .ok (some 1) ∧ htblExists tableAE keyA = .ok true ∧
    htblRemove tableAE keyE = .ok (some 2, tableAEremoved) ∧
    htblGet tableAEremoved keyA = .error .useAfterFree ∧
    htblExists tableAEremoved keyA = .error .useAfterFree ∧
    (∀ (α : Type) (tbl tbl2 : htbl α) (p q : CString) (v old r : Option α) (b : Bool),
      htblSet tbl p v = .ok (old, tbl2) → q ≠ p →
        (htblGet tbl q = .ok r → htblGet tbl2 q = .ok r) ∧
        (htblExists tbl q = .ok b → htblExists tbl2 q = .ok b)) := by
  refine ⟨by decide, by decide, by decide, by decide, by decide, by decide, by decide,
    by decide, ?_⟩
  intro α tbl tbl2 p q v old r b h hne
  exact ⟨htblSet_frame h hne, htblSet_frame_exists h hne⟩

/-- C28 (the code departs from the claim): whenever `dropbox_getattr` returns 0, the mode it
reports is `getattrMode m` for the metadata `m` of the path (found in the table, or else
given by the server).  Its file type bits are `S_IFDIR` when `m` says directory and `S_IFREG`
otherwise, as the claim says; its permission bits are decimal 755, octal 1363
(`-wxrw--wt`), and not octal 0755: the source writes `755` without the leading `0`. -/
theorem getattr_mode_has_decimal_755 (s s2 : FuseState) (path : CString) (stbuf st : stat)
    (remote : MetadataResponse) (reqs : List Request)
    (h : dropbox_getattr s path stbuf remote = .ok (0, st, s2, reqs)) :
    ∃ m, (htblGet s.filesTable path = .ok (some m) ∨
        (htblGet s.filesTable path = .ok none ∧ remote.meta = some m)) ∧
      st.st_mode = getattrMode m ∧
      st.st_mode &&& S_IFMT = (if m.isDir = some true then S_IFDIR else S_IFREG) ∧
      st.st_mode &&& 0o7777 = 0o1363 ∧ st.st_mode &&& 0o7777 ≠ 0o755 := by
  have hmode : ∀ m : drbMetadata,
      getattrMode m &&& S_IFMT = (if m.isDir = some true then S_IFDIR else S_IFREG) ∧
      getattrMode m &&& 0o7777 = 0o1363 ∧ getattrMode m &&& 0o7777 ≠ 0o755 := by
    intro m
    unfold getattrMode
    by_cases hd : m.isDir = some true
    · simp only [hd, if_true]; decide
    · simp only [hd, if_false]; decide
  cases hget : htblGet s.filesTable path with
  | error e =>
    unfold dropbox_getattr at h
    simp [hget] at h
  | ok found =>
    cases found with
    | some m =>
      rw [dropbox_getattr_found hget] at h
      simp only [Except.ok.injEq, Prod.mk.injEq, true_and] at h
      refine ⟨m, Or.inl rfl, ?_⟩
      have hst : st.st_mode = getattrMode m := by
        rw [← h.1]
        unfold getattrStat
        cases fsLookup s.fs (s.cacheRoot ++ path) <;> rfl
      rw [hst]
      exact ⟨rfl, hmode m⟩
    | none =>
      by_cases hok : remote.err = DRBERR_OK
      · cases hmeta : remote.meta with
        | none =>
          unfold dropbox_getattr at h
          simp [hget, hok, hmeta] at h
        | some m =>
          by_cases hlive : m.isDeleted ≠ some true
          · obtain ⟨tbl1, _, hrun⟩ := dropbox_getattr_fetched hget hok hmeta hlive stbuf
            rw [hrun] at h
            simp only [Except.ok.injEq, Prod.mk.injEq, true_and] at h
            refine ⟨m, Or.inr ⟨rfl, rfl⟩, ?_⟩
            have hst : st.st_mode = getattrMode m := by
              rw [← h.1]
              unfold getattrStat
              cases fsLookup s.fs (s.cacheRoot ++ path) <;> rfl
            rw [hst]
            exact ⟨rfl, hmode m⟩
          · exfalso
            have hdel : m.isDeleted = some true := by
              by_contra hc; exact hlive hc
            unfold dropbox_getattr at h
            simp [hget, hok, hmeta, hdel, DRBERR_OK, ENOENT] at h
      · exfalso
        have hok0 : ¬ remote.err = 0 := hok
        unfold dropbox_getattr at h
        simp [hget, hok0, DRBERR_OK, ENOENT] at h

/-- C28, at `getattr("/a.txt")` in `cachedState`: the mode is 33523, octal 0101363. -/
theorem getattr_mode_has_decimal_755_witness :
    dropbox_getattr cachedState pathA zeroStat answer404 =
      .ok (0, { st_mode := 33523, st_nlink := 1, st_size := 5 }, cachedState, []) ∧
    ∃ m, (htblGet cachedState.filesTable pathA = .ok (some m) ∨
        (htblGet cachedState.filesTable pathA = .ok none ∧ answer404.meta = some m)) ∧
      (33523 : Nat) = getattrMode m ∧
      33523 &&& S_IFMT = (if m.isDir = some true then S_IFDIR else S_IFREG) ∧
      33523 &&& 0o7777 = 0o1363 ∧ 33523 &&& 0o7777 ≠ 0o755 :=
  ⟨by rfl,
    getattr_mode_has_decimal_755 cachedState cachedState pathA zeroStat
      { st_mode := 33523, st_nlink := 1, st_size := 5 } answer404 [] (by rfl)⟩

/-- C26 (the code departs from the claim): from `freshState` (empty table, empty cache),
`getattr("/a.txt")` with the answer of the server puts the path in the table, `open` then
succeeds, `read` downloads the file into the cache, and `rename("/a.txt", "/b.txt")` with a
successful move takes the entry of `/a.txt` out of the table and leaves its cache file.  In
the state reached, a cache file exists for `/a.txt` and the table has no entry for it; a
later listing that reports `/a.txt` with revision 2 finds no old entry to compare with and
keeps the cache file of revision 1. -/
theorem rename_leaves_cache_file_without_entry :
    dropbox_getattr freshState pathA zeroStat answerA =
      .ok (0, { st_mode := 33523, st_nlink := 1, st_size := 5 }, indexedState,
        [.getMetadata pathA]) ∧
    dropbox_open indexedState pathA = .ok 0 ∧
    dropbox_read indexedState pathA 5 0 downloadHello =
      .ok (-EBADF, [], cachedState, [.getFile pathA]) ∧
    dropbox_rename cachedState pathA pathB movedToB =
      .ok (0, renamedAwayState, [.move pathA pathB]) ∧
    access renamedAwayState.fs (renamedAwayState.cacheRoot ++ pathA) = true ∧
    htblGet renamedAwayState.filesTable pathA = .ok none ∧
    htblExists renamedAwayState.filesTable pathA = .ok false ∧
    ∃ s, dropbox_readdir renamedAwayState pathRoot listingNewer =
        .ok (0, [[46], [46, 46], [97, 46, 116, 120, 116]], s, [.getMetadata pathRoot]) ∧
      fsLookup s.fs (s.cacheRoot ++ pathA) = some (.file hello) := by
  refine ⟨by rfl, by rfl, by rfl, by rfl, by rfl, by rfl, by rfl, ⟨_, by rfl, by rfl⟩⟩

/-! ## `drbEncodePath` -/

theorem keptByte_eq_not_isEscaped (b : Nat) : keptByte b = !isEscaped b := by
  unfold keptByte isEscaped isAsciiLetter isAsciiDigit
  rw [Bool.eq_iff_iff]
  simp only [Bool.or_eq_true, Bool.and_eq_true, decide_eq_true_eq, Bool.not_not]
  tauto

theorem hexDigit_eq_upperHexDigit (d : Nat) (h : d < 16) : hexDigit d = upperHexDigit d := by
  interval_cases d <;> decide

theorem upperHexDigit_ne_zero (d : Nat) (h : d < 16) : upperHexDigit d ≠ 0 := by
  interval_cases d <;> decide

theorem percentEscape_eq (b : Nat) (hb : b < 256) (he : isEscaped b = true) :
    percentEscape b = specEncodeByte b ++ [0] := by
  unfold percentEscape specEncodeByte
  rw [hexDigit_eq_upperHexDigit _ (by omega), hexDigit_eq_upperHexDigit _ (by omega)]
  simp [he]

theorem specEncodeByte_ne_zero (b : Nat) (hb : b < 256) : ∀ c ∈ specEncodeByte b, c ≠ 0 := by
  intro c hc
  unfold specEncodeByte at hc
  by_cases he : isEscaped b = true
  · simp only [he, if_true, List.mem_cons, List.mem_singleton, List.not_mem_nil, or_false] at hc
    rcases hc with h | h | h
    · omega
    · rw [h]; exact upperHexDigit_ne_zero _ (by omega)
    · rw [h]; exact upperHexDigit_ne_zero _ (by omega)
  · simp only [he, Bool.false_eq_true, if_false, List.mem_singleton] at hc
    subst hc
    intro h0
    subst h0
    exact he (by decide)

theorem specEncodePath_ne_zero : ∀ (s : CString), (∀ b ∈ s, b < 256) →
    ∀ c ∈ specEncodePath s, c ≠ 0 := by
  intro s
  induction s with
  | nil => intro _ c hc; simp [specEncodePath] at hc
  | cons b s ih =>
    intro hb c hc
    simp only [specEncodePath, List.mem_append] at hc
    rcases hc with h | h
    · exact specEncodeByte_ne_zero b (hb b (by simp)) c h
    · exact ih (fun x hx => hb x (by simp [hx])) c h

theorem specEncodePath_length : ∀ (s : CString),
    (specEncodePath s).length = s.length + 2 * (s.filter isEscaped).length := by
  intro s
  induction s with
  | nil => rfl
  | cons b s ih =>
    simp only [specEncodePath, List.length_append, ih, List.length_cons, List.filter_cons]
    unfold specEncodeByte
    by_cases he : isEscaped b = true
    · simp only [he, if_true, List.length_cons, List.length_nil]; omega
    · simp only [he, Bool.false_eq_true, if_false, List.length_cons, List.length_nil]; omega

/-- The string read from a block that holds the bytes of `s`, none of them NUL, and then
a NUL. -/
theorem stringAt_of_terminated : ∀ (s : CString) (tail : Buffer), (∀ c ∈ s, c ≠ 0) →
    stringAt (s.map some ++ some 0 :: tail) = .ok s := by
  intro s
  induction s with
  | nil => intro tail _; simp [stringAt]
  | cons c s ih =>
    intro tail h
    have hc : c ≠ 0 := h c (by simp)
    have hstep : stringAt (some c :: (s.map some ++ some 0 :: tail)) = .ok (c :: s) := by
      rw [stringAt]
      simp only [hc, if_false]
      rw [ih tail (fun x hx => h x (by simp [hx]))]
    simpa using hstep

/-- What a write that fits leaves in the block. -/
theorem writeBytes_ok (buf : Buffer) (i : Nat) (bs : List Nat) (h : i + bs.length ≤ buf.length) :
    ∃ buf2, writeBytes buf i bs = some buf2 ∧ buf2.length = buf.length ∧
      buf2 = buf.take i ++ bs.map some ++ buf.drop (i + bs.length) ∧
      ∀ k, k ≤ bs.length → buf2.take (i + k) = buf.take i ++ (bs.take k).map some := by
  refine ⟨buf.take i ++ bs.map some ++ buf.drop (i + bs.length), ?_, ?_, rfl, ?_⟩
  · simp [writeBytes, h]
  · simp only [List.length_append, List.length_take, List.length_map, List.length_drop]
    omega
  · intro k hk
    have hi : (buf.take i).length = i := by simp only [List.length_take]; omega
    rw [List.append_assoc, List.take_append_eq_append_take, hi]
    rw [List.take_of_length_le (by omega : (buf.take i).length ≤ i + k)]
    rw [List.take_append_eq_append_take]
    simp only [List.length_map, Nat.add_sub_cancel_left]
    rw [← List.map_take]
    have hz : k - bs.length = 0 := by omega
    simp [hz]

/-- The loop of `drbEncodePath` from a state in which the block has room for what is still
to come: it ends without a fault, the block is never too small for `newLength`, and the
bytes written are the encoding of the bytes read. -/
theorem encodeLoop_ok (limit : Nat) (h64 : limit < 2 ^ 64) :
    ∀ (rest : List Nat) (st : EncodeState) (buf : Buffer) (d : Nat),
      (∀ b ∈ rest, b < 256) → st.encPath = some buf → buf.length = st.alloc →
      st.newLength ≤ st.alloc → st.i + rest.length + 1 + d = st.newLength →
      2 * (st.newLength + 2 * rest.length) ≤ limit →
      ∃ st2 buf2, encodeLoop limit rest st = .ok st2 ∧ st2.encPath = some buf2 ∧
        buf2.length = st2.alloc ∧ st2.newLength ≤ st2.alloc ∧
        st2.i + 1 + d = st2.newLength ∧
        st2.newLength = st.newLength + 2 * (rest.filter isEscaped).length ∧
        buf2.take st2.i = buf.take st.i ++ (specEncodePath rest).map some := by
  intro rest
  induction rest with
  | nil =>
    intro st buf d _ hbuf hlen hle hi _
    refine ⟨st, buf, rfl, hbuf, hlen, hle, by simpa using hi, by simp, by simp [specEncodePath]⟩
  | cons c rest ih =>
    intro st buf d hbytes hbuf hlen hle hi hlim
    have hc : c < 256 := hbytes c (by simp)
    have hrest : ∀ b ∈ rest, b < 256 := fun b hb => hbytes b (by simp [hb])
    have hcm : c % 256 = c := Nat.mod_eq_of_lt hc
    simp only [List.length_cons] at hi hlim
    simp only [encodeLoop, hbuf, hcm]
    by_cases hk : keptByte c = true
    · have he : isEscaped c = false := by
        have := keptByte_eq_not_isEscaped c
        rw [hk] at this
        cases hv : isEscaped c
        · rfl
        · rw [hv] at this; cases this
      obtain ⟨buf1, hw, hlen1, _, htake⟩ := writeBytes_ok buf st.i [c] (by simp; omega)
      simp only [hk, if_true, hw]
      have hmod : (st.i + 1) % 2 ^ 64 = st.i + 1 := Nat.mod_eq_of_lt (by omega)
      rw [hmod]
      obtain ⟨st2, buf2, hrun, hb2, hl2, hle2, hi2, hn2, ht2⟩ :=
        ih { st with encPath := some buf1, i := st.i + 1 } buf1 d hrest rfl
          (by simpa [hlen1] using hlen) hle (by simp only []; omega) (by simp only []; omega)
      refine ⟨st2, buf2, hrun, hb2, hl2, hle2, hi2, ?_, ?_⟩
      · rw [hn2]; simp [List.filter_cons, he]
      · rw [ht2]
        simp only []
        rw [htake 1 (by simp)]
        simp [specEncodePath, specEncodeByte, he]
    · have he : isEscaped c = true := by
        have := keptByte_eq_not_isEscaped c
        cases hv : isEscaped c
        · rw [hv] at this; exact absurd this hk
        · rfl
      have hnl : (st.newLength + 2) % 2 ^ 64 = st.newLength + 2 :=
        Nat.mod_eq_of_lt (by omega)
      simp only [hk, Bool.false_eq_true, if_false, hnl]
      by_cases hgrow : st.newLength + 2 > st.alloc
      · have hal : (st.alloc * 2) % 2 ^ 64 = st.alloc * 2 := Nat.mod_eq_of_lt (by omega)
        have hre : drbRealloc limit buf (st.alloc * 2) =
            some (buf ++ List.replicate st.alloc none) := by
          unfold drbRealloc
          have h1 : st.alloc * 2 ≤ limit := by omega
          have h2 : st.alloc * 2 - buf.length = st.alloc := by omega
          simp only [h1, if_true, h2]
          rw [List.take_of_length_le (by omega)]
        simp only [hgrow, if_true, hal, hre]
        obtain ⟨buf1, hw, hlen1, _, htake⟩ :=
          writeBytes_ok (buf ++ List.replicate st.alloc none) st.i (percentEscape c)
            (by simp [percentEscape]; omega)
        simp only [hw]
        have hmod : (st.i + 3) % 2 ^ 64 = st.i + 3 := Nat.mod_eq_of_lt (by omega)
        rw [hmod]
        obtain ⟨st2, buf2, hrun, hb2, hl2, hle2, hi2, hn2, ht2⟩ :=
          ih { encPath := some buf1, alloc := st.alloc * 2, newLength := st.newLength + 2,
               i := st.i + 3 } buf1 d hrest rfl
            (by simp only [hlen1, List.length_append, List.length_replicate]; omega)
            (by simp only []; omega) (by simp only []; omega) (by simp only []; omega)
        refine ⟨st2, buf2, hrun, hb2, hl2, hle2, hi2, ?_, ?_⟩
        · rw [hn2]; simp only [List.filter_cons, he, if_true, List.length_cons]; omega
        · rw [ht2]
          simp only []
          rw [htake 3 (by simp [percentEscape])]
          rw [List.take_append_of_le_length (by omega)]
          rw [percentEscape_eq c hc he]
          simp [specEncodePath, specEncodeByte, he]
      · simp only [hgrow, if_false]
        obtain ⟨buf1, hw, hlen1, _, htake⟩ :=
          writeBytes_ok buf st.i (percentEscape c) (by simp [percentEscape]; omega)
        simp only [hw]
        have hmod : (st.i + 3) % 2 ^ 64 = st.i + 3 := Nat.mod_eq_of_lt (by omega)
        rw [hmod]
        obtain ⟨st2, buf2, hrun, hb2, hl2, hle2, hi2, hn2, ht2⟩ :=
          ih { encPath := some buf1, alloc := st.alloc, newLength := st.newLength + 2,
               i := st.i + 3 } buf1 d hrest rfl
            (by simp only [hlen1]; omega)
            (by simp only []; omega) (by simp only []; omega) (by simp only []; omega)
        refine ⟨st2, buf2, hrun, hb2, hl2, hle2, hi2, ?_, ?_⟩
        · rw [hn2]; simp only [List.filter_cons, he, if_true, List.length_cons]; omega
        · rw [ht2]
          simp only []
          rw [htake 3 (by simp [percentEscape])]
          rw [percentEscape_eq c hc he]
          simp [specEncodePath, specEncodeByte, he]

/-- The state of `drbEncodePath` before its loop when the first block is granted. -/
theorem encodeStart_eq (limit n : Nat) (h64 : limit < 2 ^ 64) (hn : n + 1 ≤ limit) :
    encodeStart limit n =
      { encPath := some (List.replicate (n + 1) none), alloc := n + 1, newLength := n + 1,
        i := 0 } := by
  have hmod : (n + 1) % 2 ^ 64 = n + 1 := Nat.mod_eq_of_lt (by omega)
  simp only [encodeStart, malloc, hmod, hn, if_true]

/-- With a block of `6 * length + 2` bytes to be had, `drbEncodePath` gives a block that
holds the encoding of the path and the NUL that ends it, and nothing more. -/
theorem drbEncodePath_ok (limit : Nat) (s : CString) (hbytes : ∀ b ∈ s, b < 256)
    (hlimit : 6 * s.length + 2 ≤ limit) (h64 : limit < 2 ^ 64) :
    drbEncodePath limit (some s) = .ok (some ((specEncodePath s).map some ++ [some 0])) := by
  unfold drbEncodePath
  simp only [Option.getD_some]
  rw [encodeStart_eq limit s.length h64 (by omega)]
  obtain ⟨st2, buf2, hrun, hb2, hl2, hle2, hi2, hn2, ht2⟩ :=
    encodeLoop_ok limit h64 s
      { encPath := some (List.replicate (s.length + 1) none), alloc := s.length + 1,
        newLength := s.length + 1, i := 0 }
      (List.replicate (s.length + 1) none) 0 hbytes rfl (by simp) (le_refl _)
      (by simp only []; omega) (by simp only []; omega)
  simp only [hrun, hb2]
  have hesc : (s.filter isEscaped).length ≤ s.length := List.length_filter_le _ _
  simp only [] at hn2 ht2
  have hre : drbRealloc limit buf2 st2.newLength = some (buf2.take st2.newLength) := by
    unfold drbRealloc
    have h1 : st2.newLength ≤ limit := by omega
    have h2 : st2.newLength - buf2.length = 0 := by omega
    simp [h1, h2]
  simp only [hre]
  obtain ⟨buf3, hw, _, heq, _⟩ :=
    writeBytes_ok (buf2.take st2.newLength) st2.i [0]
      (by simp only [List.length_take, List.length_cons, List.length_nil]; omega)
  simp only [hw]
  rw [heq, List.take_take, Nat.min_eq_left (by omega), ht2]
  have hdrop : List.drop (st2.i + [0].length) (List.take st2.newLength buf2) = [] := by
    apply List.drop_eq_nil_of_le
    simp only [List.length_take, List.length_cons, List.length_nil]
    omega
  rw [hdrop]
  simp

/-- C24: for every path `s` (a string of bytes) and an allocator that grants blocks of
`6 * length + 2` bytes, `drbEncodePath(s)` returns a block whose string is the concatenation,
over the bytes `b` of `s` in order, of `b` itself when `b` is an ASCII letter, a digit or one
of `_ ~ . - /`, and of `%` with the two uppercase hexadecimal digits of `b` otherwise; `/`
is kept as it is; and for a `NULL` path the string returned is empty. -/
theorem drbEncodePath_is_percent_encoding (limit : Nat) (s : CString)
    (hbytes : ∀ b ∈ s, b < 256) (hlimit : 6 * s.length + 2 ≤ limit) (h64 : limit < 2 ^ 64) :
    (∃ buf, drbEncodePath limit (some s) = .ok (some buf) ∧
      stringAt buf = .ok (specEncodePath s)) ∧
    specEncodeByte 47 = [47] ∧
    (∃ buf, drbEncodePath limit none = .ok (some buf) ∧ stringAt buf = .ok []) := by
  refine ⟨⟨_, drbEncodePath_ok limit s hbytes hlimit h64, ?_⟩, by decide, ?_⟩
  · exact stringAt_of_terminated _ [] (specEncodePath_ne_zero s hbytes)
  · have h0 := drbEncodePath_ok limit [] (by simp) (by simp; omega) h64
    refine ⟨_, ?_, stringAt_of_terminated [] [] (by simp)⟩
    exact h0

/-- C24, at the path `/a b/é` (UTF-8), which encodes to `/a%20b/%C3%A9`. -/
theorem drbEncodePath_is_percent_encoding_witness :
    (∀ b ∈ pathSpace, b < 256) ∧ 6 * pathSpace.length + 2 ≤ 64 ∧ 64 < 2 ^ 64 ∧
    specEncodePath pathSpace = literal "/a%20b/%C3%A9" ∧
    (∃ buf, drbEncodePath 64 (some pathSpace) = .ok (some buf) ∧
      stringAt buf = .ok (specEncodePath pathSpace)) ∧
    specEncodeByte 47 = [47] ∧
    (∃ buf, drbEncodePath 64 none = .ok (some buf) ∧ stringAt buf = .ok []) :=
  ⟨by decide, by decide, by decide, by decide,
    drbEncodePath_is_percent_encoding 64 pathSpace (by decide) (by decide) (by decide)⟩

/-- C30: for every path of `n` bytes and an allocator that grants blocks of `6 * n + 2`
bytes, after any number `k` of passes of the loop of `drbEncodePath` the loop has met no
write outside the block (the run of the passes is `ok`), the block has `alloc` bytes with
`newLength ≤ alloc` (the one doubling was enough whenever the block grew), and
`i + (n - k) + 1 = newLength`; the block returned holds a string of
`n + 2 * (number of escaped bytes)` bytes and its NUL.  This holds for `n = 0` too. -/
theorem drbEncodePath_stays_in_block (limit : Nat) (s : CString) (hbytes : ∀ b ∈ s, b < 256)
    (hlimit : 6 * s.length + 2 ≤ limit) (h64 : limit < 2 ^ 64) :
    (∀ k, k ≤ s.length →
      ∃ st buf, encodeLoop limit (s.take k) (encodeStart limit s.length) = .ok st ∧
        st.encPath = some buf ∧ buf.length = st.alloc ∧ st.newLength ≤ st.alloc ∧
        st.i + (s.length - k) + 1 = st.newLength) ∧
    ∃ buf r, drbEncodePath limit (some s) = .ok (some buf) ∧ stringAt buf = .ok r ∧
      r.length = s.length + 2 * (s.filter isEscaped).length ∧ buf.length = r.length + 1 := by
  constructor
  · intro k hk
    rw [encodeStart_eq limit s.length h64 (by omega)]
    obtain ⟨st2, buf2, hrun, hb2, hl2, hle2, hi2, _, _⟩ :=
      encodeLoop_ok limit h64 (s.take k)
        { encPath := some (List.replicate (s.length + 1) none), alloc := s.length + 1,
          newLength := s.length + 1, i := 0 }
        (List.replicate (s.length + 1) none) (s.length - k)
        (fun b hb => hbytes b (List.mem_of_mem_take hb)) rfl (by simp) (le_refl _)
        (by simp only [List.length_take]; omega) (by simp only [List.length_take]; omega)
    exact ⟨st2, buf2, hrun, hb2, hl2, hle2, by omega⟩
  · refine ⟨_, specEncodePath s, drbEncodePath_ok limit s hbytes hlimit h64, ?_, ?_, ?_⟩
    · exact stringAt_of_terminated _ [] (specEncodePath_ne_zero s hbytes)
    · exact specEncodePath_length s
    · simp

/-- C30, at the path `/a b/é` (UTF-8): 7 bytes, 3 of them escaped, 13 bytes returned. -/
theorem drbEncodePath_stays_in_block_witness :
    (∀ b ∈ pathSpace, b < 256) ∧ 6 * pathSpace.length + 2 ≤ 64 ∧ 64 < 2 ^ 64 ∧
    pathSpace.length + 2 * (pathSpace.filter isEscaped).length = 13 ∧
    (∀ k, k ≤ pathSpace.length →
      ∃ st buf, encodeLoop 64 (pathSpace.take k) (encodeStart 64 pathSpace.length) = .ok st ∧
        st.encPath = some buf ∧ buf.length = st.alloc ∧ st.newLength ≤ st.alloc ∧
        st.i + (pathSpace.length - k) + 1 = st.newLength) ∧
    ∃ buf r, drbEncodePath 64 (some pathSpace) = .ok (some buf) ∧ stringAt buf = .ok r ∧
      r.length = pathSpace.length + 2 * (pathSpace.filter isEscaped).length ∧
      buf.length = r.length + 1 :=
  ⟨by decide, by decide, by decide, by decide,
    drbEncodePath_stays_in_block 64 pathSpace (by decide) (by decide) (by decide)⟩

/-! ## `drbGetOpt` -/

theorem intBits_and_of_ne : ∀ c1 ∈ optionCodes, ∀ c2 ∈ optionCodes, c1 ≠ c2 →
    intBits c1 &&& intBits c2 = 0 := by
  decide

theorem and_xor_of_ne {c1 c2 : Int} (h1 : c1 ∈ optionCodes) (h2 : c2 ∈ optionCodes)
    (hne : c1 ≠ c2) (x : Nat) : intBits c1 &&& (x ^^^ intBits c2) = intBits c1 &&& x := by
  rw [Nat.and_xor_distrib_left, intBits_and_of_ne c1 h1 c2 h2 hne, Nat.xor_zero]

theorem optionTable_facts : ∀ label ∈ optionTable,
    label.1 ∈ optionCodes ∧ label.2.1.length ≤ 15 ∧ label.1 ≠ 0 := by
  decide

theorem optionName_mem {opt : Int} {name : CString} {type : drbOptType}
    (h : optionName opt = some (name, type)) :
    opt ∈ optionCodes ∧ name.length ≤ 15 ∧ opt ≠ 0 := by
  unfold optionName at h
  cases hf : optionTable.find? (fun label => decide (label.1 = opt)) with
  | none => rw [hf] at h; cases h
  | some label =>
    rw [hf] at h
    simp only [Option.some.injEq] at h
    have hmem := List.mem_of_find?_eq_some hf
    have hopt := List.find?_some hf
    simp only [decide_eq_true_eq] at hopt
    have hfacts := optionTable_facts label hmem
    rw [hopt, h] at hfacts
    exact hfacts

theorem decimalDigits_length : ∀ (fuel n : Nat), (decimalDigits fuel n).length ≤ fuel := by
  intro fuel
  induction fuel with
  | zero => intro n; simp [decimalDigits]
  | succ f ih =>
    intro n
    simp only [decimalDigits]
    split
    · simp
    · have := ih (n / 10)
      simp only [List.length_append, List.length_cons, List.length_nil]
      omega

/-- The call `drbGetOptArg` on a valid value, with an allocator that grants what it asks
for: it takes the value from the argument list and reports no error. -/
theorem drbGetOptArg_ok (limit : Nat) (h64 : limit < 2 ^ 64) (type : drbOptType) (v : VaArg)
    (rest : List VaArg) (hv : validValue type v = true)
    (hmem : 6 * valueLength v + 12 ≤ limit) :
    ∃ value ignored, drbGetOptArg limit (v :: rest) type = .ok (0, value, ignored, rest) ∧
      (ignored = false → ∃ s, value = some s ∧ s.length ≤ 10 + 3 * valueLength v) ∧
      (ignored = true → value = none) ∧
      ((type = .DRBTYPE_STR ∨ type = .DRBTYPE_PATH) → ignored = decide (v = .str none)) := by
  cases type with
  | DRBTYPE_BOOL =>
    cases v with
    | int b =>
      by_cases hb : b = 0
      · refine ⟨some (literal "false"), false, ?_, ?_, ?_, ?_⟩
        · have h6 : 6 ≤ limit := by omega
          simp [drbGetOptArg, hb, DRBVAL_IGNORE_BOOL, strdup, literal, h6, DRBERR_OK]
        · intro _; exact ⟨_, rfl, by simp [literal]; omega⟩
        · intro h; cases h
        · intro h; rcases h with h | h <;> cases h
      · refine ⟨some (literal "true"), false, ?_, ?_, ?_, ?_⟩
        · have h5 : 5 ≤ limit := by omega
          simp [drbGetOptArg, hb, DRBVAL_IGNORE_BOOL, strdup, literal, h5, DRBERR_OK]
        · intro _; exact ⟨_, rfl, by simp [literal]; omega⟩
        · intro h; cases h
        · intro h; rcases h with h | h <;> cases h
    | str s => simp [validValue] at hv
    | ptr p => simp [validValue] at hv
  | DRBTYPE_INT =>
    cases v with
    | int n =>
      simp only [validValue, decide_eq_true_eq] at hv
      by_cases hn : n = -1
      · refine ⟨none, true, ?_, ?_, ?_, ?_⟩
        · simp [drbGetOptArg, hn, DRBVAL_IGNORE_INT, DRBERR_OK]
        · intro h; cases h
        · intro _; rfl
        · intro h; rcases h with h | h <;> cases h
      · have hlen := decimalDigits_length 10 n.toNat
        refine ⟨some (decimalDigits 10 n.toNat), false, ?_, ?_, ?_, ?_⟩
        · have h0 : 0 ≤ n := by omega
          have hl : (decimalDigits 10 n.toNat).length + 1 ≤ limit := by omega
          simp [drbGetOptArg, hn, DRBVAL_IGNORE_INT, h0, strdup, hl, DRBERR_OK]
        · intro _; exact ⟨_, rfl, by omega⟩
        · intro h; cases h
        · intro h; rcases h with h | h <;> cases h
    | str s => simp [validValue] at hv
    | ptr p => simp [validValue] at hv
  | DRBTYPE_STR =>
    cases v with
    | int n => simp [validValue] at hv
    | ptr p => simp [validValue] at hv
    | str s =>
      cases s with
      | none =>
        refine ⟨none, true, ?_, ?_, ?_, ?_⟩
        · simp [drbGetOptArg, DRBERR_OK]
        · intro h; cases h
        · intro _; rfl
        · intro _; simp
      | some str =>
        refine ⟨some str, false, ?_, ?_, ?_, ?_⟩
        · have hl : str.length + 1 ≤ limit := by simp only [valueLength] at hmem; omega
          simp [drbGetOptArg, strdup, hl, DRBERR_OK]
        · intro _; exact ⟨_, rfl, by simp only [valueLength]; omega⟩
        · intro h; cases h
        · intro _; simp
  | DRBTYPE_PATH =>
    cases v with
    | int n => simp [validValue] at hv
    | ptr p => simp [validValue] at hv
    | str s =>
      cases s with
      | none =>
        refine ⟨none, true, ?_, ?_, ?_, ?_⟩
        · simp [drbGetOptArg, DRBERR_OK]
        · intro h; cases h
        · intro _; rfl
        · intro _; simp
      | some str =>
        have hbytes : ∀ b ∈ str, b < 256 := by
          simpa [validValue] using hv
        simp only [valueLength] at hmem
        have henc := drbEncodePath_ok limit str hbytes (by omega) h64
        have hstr := stringAt_of_terminated _ [] (specEncodePath_ne_zero str hbytes)
        have hlen := specEncodePath_length str
        have hesc : (str.filter isEscaped).length ≤ str.length := List.length_filter_le _ _
        refine ⟨some (specEncodePath str), false, ?_, ?_, ?_, ?_⟩
        · simp [drbGetOptArg, henc, hstr, DRBERR_OK]
        · intro _; exact ⟨_, rfl, by simp only [valueLength]; omega⟩
        · intro h; cases h
        · intro _; simp

/-- The call `drbGetOptArg` on a valid value, with an allocator that grants what it asks
for: the string stored in `*value` is the one the value is sent as, and `*ignored` is set
exactly when there is none. -/
theorem drbGetOptArg_value (limit : Nat) (h64 : limit < 2 ^ 64) (type : drbOptType)
    (v : VaArg) (rest : List VaArg) (hv : validValue type v = true)
    (hmem : 6 * valueLength v + 12 ≤ limit) :
    drbGetOptArg limit (v :: rest) type =
        .ok (0, valueString type v, (valueString type v).isNone, rest) ∧
      ∀ s, valueString type v = some s → s.length ≤ 10 + 3 * valueLength v := by
  cases type with
  | DRBTYPE_BOOL =>
    cases v with
    | int b =>
      by_cases hb : b = 0
      · have h6 : 6 ≤ limit := by omega
        refine ⟨?_, ?_⟩
        · simp [drbGetOptArg, hb, DRBVAL_IGNORE_BOOL, strdup, literal, h6, DRBERR_OK,
            valueString]
        · intro s hs
          simp only [valueString, hb, if_true, Option.some.injEq] at hs
          rw [← hs]; simp [literal]; omega
      · have h5 : 5 ≤ limit := by omega
        refine ⟨?_, ?_⟩
        · simp [drbGetOptArg, hb, DRBVAL_IGNORE_BOOL, strdup, literal, h5, DRBERR_OK,
            valueString]
        · intro s hs
          simp only [valueString, hb, if_false, Option.some.injEq] at hs
          rw [← hs]; simp [literal]; omega
    | str s => simp [validValue] at hv
    | ptr p => simp [validValue] at hv
  | DRBTYPE_INT =>
    cases v with
    | int n =>
      simp only [validValue, decide_eq_true_eq] at hv
      by_cases hn : n = -1
      · refine ⟨?_, ?_⟩
        · simp [drbGetOptArg, hn, DRBVAL_IGNORE_INT, DRBERR_OK, valueString]
        · intro s hs
          simp [valueString, hn, DRBVAL_IGNORE_INT] at hs
      · have hlen := decimalDigits_length 10 n.toNat
        refine ⟨?_, ?_⟩
        · have h0 : 0 ≤ n := by omega
          have hl : (decimalDigits 10 n.toNat).length + 1 ≤ limit := by omega
          simp [drbGetOptArg, hn, DRBVAL_IGNORE_INT, h0, strdup, hl, DRBERR_OK, valueString]
        · intro s hs
          simp only [valueString, DRBVAL_IGNORE_INT, hn, if_false, Option.some.injEq] at hs
          rw [← hs]; omega
    | str s => simp [validValue] at hv
    | ptr p => simp [validValue] at hv
  | DRBTYPE_STR =>
    cases v with
    | int n => simp [validValue] at hv
    | ptr p => simp [validValue] at hv
    | str s =>
      cases s with
      | none =>
        refine ⟨?_, ?_⟩
        · simp [drbGetOptArg, DRBERR_OK, valueString]
        · intro s hs; simp [valueString] at hs
      | some str =>
        refine ⟨?_, ?_⟩
        · have hl : str.length + 1 ≤ limit := by simp only [valueLength] at hmem; omega
          simp [drbGetOptArg, strdup, hl, DRBERR_OK, valueString]
        · intro s hs
          simp only [valueString, Option.some.injEq] at hs
          rw [← hs]; simp only [valueLength]; omega
  | DRBTYPE_PATH =>
    cases v with
    | int n => simp [validValue] at hv
    | ptr p => simp [validValue] at hv
    | str s =>
      cases s with
      | none =>
        refine ⟨?_, ?_⟩
        · simp [drbGetOptArg, DRBERR_OK, valueString]
        · intro s hs; simp [valueString] at hs
      | some str =>
        have hbytes : ∀ b ∈ str, b < 256 := by
          simpa [validValue] using hv
        simp only [valueLength] at hmem
        have henc := drbEncodePath_ok limit str hbytes (by omega) h64
        have hstr := stringAt_of_terminated _ [] (specEncodePath_ne_zero str hbytes)
        have hlen := specEncodePath_length str
        have hesc : (str.filter isEscaped).length ≤ str.length := List.length_filter_le _ _
        refine ⟨?_, ?_⟩
        · simp [drbGetOptArg, henc, hstr, DRBERR_OK, valueString]
        · intro s hs
          simp only [valueString, Option.map_some', Option.some.injEq] at hs
          rw [← hs]; simp only [valueLength]; omega

theorem specialSet_facts (r p d f : Bool) :
    ((intBits DRBOPT_ROOT &&& specialSet r p d f ≠ 0) ↔ r = true) ∧
    ((intBits DRBOPT_PATH &&& specialSet r p d f ≠ 0) ↔ p = true) ∧
    ((intBits DRBOPT_IO_DATA &&& specialSet r p d f ≠ 0) ↔ d = true) ∧
    ((intBits DRBOPT_IO_FUNC &&& specialSet r p d f ≠ 0) ↔ f = true) ∧
    specialSet r p d f ^^^ intBits DRBOPT_ROOT = specialSet (!r) p d f ∧
    specialSet r p d f ^^^ intBits DRBOPT_PATH = specialSet r (!p) d f ∧
    specialSet r p d f ^^^ intBits DRBOPT_IO_DATA = specialSet r p (!d) f ∧
    specialSet r p d f ^^^ intBits DRBOPT_IO_FUNC = specialSet r p d (!f) ∧
    (specialSet r p d f = 0 ↔ (r = false ∧ p = false ∧ d = false ∧ f = false)) := by
  cases r <;> cases p <;> cases d <;> cases f <;> decide

theorem supplied_cons (o : Int × VaArg) (opts : List (Int × VaArg)) (opt : Int) :
    supplied (o :: opts) opt = ((decide (o.1 = opt) && !ignoreValue opt o.2) || supplied opts opt) := by
  simp [supplied]

/-- The code of a valid option is one of the codes of `dropbox.h`. -/
theorem validOption_code {special : Nat} {o : Int × VaArg} (h : validOption special o = true) :
    o.1 ∈ optionCodes ∧ o.1 ≠ 0 := by
  unfold validOption at h
  by_cases hsp : intBits o.1 &&& special ≠ 0
  · simp only [hsp, if_true, ne_eq, not_false_eq_true, Bool.or_eq_true, Bool.and_eq_true,
      decide_eq_true_eq] at h
    rcases h with (⟨hc, _⟩ | ⟨hc, _⟩) | ⟨hc | hc, _⟩ <;> rw [hc] <;> exact ⟨by decide, by decide⟩
  · simp only [hsp, if_false] at h
    cases hn : optionName o.1 with
    | none => rw [hn] at h; cases h
    | some nt =>
      obtain ⟨name, type⟩ := nt
      have := optionName_mem hn
      exact ⟨this.1, this.2.2⟩

/-- Whether an option is valid does not depend on the membership of another option in the
special set. -/
theorem validOption_xor {special : Nat} {o : Int × VaArg} {c : Int} (ho : o.1 ∈ optionCodes)
    (hc : c ∈ optionCodes) (hne : o.1 ≠ c) :
    validOption (special ^^^ intBits c) o = validOption special o := by
  unfold validOption
  rw [and_xor_of_ne ho hc hne]

/-- A pass of the loop of `drbGetOpt` over a member of the special set that the handler takes
without error. -/
theorem drbGetOptLoop_special (limit : Nat) (sh : Option SpecialHandler)
    (handler : SpecialHandler) (c : Int) (ap ap2 : List VaArg) (st : OptState) (fuel : Nat)
    (ignored : Bool) (shArg : ShArg) (herr : st.err = 0) (hend : ¬ c = DRBOPT_END)
    (hparsed : intBits c &&& st.parsedOpts = 0) (hsp : intBits c &&& st.special ≠ 0)
    (hsh : sh = some handler) (hres : handler c ap st.shArg = .ok (0, ignored, shArg, ap2)) :
    drbGetOptLoop limit sh (fuel + 1) (.int c :: ap) st =
      drbGetOptLoop limit sh fuel ap2
        (OptState.mk 0 (st.parsedOpts ^^^ intBits c)
          (if ignored = false then st.special ^^^ intBits c else st.special) st.args shArg) := by
  simp only [drbGetOptLoop, herr, hend, hparsed, hsp, hsh, hres, ne_eq, not_true_eq_false,
    not_false_eq_true, if_true, if_false, DRBERR_OK, true_and]

/-- A pass of the loop of `drbGetOpt` over a normal option whose value is its ignore
value. -/
theorem drbGetOptLoop_ignored (limit : Nat) (sh : Option SpecialHandler) (c : Int)
    (ap ap2 : List VaArg) (st : OptState) (fuel : Nat) (name : CString) (type : drbOptType)
    (value : Option CString) (herr : st.err = 0) (hend : ¬ c = DRBOPT_END)
    (hparsed : intBits c &&& st.parsedOpts = 0) (hsp : ¬ intBits c &&& st.special ≠ 0)
    (hname : optionName c = some (name, type))
    (harg : drbGetOptArg limit ap type = .ok (0, value, true, ap2)) :
    drbGetOptLoop limit sh (fuel + 1) (.int c :: ap) st =
      drbGetOptLoop limit sh fuel ap2
        (OptState.mk 0 (st.parsedOpts ^^^ intBits c) st.special st.args st.shArg) := by
  simp only [drbGetOptLoop, herr, hend, hparsed, hsp, hname, harg, ne_eq, not_true_eq_false,
    not_false_eq_true, if_true, if_false, Bool.true_eq_false, and_false]

/-- A pass of the loop of `drbGetOpt` over a normal option with a value: the option is added
to the argument string. -/
theorem drbGetOptLoop_added (limit : Nat) (sh : Option SpecialHandler) (c : Int)
    (ap ap2 : List VaArg) (st : OptState) (fuel : Nat) (name : CString) (type : drbOptType)
    (a s : CString) (herr : st.err = 0) (hend : ¬ c = DRBOPT_END)
    (hparsed : intBits c &&& st.parsedOpts = 0) (hsp : ¬ intBits c &&& st.special ≠ 0)
    (hname : optionName c = some (name, type))
    (harg : drbGetOptArg limit ap type = .ok (0, some s, false, ap2))
    (hargs : st.args = some a)
    (hroom : (a ++ [38] ++ name ++ [61] ++ s).length + 1 ≤ limit) :
    drbGetOptLoop limit sh (fuel + 1) (.int c :: ap) st =
      drbGetOptLoop limit sh fuel ap2
        (OptState.mk 0 (st.parsedOpts ^^^ intBits c) st.special
          (some (a ++ [38] ++ name ++ [61] ++ s)) st.shArg) := by
  simp only [drbGetOptLoop, herr, hend, hparsed, hsp, hname, harg, hargs, appendArg, hroom,
    ne_eq, not_true_eq_false, not_false_eq_true, if_true, if_false, and_self]

/-- The handler `defaultHandler` on a member of the special set with a valid value: it takes
the value, reports no error, and says `ignored` exactly for the ignore value. -/
theorem defaultHandler_ok (limit : Nat) (h64 : limit < 2 ^ 64) (special : Nat) (c : Int)
    (v : VaArg) (ap : List VaArg) (shArg : ShArg)
    (hsp : intBits c &&& special ≠ 0) (hvalid : validOption special (c, v) = true)
    (hmem : 6 * valueLength v + 12 ≤ limit) :
    ∃ shArg2, defaultHandler limit c (v :: ap) shArg = .ok (0, ignoreValue c v, shArg2, ap) ∧
      (c = DRBOPT_ROOT ∨ c = DRBOPT_PATH ∨ c = DRBOPT_IO_DATA ∨ c = DRBOPT_IO_FUNC) := by
  unfold validOption at hvalid
  simp only [hsp, if_true, ne_eq, not_false_eq_true, Bool.or_eq_true, Bool.and_eq_true,
    decide_eq_true_eq] at hvalid
  rcases hvalid with (⟨hc, hv⟩ | ⟨hc, hv⟩) | ⟨hc | hc, hv⟩
  · subst hc
    obtain ⟨value, ignored, harg, _, _, hign⟩ :=
      drbGetOptArg_ok limit h64 .DRBTYPE_STR v ap hv hmem
    have hign2 := hign (Or.inl rfl)
    refine ⟨ShArg.mk (if value.isSome then value else shArg.root) shArg.path shArg.data
      shArg.func, ?_, Or.inl rfl⟩
    simp only [defaultHandler, harg, if_true]
    rw [hign2]
    simp [ignoreValue, DRBOPT_ROOT, DRBOPT_IO_FUNC]
  · subst hc
    obtain ⟨value, ignored, harg, _, _, hign⟩ :=
      drbGetOptArg_ok limit h64 .DRBTYPE_PATH v ap hv hmem
    have hign2 := hign (Or.inr rfl)
    refine ⟨ShArg.mk shArg.root (if value.isSome then value else shArg.path) shArg.data
      shArg.func, ?_, Or.inr (Or.inl rfl)⟩
    have hne : ¬ DRBOPT_PATH = DRBOPT_ROOT := by decide
    simp only [defaultHandler, harg, if_true, hne, if_false]
    rw [hign2]
    simp [ignoreValue, DRBOPT_PATH, DRBOPT_IO_FUNC]
  · subst hc
    cases v with
    | int n => simp at hv
    | str s => simp at hv
    | ptr q =>
      refine ⟨ShArg.mk shArg.root shArg.path q shArg.func, ?_, Or.inr (Or.inr (Or.inl rfl))⟩
      simp [defaultHandler, ignoreValue, DRBOPT_IO_DATA, DRBOPT_ROOT, DRBOPT_PATH,
        DRBOPT_IO_FUNC, DRBERR_OK]
  · subst hc
    cases v with
    | int n => simp at hv
    | str s => simp at hv
    | ptr q =>
      refine ⟨ShArg.mk shArg.root shArg.path shArg.data q, ?_, Or.inr (Or.inr (Or.inr rfl))⟩
      cases q <;>
        simp [defaultHandler, ignoreValue, DRBOPT_IO_DATA, DRBOPT_ROOT, DRBOPT_PATH,
          DRBOPT_IO_FUNC, DRBERR_OK]

theorem special_codes_ne :
    DRBOPT_ROOT ≠ DRBOPT_PATH ∧ DRBOPT_ROOT ≠ DRBOPT_IO_DATA ∧ DRBOPT_ROOT ≠ DRBOPT_IO_FUNC ∧
    DRBOPT_PATH ≠ DRBOPT_ROOT ∧ DRBOPT_PATH ≠ DRBOPT_IO_DATA ∧ DRBOPT_PATH ≠ DRBOPT_IO_FUNC ∧
    DRBOPT_IO_DATA ≠ DRBOPT_ROOT ∧ DRBOPT_IO_DATA ≠ DRBOPT_PATH ∧
    DRBOPT_IO_DATA ≠ DRBOPT_IO_FUNC ∧ DRBOPT_IO_FUNC ≠ DRBOPT_ROOT ∧
    DRBOPT_IO_FUNC ≠ DRBOPT_PATH ∧ DRBOPT_IO_FUNC ≠ DRBOPT_IO_DATA := by
  decide

/-- An option that is not in the special set leaves the account of the missing special
options as it is. -/
theorem supplied_cons_of_not_special (c : Int) (v : VaArg) (rest : List (Int × VaArg))
    (x : Int) (b : Bool) (h : c = x → b = false) :
    (b && !supplied rest x) = (b && !supplied ((c, v) :: rest) x) := by
  rw [supplied_cons]
  by_cases hc : c = x
  · rw [h hc]; rfl
  · simp [hc]

/-- One pass of the loop of `drbGetOpt` over a valid option that was not parsed before: the
pass takes the option and its value from the argument list and leaves `err` unset. -/
theorem drbGetOptLoop_step (limit : Nat) (h64 : limit < 2 ^ 64) (sh : Option SpecialHandler)
    (o : Int × VaArg) (rest : List (Int × VaArg)) (st : OptState) (fuel : Nat) (a : CString)
    (r p d f : Bool) (herr : st.err = 0) (hargs : st.args = some a)
    (hspecial : st.special = specialSet r p d f)
    (hsh : st.special ≠ 0 → sh = some (defaultHandler limit))
    (hvalid : validOption st.special o = true)
    (hparsed : intBits o.1 &&& st.parsedOpts = 0)
    (hmem : a.length + bytesNeeded (o :: rest) ≤ limit) :
    ∃ st1 a1 r1 p1 d1 f1,
      drbGetOptLoop limit sh (fuel + 1) (vaList (o :: rest)) st =
        drbGetOptLoop limit sh fuel (vaList rest) st1 ∧
      st1.err = 0 ∧ st1.args = some a1 ∧ a1.length + bytesNeeded rest ≤ limit ∧
      st1.parsedOpts = st.parsedOpts ^^^ intBits o.1 ∧
      (st1.special = st.special ∨ st1.special = st.special ^^^ intBits o.1) ∧
      (st1.special ≠ 0 → sh = some (defaultHandler limit)) ∧
      st1.special = specialSet r1 p1 d1 f1 ∧
      (r1 && !supplied rest DRBOPT_ROOT) = (r && !supplied (o :: rest) DRBOPT_ROOT) ∧
      (p1 && !supplied rest DRBOPT_PATH) = (p && !supplied (o :: rest) DRBOPT_PATH) ∧
      (d1 && !supplied rest DRBOPT_IO_DATA) = (d && !supplied (o :: rest) DRBOPT_IO_DATA) ∧
      (f1 && !supplied rest DRBOPT_IO_FUNC) = (f && !supplied (o :: rest) DRBOPT_IO_FUNC) ∧
      a1 = a ++ argumentOf st.special o := by
  obtain ⟨c, v⟩ := o
  obtain ⟨hcmem, hc0⟩ := validOption_code hvalid
  simp only [] at hcmem hc0 hparsed
  obtain ⟨hfr, hfp, hfd, hff, hxr, hxp, hxd, hxf, _⟩ := specialSet_facts r p d f
  obtain ⟨n1, n2, n3, n4, n5, n6, n7, n8, n9, n10, n11, n12⟩ := special_codes_ne
  simp only [bytesNeeded] at hmem
  have hend : ¬ c = DRBOPT_END := hc0
  by_cases hsp : intBits c &&& st.special ≠ 0
  · -- a member of the special set: the handler takes the value
    have hne0 : st.special ≠ 0 := by
      intro h0
      rw [h0, Nat.and_zero] at hsp
      exact hsp rfl
    obtain ⟨shArg2, hres, hcases⟩ :=
      defaultHandler_ok limit h64 st.special c v (vaList rest) st.shArg hsp hvalid (by omega)
    have hrun := drbGetOptLoop_special limit sh (defaultHandler limit) c (v :: vaList rest)
      (vaList rest) st fuel (ignoreValue c v) shArg2 herr hend hparsed hsp (hsh hne0) hres
    have hdisj : (if ignoreValue c v = false then st.special ^^^ intBits c else st.special) =
        st.special ∨
        (if ignoreValue c v = false then st.special ^^^ intBits c else st.special) =
          st.special ^^^ intBits c := by
      cases ignoreValue c v
      · exact Or.inr rfl
      · exact Or.inl rfl
    have hnoarg : a = a ++ argumentOf st.special (c, v) := by
      simp [argumentOf, hsp]
    rw [hspecial] at hsp
    rcases hcases with hc | hc | hc | hc
    · subst hc
      have hr : r = true := hfr.mp hsp
      subst hr
      refine ⟨_, a, ignoreValue DRBOPT_ROOT v, p, d, f, hrun, rfl, hargs, by omega, rfl, hdisj,
        fun _ => hsh hne0, ?_, ?_, ?_, ?_, ?_, hnoarg⟩
      · simp only [hspecial]
        cases ignoreValue DRBOPT_ROOT v
        · simpa using hxr
        · rfl
      · rw [supplied_cons]; cases ignoreValue DRBOPT_ROOT v <;> simp
      · exact supplied_cons_of_not_special _ _ _ _ _ (fun h => absurd h n1)
      · exact supplied_cons_of_not_special _ _ _ _ _ (fun h => absurd h n2)
      · exact supplied_cons_of_not_special _ _ _ _ _ (fun h => absurd h n3)
    · subst hc
      have hp : p = true := hfp.mp hsp
      subst hp
      refine ⟨_, a, r, ignoreValue DRBOPT_PATH v, d, f, hrun, rfl, hargs, by omega, rfl, hdisj,
        fun _ => hsh hne0, ?_, ?_, ?_, ?_, ?_, hnoarg⟩
      · simp only [hspecial]
        cases ignoreValue DRBOPT_PATH v
        · simpa using hxp
        · rfl
      · exact supplied_cons_of_not_special _ _ _ _ _ (fun h => absurd h n4)
      · rw [supplied_cons]; cases ignoreValue DRBOPT_PATH v <;> simp
      · exact supplied_cons_of_not_special _ _ _ _ _ (fun h => absurd h n5)
      · exact supplied_cons_of_not_special _ _ _ _ _ (fun h => absurd h n6)
    · subst hc
      have hd : d = true := hfd.mp hsp
      subst hd
      refine ⟨_, a, r, p, ignoreValue DRBOPT_IO_DATA v, f, hrun, rfl, hargs, by omega, rfl,
        hdisj, fun _ => hsh hne0, ?_, ?_, ?_, ?_, ?_, hnoarg⟩
      · simp only [hspecial]
        cases ignoreValue DRBOPT_IO_DATA v
        · simpa using hxd
        · rfl
      · exact supplied_cons_of_not_special _ _ _ _ _ (fun h => absurd h n7)
      · exact supplied_cons_of_not_special _ _ _ _ _ (fun h => absurd h n8)
      · rw [supplied_cons]; cases ignoreValue DRBOPT_IO_DATA v <;> simp
      · exact supplied_cons_of_not_special _ _ _ _ _ (fun h => absurd h n9)
    · subst hc
      have hf : f = true := hff.mp hsp
      subst hf
      refine ⟨_, a, r, p, d, ignoreValue DRBOPT_IO_FUNC v, hrun, rfl, hargs, by omega, rfl,
        hdisj, fun _ => hsh hne0, ?_, ?_, ?_, ?_, ?_, hnoarg⟩
      · simp only [hspecial]
        cases ignoreValue DRBOPT_IO_FUNC v
        · simpa using hxf
        · rfl
      · exact supplied_cons_of_not_special _ _ _ _ _ (fun h => absurd h n10)
      · exact supplied_cons_of_not_special _ _ _ _ _ (fun h => absurd h n11)
      · exact supplied_cons_of_not_special _ _ _ _ _ (fun h => absurd h n12)
      · rw [supplied_cons]; cases ignoreValue DRBOPT_IO_FUNC v <;> simp
  · -- a normal option: its name and its value go to the argument string
    have hsupp : (r && !supplied rest DRBOPT_ROOT) = (r && !supplied ((c, v) :: rest) DRBOPT_ROOT) ∧
        (p && !supplied rest DRBOPT_PATH) = (p && !supplied ((c, v) :: rest) DRBOPT_PATH) ∧
        (d && !supplied rest DRBOPT_IO_DATA) =
          (d && !supplied ((c, v) :: rest) DRBOPT_IO_DATA) ∧
        (f && !supplied rest DRBOPT_IO_FUNC) =
          (f && !supplied ((c, v) :: rest) DRBOPT_IO_FUNC) := by
      rw [hspecial] at hsp
      refine ⟨?_, ?_, ?_, ?_⟩
      · apply supplied_cons_of_not_special
        intro hc; subst hc
        cases r
        · rfl
        · exact absurd (hfr.mpr rfl) hsp
      · apply supplied_cons_of_not_special
        intro hc; subst hc
        cases p
        · rfl
        · exact absurd (hfp.mpr rfl) hsp
      · apply supplied_cons_of_not_special
        intro hc; subst hc
        cases d
        · rfl
        · exact absurd (hfd.mpr rfl) hsp
      · apply supplied_cons_of_not_special
        intro hc; subst hc
        cases f
        · rfl
        · exact absurd (hff.mpr rfl) hsp
    unfold validOption at hvalid
    simp only [hsp, if_false] at hvalid
    cases hname : optionName c with
    | none => rw [hname] at hvalid; cases hvalid
    | some nt =>
      obtain ⟨name, type⟩ := nt
      rw [hname] at hvalid
      simp only [] at hvalid
      obtain ⟨_, hnlen, _⟩ := optionName_mem hname
      obtain ⟨harg, hlen⟩ :=
        drbGetOptArg_value limit h64 type v (vaList rest) hvalid (by omega)
      cases hvs : valueString type v with
      | none =>
        rw [hvs] at harg
        have hrun := drbGetOptLoop_ignored limit sh c (v :: vaList rest) (vaList rest) st fuel
          name type none herr hend hparsed hsp hname harg
        exact ⟨_, a, r, p, d, f, hrun, rfl, hargs, by omega, rfl, Or.inl rfl, hsh, hspecial,
          hsupp.1, hsupp.2.1, hsupp.2.2.1, hsupp.2.2.2, by simp [argumentOf, hsp, hname, hvs]⟩
      | some s =>
        rw [hvs] at harg
        have hslen := hlen s hvs
        have hroom : (a ++ [38] ++ name ++ [61] ++ s).length + 1 ≤ limit := by
          simp only [List.length_append, List.length_cons, List.length_nil]
          omega
        have hrun := drbGetOptLoop_added limit sh c (v :: vaList rest) (vaList rest) st fuel
          name type a s herr hend hparsed hsp hname harg hargs hroom
        refine ⟨_, a ++ [38] ++ name ++ [61] ++ s, r, p, d, f, hrun, rfl, rfl, ?_, rfl,
          Or.inl rfl, hsh, hspecial, hsupp.1, hsupp.2.1, hsupp.2.2.1, hsupp.2.2.2, ?_⟩
        · simp only [List.length_append, List.length_cons, List.length_nil]
          omega
        · simp [argumentOf, hsp, hname, hvs]

/-- What an option adds to the argument string does not depend on the membership of another
option in the special set. -/
theorem argumentString_xor (special : Nat) (c : Int) (hc : c ∈ optionCodes) :
    ∀ (opts : List (Int × VaArg)), (∀ o ∈ opts, o.1 ∈ optionCodes ∧ o.1 ≠ c) →
      argumentString (special ^^^ intBits c) opts = argumentString special opts := by
  intro opts
  induction opts with
  | nil => intro _; rfl
  | cons o rest ih =>
    intro h
    obtain ⟨ho, hne⟩ := h o (by simp)
    simp only [argumentString, argumentOf, and_xor_of_ne ho hc hne]
    rw [ih (fun o2 ho2 => h o2 (by simp [ho2]))]

/-- The loop of `drbGetOpt` over a list of valid options without a duplicate, with an
allocator that grants what it asks for: it comes to `DRBOPT_END` with `err` unset, a member
of the special set is left in `special` exactly when it was not supplied, and the argument
string has grown by what the options add to it, in order. -/
theorem drbGetOptLoop_ok (limit : Nat) (h64 : limit < 2 ^ 64) (sh : Option SpecialHandler) :
    ∀ (opts : List (Int × VaArg)) (st : OptState) (fuel : Nat) (a : CString) (r p d f : Bool),
      st.err = 0 → st.args = some a → st.special = specialSet r p d f →
      (st.special ≠ 0 → sh = some (defaultHandler limit)) →
      (opts.map Prod.fst).Nodup →
      (∀ o ∈ opts, validOption st.special o = true) →
      (∀ o ∈ opts, intBits o.1 &&& st.parsedOpts = 0) →
      opts.length + 1 ≤ fuel →
      a.length + bytesNeeded opts ≤ limit →
      ∃ st2, drbGetOptLoop limit sh fuel (vaList opts) st = .ok st2 ∧ st2.err = 0 ∧
        st2.args = some (a ++ argumentString st.special opts) ∧
        st2.special = specialSet (r && !supplied opts DRBOPT_ROOT)
          (p && !supplied opts DRBOPT_PATH) (d && !supplied opts DRBOPT_IO_DATA)
          (f && !supplied opts DRBOPT_IO_FUNC) := by
  intro opts
  induction opts with
  | nil =>
    intro st fuel a r p d f herr hargs hspecial _ _ _ _ hfuel _
    obtain ⟨fuel1, rfl⟩ : ∃ k, fuel = k + 1 := ⟨fuel - 1, by simp at hfuel; omega⟩
    refine ⟨st, ?_, herr, by simpa [argumentString] using hargs, ?_⟩
    · simp [vaList, drbGetOptLoop, herr]
    · simpa [supplied] using hspecial
  | cons o rest ih =>
    intro st fuel a r p d f herr hargs hspecial hsh hnodup hvalid hparsed hfuel hmem
    obtain ⟨fuel1, rfl⟩ : ∃ k, fuel = k + 1 :=
      ⟨fuel - 1, by simp only [List.length_cons] at hfuel; omega⟩
    simp only [List.map_cons, List.nodup_cons, List.mem_map, not_exists, not_and] at hnodup
    obtain ⟨hfresh, hnodup2⟩ := hnodup
    have hvo := hvalid o (by simp)
    obtain ⟨hcmem, _⟩ := validOption_code hvo
    obtain ⟨st1, a1, r1, p1, d1, f1, hrun, herr1, hargs1, hmem1, hparsed1, hdisj, hsh1, hsp1,
        e1, e2, e3, e4, ha1⟩ :=
      drbGetOptLoop_step limit h64 sh o rest st fuel1 a r p d f herr hargs hspecial hsh hvo
        (hparsed o (by simp)) hmem
    have hne : ∀ o2 ∈ rest, o2.1 ≠ o.1 := fun o2 ho2 heq => hfresh o2 ho2 heq
    have hcodes : ∀ o2 ∈ rest, o2.1 ∈ optionCodes ∧ o2.1 ≠ o.1 := fun o2 ho2 =>
      ⟨(validOption_code (hvalid o2 (by simp [ho2]))).1, hne o2 ho2⟩
    have hvalid1 : ∀ o2 ∈ rest, validOption st1.special o2 = true := by
      intro o2 ho2
      have hv2 := hvalid o2 (by simp [ho2])
      rcases hdisj with h | h
      · rw [h]; exact hv2
      · rw [h, validOption_xor (hcodes o2 ho2).1 hcmem (hne o2 ho2)]
        exact hv2
    have hstring : argumentString st1.special rest = argumentString st.special rest := by
      rcases hdisj with h | h
      · rw [h]
      · rw [h]; exact argumentString_xor st.special o.1 hcmem rest hcodes
    have hparsedRest : ∀ o2 ∈ rest, intBits o2.1 &&& st1.parsedOpts = 0 := by
      intro o2 ho2
      rw [hparsed1, and_xor_of_ne (hcodes o2 ho2).1 hcmem (hne o2 ho2)]
      exact hparsed o2 (by simp [ho2])
    obtain ⟨st2, hrun2, herr2, hargs2, hsp2⟩ :=
      ih st1 fuel1 a1 r1 p1 d1 f1 herr1 hargs1 hsp1 hsh1 hnodup2 hvalid1 hparsedRest
        (by simp only [List.length_cons] at hfuel; omega) hmem1
    refine ⟨st2, by rw [hrun, hrun2], herr2, ?_, ?_⟩
    · rw [hargs2, hstring, ha1]
      simp [argumentString]
    · rw [hsp2, e1, e2, e3, e4]

theorem special_eq_specialSet (fn : ApiFunction) :
    fn.special = specialSet (decide (intBits DRBOPT_ROOT &&& fn.special ≠ 0))
      (decide (intBits DRBOPT_PATH &&& fn.special ≠ 0))
      (decide (intBits DRBOPT_IO_DATA &&& fn.special ≠ 0))
      (decide (intBits DRBOPT_IO_FUNC &&& fn.special ≠ 0)) ∧
    (fn.special ≠ 0 → fn.handled = true) := by
  cases fn <;> decide

/-- The call of `drbGetOpt` in an API function on a list of valid options without a
duplicate, with an allocator that grants what it asks for: the error code says whether a
member of the special set is missing, and the argument string is what the options add to
the empty string, in order. -/
theorem parseOptions_ok (limit : Nat) (fn : ApiFunction)
    (opts : List (Int × VaArg)) (hnodup : (opts.map Prod.fst).Nodup)
    (hvalid : ∀ o ∈ opts, validOption fn.special o = true)
    (hmem : bytesNeeded opts ≤ limit) (h64 : limit < 2 ^ 64) :
    ∃ shArg, parseOptions limit fn (vaList opts) =
      .ok (if allRequiredSupplied fn.special opts then DRBERR_OK else DRBERR_MISSING_OPT,
        some (argumentString fn.special opts), shArg) := by
  obtain ⟨hset, hhandled⟩ := special_eq_specialSet fn
  have h1 : 1 ≤ limit := by
    have : 2 ≤ bytesNeeded opts := by
      cases opts with
      | nil => simp [bytesNeeded]
      | cons o rest => simp only [bytesNeeded]; omega
    omega
  obtain ⟨st2, hrun, herr2, hargs2, hsp2⟩ :=
    drbGetOptLoop_ok limit h64 (if fn.handled then some (defaultHandler limit) else none) opts
      (OptState.mk DRBERR_OK 0 fn.special (some []) emptyShArg) ((vaList opts).length + 1) []
      _ _ _ _ rfl rfl hset
      (fun hne => by simp only [hhandled hne, if_true]) hnodup hvalid
      (fun o _ => Nat.and_zero _)
      (by
        have hlen : ∀ l : List (Int × VaArg), l.length ≤ (vaList l).length := by
          intro l
          induction l with
          | nil => simp
          | cons x xs ih => simp only [vaList, List.length_cons]; omega
        have := hlen opts
        omega)
      (by simpa using hmem)
  simp only [List.nil_append] at hargs2
  refine ⟨st2.shArg, ?_⟩
  unfold parseOptions drbGetOpt
  simp only [malloc, h1, if_true]
  rw [hrun]
  simp only [herr2, hargs2, true_and]
  have hzero : (st2.special ≠ 0) ↔ allRequiredSupplied fn.special opts = false := by
    rw [hsp2]
    have hfacts := (specialSet_facts
      (decide (intBits DRBOPT_ROOT &&& fn.special ≠ 0) && !supplied opts DRBOPT_ROOT)
      (decide (intBits DRBOPT_PATH &&& fn.special ≠ 0) && !supplied opts DRBOPT_PATH)
      (decide (intBits DRBOPT_IO_DATA &&& fn.special ≠ 0) && !supplied opts DRBOPT_IO_DATA)
      (decide (intBits DRBOPT_IO_FUNC &&& fn.special ≠ 0) &&
        !supplied opts DRBOPT_IO_FUNC)).2.2.2.2.2.2.2.2
    rw [ne_eq, hfacts]
    unfold allRequiredSupplied
    simp only [List.all_cons, List.all_nil, Bool.and_true]
    cases supplied opts DRBOPT_ROOT <;> cases supplied opts DRBOPT_PATH <;>
      cases supplied opts DRBOPT_IO_DATA <;> cases supplied opts DRBOPT_IO_FUNC <;>
      by_cases h1 : intBits DRBOPT_ROOT &&& fn.special = 0 <;>
      by_cases h2 : intBits DRBOPT_PATH &&& fn.special = 0 <;>
      by_cases h3 : intBits DRBOPT_IO_DATA &&& fn.special = 0 <;>
      by_cases h4 : intBits DRBOPT_IO_FUNC &&& fn.special = 0 <;>
      simp [h1, h2, h3, h4]
  by_cases hall : allRequiredSupplied fn.special opts = true
  · have hz : ¬ st2.special ≠ 0 := by
      intro h; rw [hzero.mp h] at hall; cases hall
    simp only [hz, hall, if_true, if_false, herr2]
    rfl
  · have hall2 : allRequiredSupplied fn.special opts = false := by
      cases h : allRequiredSupplied fn.special opts
      · rfl
      · exact absurd h hall
    have hz : st2.special ≠ 0 := hzero.mpr hall2
    simp only [hz, hall2, if_true, Bool.false_eq_true, if_false, ne_eq, not_false_eq_true]

/-- C29 (the code departs from the claim): for each of the four boolean options and every
value `v` passed for it, `DRBVAL_IGNORE_BOOL` (-1) too, `drbGetOpt` puts the option in the
argument string: `&name=false` when `v` is 0 and `&name=true` otherwise.  The value is stored
in a `bool` before it is compared with `DRBVAL_IGNORE_BOOL`, so the comparison is between 0
or 1 and -1.  An integer option with `DRBVAL_IGNORE_INT` and a string option with
`DRBVAL_IGNORE_STR` are left out, as the claim says.  In general, for every API function and
every list of valid options without a duplicate, the argument string is the concatenation, in
the order of the list, of `&name=value` for the normal options, where an integer with
`DRBVAL_IGNORE_INT` and a string with `DRBVAL_IGNORE_STR` add nothing and a boolean always
adds its value (`argumentString`). -/
theorem boolean_option_with_ignore_value_is_sent (limit : Nat) (fn : ApiFunction)
    (opts : List (Int × VaArg)) (v : Int) (hlimit : 32 ≤ limit)
    (hnodup : (opts.map Prod.fst).Nodup)
    (hvalid : ∀ o ∈ opts, validOption fn.special o = true)
    (hmem : bytesNeeded opts ≤ limit) (h64 : limit < 2 ^ 64) :
    (∀ o ∈ [(DRBOPT_INCL_DELETED, literal "&include_deleted="), (DRBOPT_LIST, literal "&list="),
          (DRBOPT_OVERWRITE, literal "&overwrite="), (DRBOPT_SHORT_URL, literal "&short_url=")],
      drbGetOpt limit [.int o.1, .int v, .int DRBOPT_END] DRBOPT_VOID none emptyShArg =
        .ok (DRBERR_OK, some (o.2 ++ (if v = 0 then literal "false" else literal "true")),
          emptyShArg)) ∧
    drbGetOpt limit [.int DRBOPT_LIST, .int DRBVAL_IGNORE_BOOL, .int DRBOPT_END] DRBOPT_VOID
      none emptyShArg = .ok (DRBERR_OK, some (literal "&list=true"), emptyShArg) ∧
    drbGetOpt limit [.int DRBOPT_FILE_LIMIT, .int DRBVAL_IGNORE_INT, .int DRBOPT_END]
      DRBOPT_VOID none emptyShArg = .ok (DRBERR_OK, some [], emptyShArg) ∧
    drbGetOpt limit [.int DRBOPT_LOCALE, .str none, .int DRBOPT_END] DRBOPT_VOID none
      emptyShArg = .ok (DRBERR_OK, some [], emptyShArg) ∧
    ∃ code shArg, parseOptions limit fn (vaList opts) =
      .ok (code, some (argumentString fn.special opts), shArg) := by
  have h1 : 1 ≤ limit := by omega
  have h5 : 5 ≤ limit := by omega
  have h6 : 6 ≤ limit := by omega
  have h11 : 11 ≤ limit := by omega
  have h22 : 22 ≤ limit := by omega
  have h23 : 23 ≤ limit := by omega
  have h17 : 17 ≤ limit := by omega
  have h16 : 16 ≤ limit := by omega
  have h15 : 15 ≤ limit := by omega
  have h12 : 12 ≤ limit := by omega
  refine ⟨?_, ?_, ?_, ?_, ?_⟩
  · intro o ho
    simp only [List.mem_cons, List.mem_singleton, List.not_mem_nil, or_false] at ho
    by_cases hv : v = 0
    · rcases ho with rfl | rfl | rfl | rfl <;>
        simp [drbGetOpt, drbGetOptLoop, malloc, intBits, DRBOPT_VOID, optionName, optionTable, DRBOPT_END,
          DRBOPT_CURSOR, DRBOPT_FILE_LIMIT, DRBOPT_FORMAT, DRBOPT_FROM_COPY_REF,
          DRBOPT_FROM_PATH, DRBOPT_HASH, DRBOPT_INCL_DELETED, DRBOPT_LIST, DRBOPT_LOCALE,
          DRBOPT_OVERWRITE, DRBOPT_PATH, DRBOPT_PARENT_REV, DRBOPT_QUERY, DRBOPT_REV,
          DRBOPT_REV_LIMIT, DRBOPT_ROOT, DRBOPT_SHORT_URL, drbGetOptArg, DRBVAL_IGNORE_BOOL,
          strdup, literal, appendArg, DRBERR_OK, hv, h1, h5, h6, h11, h12, h15, h16, h17, h22,
          h23]
    · rcases ho with rfl | rfl | rfl | rfl <;>
        simp [drbGetOpt, drbGetOptLoop, malloc, intBits, DRBOPT_VOID, optionName, optionTable, DRBOPT_END,
          DRBOPT_CURSOR, DRBOPT_FILE_LIMIT, DRBOPT_FORMAT, DRBOPT_FROM_COPY_REF,
          DRBOPT_FROM_PATH, DRBOPT_HASH, DRBOPT_INCL_DELETED, DRBOPT_LIST, DRBOPT_LOCALE,
          DRBOPT_OVERWRITE, DRBOPT_PATH, DRBOPT_PARENT_REV, DRBOPT_QUERY, DRBOPT_REV,
          DRBOPT_REV_LIMIT, DRBOPT_ROOT, DRBOPT_SHORT_URL, drbGetOptArg, DRBVAL_IGNORE_BOOL,
          strdup, literal, appendArg, DRBERR_OK, hv, h1, h5, h6, h11, h12, h15, h16, h17, h22,
          h23]
  · simp [drbGetOpt, drbGetOptLoop, malloc, intBits, DRBOPT_VOID, optionName, optionTable, DRBOPT_END,
      DRBOPT_CURSOR, DRBOPT_FILE_LIMIT, DRBOPT_FORMAT, DRBOPT_FROM_COPY_REF,
      DRBOPT_FROM_PATH, DRBOPT_HASH, DRBOPT_INCL_DELETED, DRBOPT_LIST, drbGetOptArg,
      DRBVAL_IGNORE_BOOL, strdup, literal, appendArg, DRBERR_OK, h1, h5, h11]
  · simp [drbGetOpt, drbGetOptLoop, malloc, intBits, DRBOPT_VOID, optionName, optionTable, DRBOPT_END,
      DRBOPT_CURSOR, DRBOPT_FILE_LIMIT, drbGetOptArg, DRBVAL_IGNORE_INT, DRBERR_OK, h1]
  · simp [drbGetOpt, drbGetOptLoop, malloc, intBits, DRBOPT_VOID, optionName, optionTable, DRBOPT_END,
      DRBOPT_CURSOR, DRBOPT_FILE_LIMIT, DRBOPT_FORMAT, DRBOPT_FROM_COPY_REF,
      DRBOPT_FROM_PATH, DRBOPT_HASH, DRBOPT_INCL_DELETED, DRBOPT_LIST, DRBOPT_LOCALE,
      drbGetOptArg, DRBERR_OK, h1]
  · obtain ⟨shArg, h⟩ := parseOptions_ok limit fn opts hnodup hvalid hmem h64
    exact ⟨_, shArg, h⟩

/-- C29, at the allocator limit 4096, the value `DRBVAL_IGNORE_BOOL` and a call of
`drbDelete` with the root, the list option with `DRBVAL_IGNORE_BOOL`, the file limit with
`DRBVAL_IGNORE_INT` and a path: the list option is sent as `list=true`. -/
theorem boolean_option_with_ignore_value_is_sent_witness :
    (32 : Nat) ≤ 4096 ∧ (deleteOptions.map Prod.fst).Nodup ∧
    (∀ o ∈ deleteOptions, validOption ApiFunction.drbDelete.special o = true) ∧
    bytesNeeded deleteOptions ≤ 4096 ∧ 4096 < 2 ^ 64 ∧
    argumentString ApiFunction.drbDelete.special deleteOptions =
      literal "&root=dropbox&list=true&path=/a%20b" ∧
    (∀ o ∈ [(DRBOPT_INCL_DELETED, literal "&include_deleted="), (DRBOPT_LIST, literal "&list="),
          (DRBOPT_OVERWRITE, literal "&overwrite="), (DRBOPT_SHORT_URL, literal "&short_url=")],
      drbGetOpt 4096 [.int o.1, .int DRBVAL_IGNORE_BOOL, .int DRBOPT_END] DRBOPT_VOID none
          emptyShArg =
        .ok (DRBERR_OK,
          some (o.2 ++ (if DRBVAL_IGNORE_BOOL = 0 then literal "false" else literal "true")),
          emptyShArg)) ∧
    drbGetOpt 4096 [.int DRBOPT_LIST, .int DRBVAL_IGNORE_BOOL, .int DRBOPT_END] DRBOPT_VOID
      none emptyShArg = .ok (DRBERR_OK, some (literal "&list=true"), emptyShArg) ∧
    drbGetOpt 4096 [.int DRBOPT_FILE_LIMIT, .int DRBVAL_IGNORE_INT, .int DRBOPT_END]
      DRBOPT_VOID none emptyShArg = .ok (DRBERR_OK, some [], emptyShArg) ∧
    drbGetOpt 4096 [.int DRBOPT_LOCALE, .str none, .int DRBOPT_END] DRBOPT_VOID none
      emptyShArg = .ok (DRBERR_OK, some [], emptyShArg) ∧
    ∃ code shArg, parseOptions 4096 .drbDelete (vaList deleteOptions) =
      .ok (code, some (argumentString ApiFunction.drbDelete.special deleteOptions), shArg) :=
  ⟨by decide, by decide, by decide, by decide, by decide, by decide,
    boolean_option_with_ignore_value_is_sent 4096 .drbDelete deleteOptions DRBVAL_IGNORE_BOOL
      (by decide) (by decide) (by decide) (by decide) (by decide)⟩
end DropboxFuse
